import Mathlib

/-!
# Shallow embedding of `index.js` (lesson material aggregator and dictation synthesis)

Strings are lists of characters.  The modelling choices, each stated where it is used:

* case mapping (`toLowerCase`, the flag `i` of regular expressions) acts on ASCII letters;
  `\w`, `\d` and `\s` are the ECMAScript classes;
* lengths count code points, which is the JavaScript length for text of the Basic Multilingual
  Plane;
* numbers are natural numbers, and the quotient computed by `jaccard` is an exact rational (for
  token sets of fewer than `10 ^ 14` words its comparison with `0.45` is the comparison made in
  double precision);
* a regular expression is translated to the function that decides its matches.
-/

set_option autoImplicit false

namespace Dictation

/-! ## Character classes -/

/-- The class `\s` of ECMAScript regular expressions, also the characters removed by `trim`. -/
def isSpace (c : Char) : Bool :=
  let n := c.toNat
  n == 9 || n == 10 || n == 11 || n == 12 || n == 13 || n == 32 || n == 160 || n == 5760 ||
  (8192 ≤ n && n ≤ 8202) || n == 8232 || n == 8233 || n == 8239 || n == 8287 ||
  n == 12288 || n == 65279

/-- The class `\w`: ASCII letters, digits and the underscore. -/
def isWordChar (c : Char) : Bool := c.isAlphanum || c == '_'

/-- The class `[^\w']` stripped from both ends of a token by `normalizeWord`. -/
def isEdgeJunk (c : Char) : Bool := !(isWordChar c || c == '\'')

/-! ## White space normalisation: `s.replace(/\s+/g, " ").trim()` -/

/-- The expression `s.replace(/\s+/g, " ")`; the flag records that the previous character was white space. -/
def collapseSpaces : Bool → List Char → List Char
  | _, [] => []
  | inRun, c :: cs =>
    if isSpace c then
      if inRun then collapseSpaces true cs else ' ' :: collapseSpaces true cs
    else c :: collapseSpaces false cs

/-- The expression `s.trim()`. -/
def trim (s : List Char) : List Char :=
  ((s.dropWhile isSpace).reverse.dropWhile isSpace).reverse

/-- The expression `s.replace(/\s+/g, " ").trim()`. -/
def normalizeSpaces (s : List Char) : List Char := trim (collapseSpaces false s)

/-- The expression `s.split(/\s+/)`: `cur` is the piece being read (reversed), the flag records that the
previous character was white space. -/
def splitSpacesAux : List Char → Bool → List Char → List (List Char)
  | cur, _, [] => [cur.reverse]
  | cur, inRun, c :: cs =>
    if isSpace c then
      if inRun then splitSpacesAux cur true cs else cur.reverse :: splitSpacesAux [] true cs
    else splitSpacesAux (c :: cur) false cs

/-- The expression `s.split(/\s+/)`. -/
def splitSpaces (s : List Char) : List (List Char) := splitSpacesAux [] false s

/-! ## Tokens -/

/-- The set `STOPWORDS`. -/
def STOPWORDS : List (List Char) :=
  ["the","a","an","and","or","but","so","to","of","in","on","at","for","from","with","as",
   "is","are","was","were","be","been","being","am",
   "i","you","he","she","it","we","they","me","him","her","them","my","your","his","their","our",
   "this","that","these","those",
   "not","no","yes","do","does","did","done",
   "have","has","had",
   "will","would","can","could","may","might","should","must"].map String.toList

/-- The function `normalizeWord(w)`: trim, strip `[^\w']+` at both ends, lower-case. -/
def normalizeWord (w : List Char) : List Char :=
  (((trim w).dropWhile isEdgeJunk).reverse.dropWhile isEdgeJunk).reverse.map Char.toLower

/-- The function `tokenize(text)`. -/
def tokenize (text : List Char) : List (List Char) :=
  ((splitSpaces (normalizeSpaces text)).map normalizeWord).filter (fun w => !w.isEmpty)

/-- The loop of `uniqueWordsInText`: `seen` is the set of words met so far.  It lists the
elements of a `Set` built from the list, in insertion order. -/
def uniqueAux {α : Type} [DecidableEq α] : List α → List α → List α
  | _, [] => []
  | seen, w :: ws =>
    if w ∈ seen then uniqueAux seen ws else w :: uniqueAux (w :: seen) ws

/-- The function `uniqueWordsInText(text)`. -/
def uniqueWordsInText (text : List Char) : List (List Char) := uniqueAux [] (tokenize text)

/-- The test `/^\d+$/`. -/
def isNumeric (w : List Char) : Bool := !w.isEmpty && w.all Char.isDigit

/-- The three filters applied to the unique words: the candidate answer pool. -/
def eligibleWords (text : List Char) : List (List Char) :=
  (((uniqueWordsInText text).filter (fun w => 4 ≤ w.length)).filter
    (fun w => !(w ∈ STOPWORDS))).filter (fun w => !isNumeric w)

/-- The function `pickAnswerWordsFromSnippet(snippet, n)`. -/
def pickAnswerWordsFromSnippet (snippet : List Char) (n : Nat) : List (List Char) :=
  (eligibleWords snippet).take n

/-! ## Whole-word search: the regular expression `\bword\b` with flag `i` -/

/-- Whether position `i` of `t` holds a word character (false outside the text). -/
def wordAt (t : List Char) (i : Nat) : Bool :=
  match t[i]? with
  | some c => isWordChar c
  | none => false

/-- The assertion `\b` at position `i`. -/
def isBoundary (t : List Char) (i : Nat) : Bool :=
  xor (i != 0 && wordAt t (i - 1)) (wordAt t i)

/-- Case-insensitive comparison of the text at position `i` with the literal `w`. -/
def ciMatchAt (t w : List Char) (i : Nat) : Bool :=
  ((t.drop i).take w.length).map Char.toLower == w.map Char.toLower

/-- Whether `\bw\b` (flag `i`) matches at position `i` of `t`. -/
def wholeWordAt (t w : List Char) (i : Nat) : Bool :=
  isBoundary t i && ciMatchAt t w i && isBoundary t (i + w.length)

/-- Leftmost position `j` with `i ≤ j < i + fuel` at which `p` holds: the search of
`RegExp.prototype.exec`, which tries the start positions from left to right. -/
def findFrom (p : Nat → Bool) : Nat → Nat → Option Nat
  | 0, _ => none
  | fuel + 1, i => if p i then some i else findFrom p fuel (i + 1)

/-- The function `firstIndexOfWholeWord(text, word)`; `none` stands for `Number.POSITIVE_INFINITY`. -/
def firstIndexOfWholeWord (text word : List Char) : Option Nat :=
  findFrom (wholeWordAt text word) (text.length + 1) 0

/-- The function `replaceOnceWholeWord(text, word, replacement)`, for a replacement without `$`. -/
def replaceOnceWholeWord (text word replacement : List Char) : List Char :=
  match firstIndexOfWholeWord text word with
  | none => text
  | some i => text.take i ++ replacement ++ text.drop (i + word.length)

/-! ## Blank markers: the regular expression `_{3,}` with flag `g` -/

/-- Number of matches of `/_{3,}/g`: `run` is the length of the run of underscores being read. -/
def countBlanksAux : Nat → List Char → Nat
  | run, [] => if 3 ≤ run then 1 else 0
  | run, c :: cs =>
    if c == '_' then countBlanksAux (run + 1) cs
    else (if 3 ≤ run then 1 else 0) + countBlanksAux 0 cs

/-- The expression `(working.match(/_{3,}/g) || []).length`. -/
def countBlanks (s : List Char) : Nat := countBlanksAux 0 s

/-- What a finished run of `run` underscores becomes in `fillBlanks`. -/
def fillRun (answers : List (List Char)) (run idx : Nat) : List Char :=
  if 3 ≤ run then answers.getD idx "____".toList else List.replicate run '_'

/-- The callback replacement of `fillBlanks`: `idx` counts the markers already replaced. -/
def fillBlanksAux (answers : List (List Char)) : Nat → Nat → List Char → List Char
  | run, idx, [] => fillRun answers run idx
  | run, idx, c :: cs =>
    if c == '_' then fillBlanksAux answers (run + 1) idx cs
    else fillRun answers run idx ++ c :: fillBlanksAux answers 0 (if 3 ≤ run then idx + 1 else idx) cs

/-- The function `fillBlanks(template, answers)`. -/
def fillBlanks (template : List Char) (answers : List (List Char)) : List Char :=
  normalizeSpaces (fillBlanksAux answers 0 0 template)

/-! ## `buildClozeFromSnippet` -/

/-- The blank marker written by `buildClozeFromSnippet`. -/
def blankMarker : List Char := "________".toList

/-- One step of the inner `for` loop: update `best` with the pool word `w`. -/
def bestStep (picked : List (List Char)) (working : List Char)
    (best : Option (List Char × Nat)) (w : List Char) : Option (List Char × Nat) :=
  if w ∈ picked then best
  else match firstIndexOfWholeWord working w with
    | none => best
    | some idx =>
      match best with
      | none => some (w, idx)
      | some b => if idx < b.2 then some (w, idx) else best

/-- The inner `for` loop: the unpicked pool word whose first whole-word occurrence is leftmost. -/
def findBest (pool picked : List (List Char)) (working : List Char) : Option (List Char × Nat) :=
  pool.foldl (bestStep picked working) none

/-- The `while` loop; each round adds one word to `picked`, so `fuel` rounds remain when
`picked.length + fuel = blankCount`. -/
def clozeLoop (pool : List (List Char)) : Nat → List (List Char) → List Char →
    List (List Char) × List Char
  | 0, picked, working => (picked, working)
  | fuel + 1, picked, working =>
    match findBest pool picked working with
    | none => (picked, working)
    | some b => clozeLoop pool fuel (picked ++ [b.1]) (replaceOnceWholeWord working b.1 blankMarker)

/-- A cloze item `{ sentence, answers }`. -/
structure Cloze where
  sentence : List Char
  answers : List (List Char)
  deriving DecidableEq, Repr

/-- The function `buildClozeFromSnippet(snippet, blankCount)`. -/
def buildClozeFromSnippet (snippet : List Char) (blankCount : Nat) : Cloze :=
  let out := normalizeSpaces snippet
  if out.isEmpty then { sentence := [], answers := [] }
  else
    let pool := eligibleWords out
    let r := clozeLoop pool blankCount [] out
    { sentence := r.2, answers := r.1.take (countBlanks r.2) }

/-! ## Diversity selector -/

/-- The expression `new Set(tokenize(a))`, in insertion order. -/
def tokenSet (a : List Char) : List (List Char) := uniqueAux [] (tokenize a)

/-- The function `jaccard(a, b)`.  The quotient `inter / uni` is taken in the rationals. -/
def jaccard (a b : List Char) : ℚ :=
  let A := tokenSet a
  let B := tokenSet b
  if A.length = 0 ∨ B.length = 0 then 0
  else
    let inter := (A.filter (fun w => w ∈ B)).length
    let uni := A.length + B.length - inter
    if uni = 0 then 0 else (inter : ℚ) / (uni : ℚ)

/-- The first `for` loop of `pickDistinctSnippets`, from the state `picked`. -/
def firstPass (maxSim : ℚ) (count : Nat) : List (List Char) → List (List Char) → List (List Char)
  | [], picked => picked
  | s :: rest, picked =>
    if s.isEmpty then firstPass maxSim count rest picked
    else
      let picked1 := if picked.all (fun p => jaccard p s ≤ maxSim) then picked ++ [s] else picked
      if count ≤ picked1.length then picked1 else firstPass maxSim count rest picked1

/-- The second `for` loop of `pickDistinctSnippets` (the fallback), from the state `picked`. -/
def secondPass (count : Nat) : List (List Char) → List (List Char) → List (List Char)
  | [], picked => picked
  | s :: rest, picked =>
    if count ≤ picked.length then picked
    else secondPass count rest (if s ∈ picked then picked else picked ++ [s])

/-- The function `pickDistinctSnippets(snippets, count, { maxSim })`. -/
def pickDistinctSnippets (snippets : List (List Char)) (count : Nat) (maxSim : ℚ) :
    List (List Char) :=
  (secondPass count snippets (firstPass maxSim count snippets [])).take count

/-- The default `maxSim = 0.45`. -/
def defaultMaxSim : ℚ := 45 / 100

end Dictation

/-! # The aggregator `buildLegacyMaterialsOnOfficialUpload`

A field that is missing and a field that holds `null` are both `none`: the code reads the
record only through `??`, `Array.isArray` and truthiness, which do not tell them apart.
Numbers are naturals; `updatedAt` (a server time stamp) is left out. -/

namespace Materials

/-- An entry of `passages`. -/
structure Passage where
  id : Nat
  order : Nat
  durationSec : Nat
  audioPath : Option (List Char)
  subtitlePath : Option (List Char)
  scriptPath : Option (List Char)
  questionsPath : Option (List Char)
  dictationPath : Option (List Char)
  imagePaths : Option (List (List Char))
  imagePath : Option (List Char)
  deriving DecidableEq, Repr

/-- A document of the collection `materials`. -/
structure LessonRecord where
  title : Option (List Char)
  level : Option (List Char)
  lesson : Option Nat
  pattern : Option (List Char)
  id : Option (List Char)
  mode : Option (List (List Char))
  passages : Option (List Passage)
  dictationPath : Option (List Char)
  deriving DecidableEq, Repr

/-- The branch of the `if` chain taken for a file name; `other` is the case where no branch
is taken. -/
inductive FileKind where
  | audio | subtitle | script | questions | dictation | image | other
  deriving DecidableEq, Repr

/-- The document `{}` used when the snapshot does not exist. -/
def emptyRecord : LessonRecord :=
  { title := none, level := none, lesson := none, pattern := none, id := none,
    mode := none, passages := none, dictationPath := none }

/-- The passage `{ id: passage, order: passage, durationSec: 0 }`. -/
def newPassage (passage : Nat) : Passage :=
  { id := passage, order := passage, durationSec := 0, audioPath := none, subtitlePath := none,
    scriptPath := none, questionsPath := none, dictationPath := none, imagePaths := none,
    imagePath := none }

/-- The first run of digits of a string as a number: `s.match(/(\d+)/)` then `Number`. -/
def firstNumber (s : List Char) : Option Nat :=
  let ds := (s.dropWhile (fun c => !c.isDigit)).takeWhile Char.isDigit
  if ds.isEmpty then none else some (ds.foldl (fun acc c => acc * 10 + (c.toNat - 48)) 0)

/-- The function `levelToNumber(levelStr)`. -/
def levelToNumber (levelStr : List Char) : Option Nat := firstNumber levelStr

/-- The function `lessonToNumber(lessonStr)`. -/
def lessonToNumber (lessonStr : List Char) : Option Nat := firstNumber lessonStr

/-- What a template literal prints for a number or `null`. -/
def showNumber : Option Nat → List Char
  | some n => (Nat.repr n).toList
  | none => "null".toList

/-- The expression `s.padStart(2, "0")`. -/
def padStart2 (s : List Char) : List Char := List.replicate (2 - s.length) '0' ++ s

/-- The function `legacyDocId(levelStr, lessonStr, pattern)`. -/
def legacyDocId (levelStr lessonStr pattern : List Char) : List Char :=
  "Level_".toList ++ showNumber (levelToNumber levelStr) ++ "_Lesson".toList ++
    showNumber (lessonToNumber lessonStr) ++ "_".toList ++ pattern

/-- The function `legacyId(levelStr, lessonStr, pattern)`. -/
def legacyId (levelStr lessonStr pattern : List Char) : List Char :=
  "L".toList ++ showNumber (levelToNumber levelStr) ++ "_".toList ++ pattern ++ "_".toList ++
    padStart2 (showNumber (lessonToNumber lessonStr))

/-- The capture of `/_([a-d])\.(png|jpg|jpeg)$/i`, if the path matches. -/
def imageSuffixLetter (p : List Char) : Option Char :=
  let low := p.map Char.toLower
  let ext : Option Nat :=
    if ".jpeg".toList.isSuffixOf low then some 5
    else if ".png".toList.isSuffixOf low || ".jpg".toList.isSuffixOf low then some 4
    else none
  match ext with
  | none => none
  | some k =>
    match (p.reverse.drop k) with
    | c :: u :: _ => if u == '_' && ('a' ≤ c.toLower && c.toLower ≤ 'd') then some c else none
    | _ => none

/-- Rank of the sort key (`"z"` when the path has no suffix letter) in the order used by
`localeCompare`: `a < A < b < B < c < C < d < D < z`. -/
def imageSortKey (p : List Char) : Nat :=
  match imageSuffixLetter p with
  | none => 8
  | some c => 2 * (c.toLower.toNat - 97) + (if c.isUpper then 1 else 0)

/-- The expression `Array.from(new Set(arr))`: the elements in order of first occurrence. -/
def setOfArray (arr : List (List Char)) : List (List Char) := Dictation.uniqueAux [] arr

/-- The comparison function passed to `sort`, as an order on paths. -/
def imageLe (p1 p2 : List Char) : Prop := imageSortKey p1 ≤ imageSortKey p2

instance : DecidableRel imageLe := fun p1 p2 => Nat.decLe (imageSortKey p1) (imageSortKey p2)

/-- The function `upsertSortedImagePaths(existing, addPath)`; `Array.prototype.sort` is a stable sort. -/
def upsertSortedImagePaths (existing : Option (List (List Char))) (addPath : List Char) :
    List (List Char) :=
  List.insertionSort imageLe (setOfArray (existing.getD [] ++ [addPath]))

/-- The assignment made by the branch of the `if` chain that is taken. -/
def writeField (kind : FileKind) (filePath : List Char) (p : Passage) : Passage :=
  match kind with
  | .audio => { p with audioPath := some filePath }
  | .subtitle => { p with subtitlePath := some filePath }
  | .script => { p with scriptPath := some filePath }
  | .questions => { p with questionsPath := some filePath }
  | .dictation => { p with dictationPath := some filePath }
  | .image =>
    let l := upsertSortedImagePaths p.imagePaths filePath
    { p with imagePaths := some l, imagePath := l.head? }
  | .other => p

/-- The passages after `find`, the optional `push` and the assignment to the found object. -/
def upsertPassage (passage : Nat) (f : Passage → Passage) : List Passage → List Passage
  | [] => [f (newPassage passage)]
  | x :: xs => if x.id = passage then f x :: xs else x :: upsertPassage passage f xs

/-- The passage `p` after the assignment. -/
def touchedPassage (passage : Nat) (f : Passage → Passage) (passages : List Passage) : Passage :=
  f ((passages.find? (fun x => x.id == passage)).getD (newPassage passage))

/-- Truthiness of an optional string field. -/
def truthy : Option (List Char) → Bool
  | some s => !s.isEmpty
  | none => false

/-- The mode `"dictation"`. -/
def dictationMode : List Char := "dictation".toList

/-- The modes `["listening", "overlapping"]` used when the record has no `mode` array. -/
def defaultModes : List (List Char) := ["listening".toList, "overlapping".toList]

/-- The expression `Array.from(modeSet)`. -/
def modeAfter (mode : Option (List (List Char))) (hasDictation : Bool) : List (List Char) :=
  let base := setOfArray (mode.getD defaultModes)
  if hasDictation && !(dictationMode ∈ base) then base ++ [dictationMode] else base

/-- The body of the transaction for a file under `passage{N}`: the document stored after
`tx.set(ref, legacy, { merge: true })`, from the snapshot `snap`. -/
def txBody (level lesson pattern : List Char) (passage : Nat) (kind : FileKind)
    (filePath : List Char) (snap : Option LessonRecord) : LessonRecord :=
  let data := snap.getD emptyRecord
  let passages := data.passages.getD []
  let p := touchedPassage passage (writeField kind filePath) passages
  { title := some (data.title.getD lesson),
    level := some (data.level.getD level),
    lesson := match data.lesson with
      | some n => some n
      | none => lessonToNumber lesson,
    pattern := some (data.pattern.getD pattern),
    id := some (data.id.getD (legacyId level lesson pattern)),
    mode := some (modeAfter data.mode (truthy p.dictationPath)),
    passages := some (upsertPassage passage (writeField kind filePath) passages),
    dictationPath := data.dictationPath }

/-- The expression `FieldValue.arrayUnion(x)` applied to a field. -/
def arrayUnion (field : Option (List (List Char))) (x : List Char) : List (List Char) :=
  match field with
  | none => [x]
  | some l => if x ∈ l then l else l ++ [x]

/-- The write made for a lesson-level `dictation.json`:
`set({ dictationPath, mode: arrayUnion("dictation") }, { merge: true })`. -/
def setLessonDictation (filePath : List Char) (snap : Option LessonRecord) : LessonRecord :=
  let data := snap.getD emptyRecord
  { data with dictationPath := some filePath, mode := some (arrayUnion data.mode dictationMode) }

/-- A classified event for one `(level, lesson, pattern)` key. -/
inductive Event where
  | passageFile (passage : Nat) (kind : FileKind) (filePath : List Char)
  | lessonDictation (filePath : List Char)
  deriving DecidableEq, Repr

/-- The record of the key after the event is handled. -/
def applyEvent (level lesson pattern : List Char) (e : Event) (snap : Option LessonRecord) :
    Option LessonRecord :=
  match e with
  | .passageFile passage kind filePath => some (txBody level lesson pattern passage kind filePath snap)
  | .lessonDictation filePath => some (setLessonDictation filePath snap)

/-- The record of the key after the events are handled one after the other. -/
def applyEvents (level lesson pattern : List Char) (es : List Event) (snap : Option LessonRecord) :
    Option LessonRecord :=
  es.foldl (fun r e => applyEvent level lesson pattern e r) snap

/-! ## From the path of an uploaded file to a classified event -/

/-- The expression `s.toLowerCase()`. -/
def lower (s : List Char) : List Char := s.map Char.toLower

/-- The expression `s.includes(sub)`. -/
def includes : List Char → List Char → Bool
  | [], sub => sub.isEmpty
  | c :: cs, sub => sub.isPrefixOf (c :: cs) || includes cs sub

/-- The expression `s.split("/")`: `cur` is the piece being read, reversed. -/
def splitSlashAux : List Char → List Char → List (List Char)
  | cur, [] => [cur.reverse]
  | cur, c :: cs =>
    if c == '/' then cur.reverse :: splitSlashAux [] cs else splitSlashAux (c :: cur) cs

/-- The expression `s.split("/")`. -/
def splitSlash (s : List Char) : List (List Char) := splitSlashAux [] s

/-- The expression `filePath.split("/").pop() || ""`. -/
def fileNameOf (filePath : List Char) : List Char := (splitSlash filePath).getLast?.getD []

/-- The function `isOfficialPath(p)`. -/
def isOfficialPath (p : List Char) : Bool := "official/".toList.isPrefixOf p

/-- A match of `/\/passage(\d+)\//i` at the start of `t`: the number captured. -/
def passageAt (t : List Char) : Option Nat :=
  if lower (t.take 8) == "/passage".toList then
    let ds := (t.drop 8).takeWhile Char.isDigit
    if !ds.isEmpty && ((t.drop 8).drop ds.length).head? == some '/' then
      some (ds.foldl (fun acc c => acc * 10 + (c.toNat - 48)) 0)
    else none
  else none

/-- The function `extractPassageNumber(filePath)`: the leftmost match; `none` stands for `null`.  A captured
number is taken to be finite (`Number.isFinite`), which holds below 309 digits. -/
def extractPassageNumber : List Char → Option Nat
  | [] => none
  | c :: cs =>
    match passageAt (c :: cs) with
    | some n => some n
    | none => extractPassageNumber cs

/-- Line terminators, which `.` does not match. -/
def isLineTerminator (c : Char) : Bool :=
  c.toNat == 10 || c.toNat == 13 || c.toNat == 8232 || c.toNat == 8233

/-- The test `/^img_.*_([a-d])\.(png|jpg|jpeg)$/i`. -/
def isImageName (filename : List Char) : Bool :=
  let low := lower filename
  let ext : Option Nat :=
    if ".jpeg".toList.isSuffixOf low then some 5
    else if ".png".toList.isSuffixOf low || ".jpg".toList.isSuffixOf low then some 4
    else none
  match ext with
  | none => false
  | some k =>
    "img_".toList.isPrefixOf low &&
    match ((filename.drop 4).reverse.drop k) with
    | c :: u :: mid =>
      u == '_' && ('a' ≤ c.toLower && c.toLower ≤ 'd') && mid.all (fun x => !isLineTerminator x)
    | _ => false

/-- The `if` chain of the transaction: which assignment is made for a file name. -/
def classifyFilename (filename : List Char) : FileKind :=
  let low := lower filename
  if (".mp3".toList.isSuffixOf low || ".wav".toList.isSuffixOf low) &&
      includes filename "listening".toList then .audio
  else if includes low "subtitles".toList && ".json".toList.isSuffixOf low then .subtitle
  else if "listening.txt".toList.isSuffixOf low then .script
  else if "listening_questions.json".toList.isSuffixOf low ||
      "listening_question.json".toList.isSuffixOf low then .questions
  else if "dictation.json".toList.isSuffixOf low || "_dictation.json".toList.isSuffixOf low then
    .dictation
  else if isImageName filename then .image
  else .other

/-- The function `extractMetaFromOfficialPath(filePath)`: level, lesson, pattern and
passage. -/
def extractMetaFromOfficialPath (filePath : List Char) :
    List Char × List Char × List Char × Option Nat :=
  let parts := splitSlash filePath
  (parts.getD 1 [], parts.getD 2 [], parts.getD 3 [], extractPassageNumber filePath)

/-- The guards of `buildLegacyMaterialsOnOfficialUpload`: the key `(level, lesson, pattern)`
and the classified event of an uploaded file, or `none` when the handler returns without
writing. -/
def classifyUpload (filePath : List Char) :
    Option (List Char × List Char × List Char × Event) :=
  if filePath.isEmpty then none
  else if !isOfficialPath filePath then none
  else
    let parts := splitSlash filePath
    let level := parts.getD 1 []
    let lesson := parts.getD 2 []
    let pattern := parts.getD 3 []
    if level.isEmpty || lesson.isEmpty || pattern.isEmpty then none
    else if pattern == "evaluation".toList then none
    else
      match extractPassageNumber filePath with
      | none =>
        if lower (fileNameOf filePath) == "dictation.json".toList then
          some (level, lesson, pattern, .lessonDictation filePath)
        else none
      | some passage =>
        some (level, lesson, pattern,
          .passageFile passage (classifyFilename (fileNameOf filePath)) filePath)

/-- The collection `materials`: the document stored under each document id. -/
abbrev Store := List Char → Option LessonRecord

/-- The handler `buildLegacyMaterialsOnOfficialUpload` for the event of the file `filePath`: the
collection after the handler has run. -/
def buildLegacyMaterialsOnOfficialUpload (filePath : List Char) (db : Store) : Store :=
  match classifyUpload filePath with
  | none => db
  | some (level, lesson, pattern, e) =>
    fun docId =>
      if docId = legacyDocId level lesson pattern then
        applyEvent level lesson pattern e (db (legacyDocId level lesson pattern))
      else db docId

/-- The collection after the handler has run for each uploaded file in turn. -/
def handleUploads (filePaths : List (List Char)) (db : Store) : Store :=
  filePaths.foldl (fun d p => buildLegacyMaterialsOnOfficialUpload p d) db


end Materials

/-! # Subtitle files and the exercise assembler `generateDictationForLessonPattern` -/

namespace Subtitles

open Materials

/-- The function `isSubtitlesJson(p)`. -/
def isSubtitlesJson (p : List Char) : Bool := "_subtitles.json".toList.isSuffixOf (lower p)

/-- The expression `p.replace(/suffix$/i, r)` for a path whose lower-case form ends with a
suffix of `k` characters, and a replacement `r` without `$`. -/
def replaceSuffix (p : List Char) (k : Nat) (r : List Char) : List Char :=
  p.take (p.length - k) ++ r

/-- The function `toJaSubtitlesPath(p)`; `none` stands for `null`. -/
def toJaSubtitlesPath (p : List Char) : Option (List Char) :=
  let low := lower p
  if "_subtitles_ja.json".toList.isSuffixOf low then
    some (replaceSuffix p 18 "_ja.json".toList)
  else if "_ja.json".toList.isSuffixOf low then none
  else if "_subtitles.json".toList.isSuffixOf low then
    some (replaceSuffix p 15 "_ja.json".toList)
  else if ".json".toList.isSuffixOf low then some (replaceSuffix p 5 "_ja.json".toList)
  else none

/-- The handler `generateJaSubtitleJson` for the event of the file `filePath`: the path of the
file it writes, `none` when it returns without writing.  `jaExists` is the answer of
`bucket.file(jaPath).exists()` and `hasSegments` is `Array.isArray(src.segments)`. -/
def generateJaSubtitleJson (filePath : List Char) (jaExists hasSegments : Bool) :
    Option (List Char) :=
  if filePath.isEmpty then none
  else if !isSubtitlesJson filePath then none
  else
    match toJaSubtitlesPath filePath with
    | none => none
    | some jaPath => if jaExists then none else if !hasSegments then none else some jaPath

end Subtitles

namespace Dictation

open Materials Subtitles

/-! ## Sentences -/

/-- The class `[.!?]`. -/
def isSentenceEnd (c : Char) : Bool := c == '.' || c == '!' || c == '?'

/-- The expression `t.split(/(?<=[.!?])\s+/)`: `cur` is the piece being read (reversed),
`afterEnd` records that the previous character is one of `.!?`, and `inSep` that the previous
character belongs to a separator. -/
def splitSentencesAux : List Char → Bool → Bool → List Char → List (List Char)
  | cur, _, _, [] => [cur.reverse]
  | cur, afterEnd, inSep, c :: cs =>
    if isSpace c && (inSep || afterEnd) then
      if inSep then splitSentencesAux cur false true cs
      else cur.reverse :: splitSentencesAux [] false true cs
    else splitSentencesAux (c :: cur) (isSentenceEnd c) false cs

/-- The function `splitSentences(text)`. -/
def splitSentences (text : List Char) : List (List Char) :=
  let t := normalizeSpaces text
  if t.isEmpty then []
  else ((splitSentencesAux [] false false t).map trim).filter (fun s => !s.isEmpty)

/-! ## Passages and merged texts -/

/-- A value of the map `byPassage`: `{ passage, texts }`. -/
structure PassageTexts where
  passage : Nat
  texts : List (List Char)
  deriving DecidableEq, Repr

/-- The sort key `a.passage || 999`: the number `0` is falsy. -/
def passageSortKey (e : PassageTexts) : Nat := if e.passage = 0 then 999 else e.passage

/-- The comparison function passed to `sort` by `stableSortPassageMap`, as an order. -/
def passageLe (a b : PassageTexts) : Prop := passageSortKey a ≤ passageSortKey b

instance : DecidableRel passageLe := fun a b => Nat.decLe (passageSortKey a) (passageSortKey b)

/-- The function `stableSortPassageMap(entries)`; `Array.prototype.sort` is a stable sort. -/
def stableSortPassageMap (entries : List PassageTexts) : List PassageTexts :=
  List.insertionSort passageLe entries

/-- One round of the loop that fills `byPassage`: the text `t` is pushed to the entry of
`passage`, which is created at the end of the map when it is missing. -/
def addPassageText (passage : Nat) (t : List Char) : List PassageTexts → List PassageTexts
  | [] => [{ passage := passage, texts := [t] }]
  | e :: es =>
    if e.passage = passage then { e with texts := e.texts ++ [t] } :: es
    else e :: addPassageText passage t es

/-- The values of the map `byPassage`, in insertion order.  A subtitle file is given by its
path and by the `text` of its JSON (`""` when it is missing). -/
def collectByPassage (files : List (List Char × List Char)) : List PassageTexts :=
  files.foldl (fun m f =>
    let t := normalizeSpaces f.2
    if t.isEmpty then m else addPassageText ((extractPassageNumber f.1).getD 999) t m) []

/-- An element of `mergedList`: `{ passage, merged }`. -/
structure MergedText where
  passage : Nat
  merged : List Char
  deriving DecidableEq, Repr

/-- The list `mergedList` built from the sorted passages. -/
def mergedListOf (passages : List PassageTexts) : List MergedText :=
  (passages.map (fun p =>
    ({ passage := p.passage,
       merged := normalizeSpaces (List.intercalate " ".toList p.texts) } : MergedText))).filter
    (fun x => 20 ≤ x.merged.length)

/-! ## Candidates and the three snippets -/

/-- The candidates pushed for one merged text: every sentence of at least 20 characters, then
the first two sentences joined by a blank when that has at least 40 characters. -/
def candidatesOfMerged (merged : List Char) : List (List Char) :=
  let sents := splitSentences merged
  (sents.map trim).filter (fun ss => 20 ≤ ss.length) ++
    (match sents with
     | s0 :: s1 :: _ =>
       let two := trim (s0 ++ " ".toList ++ s1)
       if 40 ≤ two.length then [two] else []
     | _ => [])

/-- The list `candidates` after the final `map` and `filter`. -/
def buildCandidates (mergedList : List MergedText) : List (List Char) :=
  ((mergedList.flatMap (fun m => candidatesOfMerged m.merged)).map normalizeSpaces).filter
    (fun s => !s.isEmpty)

/-- The comparison function `(a, b) => b.merged.length - a.merged.length`, as an order. -/
def longerFirst (a b : MergedText) : Prop := b.merged.length ≤ a.merged.length

instance : DecidableRel longerFirst := fun a b => Nat.decLe b.merged.length a.merged.length

/-- The expression `mergedList.slice().sort(...)[0]`; `none` stands for `undefined`. -/
def longestMerged (mergedList : List MergedText) : Option MergedText :=
  (List.insertionSort longerFirst mergedList).head?

/-- The function `pickSnippetNSentences(mergedText, n)`. -/
def pickSnippetNSentences (mergedText : List Char) (n : Nat) : List Char :=
  match splitSentences mergedText with
  | [] => []
  | s0 :: rest =>
    if n ≤ 1 then trim s0
    else
      let s1 := rest.headD []
      let two := trim (s0 ++ " ".toList ++ s1)
      if two.length ≤ 260 && 0 < s1.length then two else trim s0

/-- The snippet that replaces a short or missing third snippet.  The handler reaches this
point with a non-empty `mergedList` only. -/
def substituteC (mergedList : List MergedText) : List Char :=
  match longestMerged mergedList with
  | some longest => pickSnippetNSentences longest.merged 2
  | none => []

/-- The snippets `sA`, `sB` and `sC`; `none` stands for `undefined`. -/
def chooseSnippets (mergedList : List MergedText) :
    Option (List Char) × Option (List Char) × List Char :=
  let picked := pickDistinctSnippets (buildCandidates mergedList) 3 defaultMaxSim
  let sC := match picked[2]? with
    | some sCraw => if sCraw.isEmpty || sCraw.length < 80 then substituteC mergedList else sCraw
    | none => substituteC mergedList
  (picked[0]?, picked[1]?, sC)

/-- The number `wantC`. -/
def wantC (sC : List Char) : Nat := if 120 ≤ sC.length then 4 else 3

/-! ## The exercise document -/

/-- A question `{ id, sentence, answers }`. -/
structure Question where
  id : List Char
  sentence : List Char
  answers : List (List Char)
  deriving DecidableEq, Repr

/-- The document `out` written to `dictation.json`, without `type` and `createdAt`. -/
structure DictationDoc where
  lessonId : List Char
  sourcePrefix : List Char
  text : List Char
  partA : List Question
  partB : List Question
  partC : List Question
  deriving DecidableEq, Repr

/-- The question made of a cloze item. -/
def toQuestion (id : List Char) (c : Cloze) : Question :=
  { id := id, sentence := c.sentence, answers := c.answers }

/-- The document assembled from the three snippets. -/
def assemble (level lesson pattern : List Char)
    (s : Option (List Char) × Option (List Char) × List Char) : DictationDoc :=
  let sA := s.1.getD []
  let sB := s.2.1.getD []
  let sC := s.2.2
  { lessonId := level ++ "_".toList ++ lesson ++ "_".toList ++ pattern,
    sourcePrefix := "official/".toList ++ level ++ "/".toList ++ lesson ++ "/".toList ++ pattern ++
      "/".toList,
    text := normalizeSpaces
      (List.intercalate " ".toList ([sA, sB, sC].filter (fun x => !x.isEmpty))),
    partA := [toQuestion "A1".toList (buildClozeFromSnippet sA 2)],
    partB := [toQuestion "B1".toList (buildClozeFromSnippet sB 3)],
    partC := [toQuestion "C1".toList (buildClozeFromSnippet sC (wantC sC))] }

/-- The subtitle files kept from the listing of the prefix. -/
def subtitleFilesOf (listing : List (List Char × List Char)) : List (List Char × List Char) :=
  ((listing.filter (fun f => isSubtitlesJson f.1)).filter
    (fun f => !includes f.1 "/evaluation/".toList)).filter
    (fun f => !includes f.1 "/dictation_audio/".toList)

/-- The list `mergedList` of the handler, `none` when the handler returns before it has one
with an element. -/
def mergedListOfUpload (filePath : List Char) (listing : List (List Char × List Char)) :
    Option (List MergedText) :=
  if filePath.isEmpty then none
  else if !isOfficialPath filePath then none
  else if !isSubtitlesJson filePath then none
  else if includes filePath "/evaluation/".toList then none
  else if includes filePath "/dictation_audio/".toList then none
  else
    let m := extractMetaFromOfficialPath filePath
    if m.1.isEmpty || m.2.1.isEmpty || m.2.2.1.isEmpty then none
    else
      let subtitleFiles := subtitleFilesOf listing
      if subtitleFiles.isEmpty then none
      else
        let passages := stableSortPassageMap (collectByPassage subtitleFiles)
        if passages.isEmpty then none
        else
          let mergedList := mergedListOf passages
          if mergedList.isEmpty then none else some mergedList

/-- The handler `generateDictationForLessonPattern` for the event of the file `filePath`: the
document it writes to `dictation.json`, `none` when it returns without writing.  `listing`
holds, for every file under the prefix of the lesson pattern, its name and the `text` of its
JSON. -/
def generateDictationForLessonPattern (filePath : List Char)
    (listing : List (List Char × List Char)) : Option DictationDoc :=
  match mergedListOfUpload filePath listing with
  | none => none
  | some mergedList =>
    let m := extractMetaFromOfficialPath filePath
    some (assemble m.1 m.2.1 m.2.2.1 (chooseSnippets mergedList))

end Dictation

/-! # Predicates used in the statements and proofs -/

namespace Dictation

/-- What the inner `for` loop has found after the pool words `seen`. -/
def BestOk (picked : List (List Char)) (working : List Char) (seen : List (List Char)) :
    Option (List Char × Nat) → Prop
  | none => ∀ w ∈ seen, w ∉ picked → firstIndexOfWholeWord working w = none
  | some b => b.1 ∈ seen ∧ b.1 ∉ picked ∧ firstIndexOfWholeWord working b.1 = some b.2 ∧
      ∀ w ∈ seen, w ∉ picked → ∀ i, firstIndexOfWholeWord working w = some i → b.2 ≤ i

/-- A pool word of a text without underscores and apostrophes: it is not empty, has no
underscore, and starts and ends with a word character. -/
def PlainWord (w : List Char) : Prop :=
  w ≠ [] ∧ '_' ∉ w ∧ (∀ c, w.head? = some c → isWordChar c = true) ∧
    (∀ c, w.getLast? = some c → isWordChar c = true)

/-- Invariant of the `while` loop when every pool word is plain: every picked word has its own
blank marker, the markers appear in the order of `picked`, no picked word has a whole-word
occurrence left of its marker, and the text right of position `L` (the end of the last marker)
holds no underscore and every whole-word occurrence of an unpicked pool word. -/
structure ClozeInv (pool picked : List (List Char)) (working : List Char) : Prop where
  sub : ∀ a ∈ picked, a ∈ pool
  count : countBlanks working = picked.length
  tail : ∃ L, (∀ k, L ≤ k → working[k]? ≠ some '_') ∧
    ∀ w ∈ pool, w ∉ picked → ∀ p, wholeWordAt working w p = true → L ≤ p
  blanks : ∀ j a, picked[j]? = some a → ∃ pre post, working = pre ++ blankMarker ++ post ∧
    countBlanks pre = j ∧ pre.getLast? ≠ some '_' ∧
    ∀ i, i < pre.length → wholeWordAt working a i = false

end Dictation

namespace Materials

/-- A classified event for a file under `passage{N}`. -/
structure PassageEvent where
  passage : Nat
  kind : FileKind
  filePath : List Char
  deriving DecidableEq, Repr

/-- The event as handled by the aggregator. -/
def PassageEvent.toEvent (e : PassageEvent) : Event :=
  .passageFile e.passage e.kind e.filePath

/-- No two events of the list write different values to the same place: two files of the same
kind for the same passage have the same path, and two image files of the same passage with the
same sort key are the same file. -/
def Compatible (es : List PassageEvent) : Prop :=
  ∀ e1 ∈ es, ∀ e2 ∈ es, e1.passage = e2.passage → e1.kind = e2.kind →
    (e1.kind = .image → imageSortKey e1.filePath = imageSortKey e2.filePath →
      e1.filePath = e2.filePath) ∧
    (e1.kind ≠ .image → e1.kind ≠ .other → e1.filePath = e2.filePath)

instance (es : List PassageEvent) : Decidable (Compatible es) := by
  unfold Compatible
  infer_instance

/-- The path of the first event of kind `k` for passage `n`. -/
def pathOf (es : List PassageEvent) (n : Nat) (k : FileKind) : Option (List Char) :=
  (es.find? (fun e => e.passage == n && e.kind == k)).map (fun e => e.filePath)

/-- The paths of the image events for passage `n`, in order of arrival. -/
def imagesOf (es : List PassageEvent) (n : Nat) : List (List Char) :=
  (es.filter (fun e => e.passage == n && e.kind == .image)).map (fun e => e.filePath)

/-- The image paths of passage `n`, without repetition and sorted. -/
def sortedImages (es : List PassageEvent) (n : Nat) : List (List Char) :=
  List.insertionSort imageLe (setOfArray (imagesOf es n))

/-- The entry of passage `n` described by a list of compatible events. -/
def expectedPassage (es : List PassageEvent) (n : Nat) : Passage :=
  { id := n, order := n, durationSec := 0,
    audioPath := pathOf es n .audio,
    subtitlePath := pathOf es n .subtitle,
    scriptPath := pathOf es n .script,
    questionsPath := pathOf es n .questions,
    dictationPath := pathOf es n .dictation,
    imagePaths := if imagesOf es n = [] then none else some (sortedImages es n),
    imagePath := (sortedImages es n).head? }

/-- Whether some event is a passage dictation file with a non-empty path. -/
def hasDictation (es : List PassageEvent) : Bool :=
  es.any (fun e => e.kind == .dictation && !e.filePath.isEmpty)

/-- The modes described by a list of events. -/
def expectedMode (es : List PassageEvent) : List (List Char) :=
  defaultModes ++ (if hasDictation es then [dictationMode] else [])

/-- The passage numbers of the events, in order of first arrival. -/
def passageIds (es : List PassageEvent) : List Nat :=
  Dictation.uniqueAux [] (es.map (fun e => e.passage))

/-- The record described by a list of compatible events for one key; passages are listed in
order of first arrival. -/
def expectedRecord (level lesson pattern : List Char) (es : List PassageEvent) :
    Option LessonRecord :=
  if es = [] then none
  else some
    { title := some lesson, level := some level, lesson := lessonToNumber lesson,
      pattern := some pattern, id := some (legacyId level lesson pattern),
      mode := some (expectedMode es),
      passages := some ((passageIds es).map (expectedPassage es)),
      dictationPath := none }

/-- Two record states agree on every top-level field and hold the same passage entries, in
any order. -/
def SameUpToPassageOrder : Option LessonRecord → Option LessonRecord → Prop
  | none, none => True
  | some a, some b =>
    a.title = b.title ∧ a.level = b.level ∧ a.lesson = b.lesson ∧ a.pattern = b.pattern ∧
    a.id = b.id ∧ a.mode = b.mode ∧ a.dictationPath = b.dictationPath ∧
    ∃ ps qs, a.passages = some ps ∧ b.passages = some qs ∧ ps.Perm qs
  | _, _ => False

/-- The document id written by the handler for an uploaded file, `none` when the handler
returns without writing. -/
def targetDocId (filePath : List Char) : Option (List Char) :=
  (classifyUpload filePath).map (fun x => legacyDocId x.1 x.2.1 x.2.2.1)

/-- The collection with no document. -/
def emptyStore : Store := fun _ => none

/-- The passages of a record state: none for the absent record and for a record without a
`passages` array. -/
def passagesOf (r : Option LessonRecord) : List Passage :=
  (r.getD emptyRecord).passages.getD []

/-- The passage ids of a record state, in the order of `passages`. -/
def passageIdsOf (r : Option LessonRecord) : List Nat :=
  (passagesOf r).map (fun x => x.id)

/-- The modes a passage event starts from: the `mode` array of the record, or
`["listening", "overlapping"]`. -/
def baseModes (r : Option LessonRecord) : List (List Char) :=
  (r.getD emptyRecord).mode.getD defaultModes

/-- The entries `x` and `y` agree on `id`, `order`, `durationSec` and on every content field
that the kind `k` does not own. -/
def AgreeOutside (k : FileKind) (x y : Passage) : Prop :=
  x.id = y.id ∧ x.order = y.order ∧ x.durationSec = y.durationSec ∧
  (k ≠ .audio → x.audioPath = y.audioPath) ∧
  (k ≠ .subtitle → x.subtitlePath = y.subtitlePath) ∧
  (k ≠ .script → x.scriptPath = y.scriptPath) ∧
  (k ≠ .questions → x.questionsPath = y.questionsPath) ∧
  (k ≠ .dictation → x.dictationPath = y.dictationPath) ∧
  (k ≠ .image → x.imagePaths = y.imagePaths ∧ x.imagePath = y.imagePath)

/-- The mode `"dictation"` is among the modes of the record as soon as one of its passages has
a non-empty dictation path. -/
def DictationModeInv (r : Option LessonRecord) : Prop :=
  ∀ q ∈ passagesOf r, truthy q.dictationPath = true → dictationMode ∈ baseModes r

end Materials

namespace Materials

/-- The path `official/{level}/{lesson}/{pattern}/dictation.json`. -/
def lessonDictationPath (level lesson pattern : List Char) : List Char :=
  "official/".toList ++ level ++ '/' :: lesson ++ '/' :: pattern ++ "/dictation.json".toList

/-- The entry of passage `n` that a passage event starts from: the first entry of the record
with that id, or the new entry. -/
def entryOf (n : Nat) (r : Option LessonRecord) : Passage :=
  ((passagesOf r).find? (fun x => x.id == n)).getD (newPassage n)

/-- The kind given by the first row of an ordered table whose test accepts the file name,
`other` when no row accepts it. -/
def firstMatch (table : List ((List Char → Bool) × FileKind)) (filename : List Char) : FileKind :=
  match table.find? (fun row => row.1 filename) with
  | some row => row.2
  | none => .other

/-- spec-modelled: a row pattern `*suffix` of the suffix table, read on the file name in lower
case. -/
def specEndsWith (suffix filename : List Char) : Bool := suffix.isSuffixOf (lower filename)

/-- spec-modelled: the row pattern `img_..._[a-d].(png|jpg|jpeg)`, read on the file name in
lower case. -/
def specImageRow (filename : List Char) : Bool :=
  "img_".toList.isPrefixOf (lower filename) &&
    ["_a", "_b", "_c", "_d"].any (fun l => [".png", ".jpg", ".jpeg"].any (fun e =>
      (l ++ e).toList.isSuffixOf ((lower filename).drop 4)))

/-- spec-modelled: the ordered suffix table as the specification words it. -/
def specSuffixTable : List ((List Char → Bool) × FileKind) :=
  [ (fun f => specEndsWith "listening.mp3".toList f || specEndsWith "listening.wav".toList f,
      .audio),
    (specEndsWith "subtitles.json".toList, .subtitle),
    (specEndsWith "listening.txt".toList, .script),
    (fun f => specEndsWith "listening_question.json".toList f ||
      specEndsWith "listening_questions.json".toList f, .questions),
    (specEndsWith "dictation.json".toList, .dictation),
    (specImageRow, .image) ]

/-- The ordered table of the amended statement: the extension `.mp3` or `.wav` with
`listening` anywhere in the name; `subtitles` anywhere in the name with the extension `.json`;
the endings `listening.txt`, `listening_question(s).json` and `dictation.json`; the image
pattern.  Letter case is ignored except for `listening` in the first row. -/
def suffixTable : List ((List Char → Bool) × FileKind) :=
  [ (fun f => (".mp3".toList.isSuffixOf (lower f) || ".wav".toList.isSuffixOf (lower f)) &&
      includes f "listening".toList, .audio),
    (fun f => includes (lower f) "subtitles".toList && ".json".toList.isSuffixOf (lower f),
      .subtitle),
    (fun f => "listening.txt".toList.isSuffixOf (lower f), .script),
    (fun f => "listening_question.json".toList.isSuffixOf (lower f) ||
      "listening_questions.json".toList.isSuffixOf (lower f), .questions),
    (fun f => "dictation.json".toList.isSuffixOf (lower f), .dictation),
    (isImageName, .image) ]

end Materials

namespace Dictation

/-- Every white-space character of the text is a blank, and no white space follows it. -/
def WeakSpaced : List Char → Prop
  | [] => True
  | c :: cs =>
    (isSpace c = true → c = ' ' ∧ ∀ d, cs.head? = some d → isSpace d = false) ∧ WeakSpaced cs

/-- Every white-space character of the text is a blank followed by a character that is not
white space. -/
def SingleSpaced : List Char → Prop
  | [] => True
  | c :: cs =>
    (isSpace c = true → c = ' ' ∧ ∃ d, cs.head? = some d ∧ isSpace d = false) ∧ SingleSpaced cs

/-- Whether the piece being read (reversed) ends with one of `.!?`. -/
def endsSentence : List Char → Bool
  | c :: _ => isSentenceEnd c
  | [] => false

/-- The characters `a b` are not a split point: `b` is not a blank that follows one of
`.!?`. -/
def NoBreak (a b : Char) : Prop := ¬ (isSentenceEnd a = true ∧ b = ' ')

end Dictation

namespace Dictation

/-! ## Token positions and the invariant of the answer count -/

/-- What the inner `for` loop has found after the pool words `seen`, with respect to ties: the
word found is an element of `seen`, and every unpicked word before it has its first whole-word
occurrence strictly further right (a later word replaces `best` only when `idx < best.idx`). -/
def BestFirst (picked : List (List Char)) (working : List Char) (seen : List (List Char)) :
    Option (List Char × Nat) → Prop
  | none => True
  | some b => ∃ l1 l2, seen = l1 ++ b.1 :: l2 ∧
      ∀ w ∈ l1, w ∉ picked → ∀ i, firstIndexOfWholeWord working w = some i → b.2 < i

/-- The pieces of `s.split(/\s+/)` with the position at which each piece starts: `st` is the
start of the piece being read and `i` the position of the next character. -/
def piecesAt : List Char → Nat → Bool → Nat → List Char → List (Nat × List Char)
  | cur, st, _, _, [] => [(st, cur.reverse)]
  | cur, st, inRun, i, c :: cs =>
    if isSpace c then
      if inRun then piecesAt cur (i + 1) true (i + 1) cs
      else (st, cur.reverse) :: piecesAt [] (i + 1) true (i + 1) cs
    else piecesAt (c :: cur) st false (i + 1) cs

/-- Number of characters stripped from the start of a piece by `normalizeWord`. -/
def leadJunk (p : List Char) : Nat := (p.takeWhile isEdgeJunk).length

/-- The tokens of a text, each with the position in the normalised text at which it starts
(after the stripped characters of its piece). -/
def tokenAnchors (text : List Char) : List (List Char × Nat) :=
  ((piecesAt [] 0 false 0 (normalizeSpaces text)).map
    (fun x => (normalizeWord x.2, x.1 + leadJunk x.2))).filter (fun y => !y.1.isEmpty)

/-- The position listed with the first entry for `w`. -/
def anchorIn (tp : List (List Char × Nat)) (w : List Char) : Nat :=
  match tp.find? (fun y => y.1 == w) with
  | some y => y.2
  | none => 0

/-- The position of the first token of the text equal to `w`. -/
def anchorOf (text w : List Char) : Nat := anchorIn (tokenAnchors text) w

/-- The position `q` of the text holds a token occurrence of `w`: a whole-word occurrence of
`w`, preceded up to the start of the text or up to a white space by characters that are not
word characters. -/
def AnchorOk (out w : List Char) (q : Nat) : Prop :=
  wholeWordAt out w q = true ∧
  ∃ s, s ≤ q ∧ (s = 0 ∨ ∃ c, out[s - 1]? = some c ∧ isSpace c = true) ∧
    ∀ k, s ≤ k → k < q → wordAt out k = false

/-- Invariant of the `while` loop that keeps every unpicked pool word placeable: right of
position `L` (the end of the last marker) the working text is the text `out` right of position
`M`, no underscore and every whole-word occurrence of an unpicked pool word lie right of `L`,
and the token occurrence `pos w` of every unpicked pool word lies right of `M`. -/
structure FillInv (out : List Char) (pos : List Char → Nat) (pool picked : List (List Char))
    (working : List Char) (L M : Nat) : Prop where
  free : ∀ k, L ≤ k → working[k]? ≠ some '_'
  left : ∀ w ∈ pool, w ∉ picked → ∀ p, wholeWordAt working w p = true → L ≤ p
  same : working.drop L = out.drop M
  edge : (M = 0 ∧ L = 0) ∨
    (0 < M ∧ 0 < L ∧ wordAt working (L - 1) = true ∧ wordAt out (M - 1) = true)
  anchor : ∀ w ∈ pool, w ∉ picked → M ≤ pos w

/-- The text `a` is empty or ends with a white-space character. -/
def EndsWithSpace (a : List Char) : Prop := a = [] ∨ ∃ c, a.getLast? = some c ∧ isSpace c = true

/-- The piece `p` stands at position `q` of the text `full`, between white space (or the ends
of the text), and holds no white space. -/
def PieceAt (full : List Char) (q : Nat) (p : List Char) : Prop :=
  ∃ a b, full = a ++ p ++ b ∧ a.length = q ∧ EndsWithSpace a ∧
    (∀ c, b.head? = some c → isSpace c = true) ∧ ∀ c ∈ p, isSpace c = false

end Dictation

namespace Materials

/-! ## Records of the collection and arrival orders with the lesson-level file -/

/-- The modes of the record `r` written by a passage event on the record state `snap`: they
have no repetition and are the modes the event starts from, together with `dictation` exactly
when some passage of `r` has a non-empty dictation path. -/
def ModeRecomputed (snap : Option LessonRecord) (r : LessonRecord) : Prop :=
  ∃ l2, r.mode = some l2 ∧ l2.Nodup ∧
    ∀ m, m ∈ l2 ↔ m ∈ baseModes snap ∨
      (m = dictationMode ∧ ∃ q ∈ passagesOf (some r), truthy q.dictationPath = true)

/-- The passage-file events of a list of classified events, in order of arrival. -/
def passagePart (es : List Event) : List PassageEvent :=
  es.filterMap (fun e => match e with
    | .passageFile n k p => some ⟨n, k, p⟩
    | .lessonDictation _ => none)

/-- The paths of the lesson-level `dictation.json` events of a list, in order of arrival. -/
def lessonPaths (es : List Event) : List (List Char) :=
  es.filterMap (fun e => match e with
    | .passageFile _ _ _ => none
    | .lessonDictation p => some p)

/-- No two events of the list write different values to the same place: the passage-file
events are compatible, and the lesson-level dictation events have the same path. -/
def CompatibleEvents (es : List Event) : Prop :=
  Compatible (passagePart es) ∧ ∀ p ∈ lessonPaths es, ∀ q ∈ lessonPaths es, p = q

instance (es : List Event) : Decidable (CompatibleEvents es) := by
  unfold CompatibleEvents
  infer_instance

/-- Whether the first event of the list is the lesson-level `dictation.json`. -/
def lessonFirst : List Event → Bool
  | .lessonDictation _ :: _ => true
  | _ => false

/-- The modes described by a list of classified events handled from the absent record: only
`dictation` when the lesson-level file arrives first (its write creates the `mode` array, so the
default modes are never used), otherwise the default modes, with `dictation` when some event
is a dictation file. -/
def describedMode (es : List Event) : List (List Char) :=
  if lessonFirst es then [dictationMode]
  else defaultModes ++
    (if hasDictation (passagePart es) || !(lessonPaths es).isEmpty then [dictationMode] else [])

/-- The record described by a list of classified events for one key whose passage-file events
are compatible. -/
def describedRecord (level lesson pattern : List Char) (es : List Event) :
    Option LessonRecord :=
  if es = [] then none
  else if passagePart es = [] then
    some { emptyRecord with mode := some (describedMode es), dictationPath := (lessonPaths es).getLast? }
  else some
    { title := some lesson, level := some level, lesson := lessonToNumber lesson,
      pattern := some pattern, id := some (legacyId level lesson pattern),
      mode := some (describedMode es),
      passages := some ((passageIds (passagePart es)).map (expectedPassage (passagePart es))),
      dictationPath := (lessonPaths es).getLast? }

/-- Two record states agree on every top-level field other than `mode` and hold the same
passage entries, in any order. -/
def SameOutsideMode : Option LessonRecord → Option LessonRecord → Prop
  | none, none => True
  | some a, some b =>
    a.title = b.title ∧ a.level = b.level ∧ a.lesson = b.lesson ∧ a.pattern = b.pattern ∧
    a.id = b.id ∧ a.dictationPath = b.dictationPath ∧
    ((a.passages = none ∧ b.passages = none) ∨
      ∃ ps qs, a.passages = some ps ∧ b.passages = some qs ∧ ps.Perm qs)
  | _, _ => False

/-- The `mode` array of a record state. -/
def modeOf (r : Option LessonRecord) : Option (List (List Char)) := r.bind (fun x => x.mode)

/-- Four uploads for the key `Level3/Lesson2/B`, the lesson-level `dictation.json` first. -/
def arrivalLessonFirst : List Event :=
  [.lessonDictation "official/Level3/Lesson2/B/dictation.json".toList,
   .passageFile 2 .audio "official/Level3/Lesson2/B/passage2/listening.mp3".toList,
   .passageFile 1 .image "official/Level3/Lesson2/B/passage1/img_L3_02_d.png".toList,
   .passageFile 1 .image "official/Level3/Lesson2/B/passage1/img_L3_02_a.png".toList]

/-- The same four uploads, a passage file first. -/
def arrivalPassageFirst : List Event :=
  [.passageFile 1 .image "official/Level3/Lesson2/B/passage1/img_L3_02_a.png".toList,
   .lessonDictation "official/Level3/Lesson2/B/dictation.json".toList,
   .passageFile 2 .audio "official/Level3/Lesson2/B/passage2/listening.mp3".toList,
   .passageFile 1 .image "official/Level3/Lesson2/B/passage1/img_L3_02_d.png".toList]

end Materials

namespace Dictation

/-! ## The text replaced by the blank markers -/

/-- The text made of the segments `x.1`, each followed by a blank marker. -/
def markedText (segs : List (List Char × List Char)) : List Char :=
  segs.flatMap (fun x => x.1 ++ blankMarker)

/-- The text made of the segments `x.1`, each followed by the removed text `x.2`. -/
def plainText (segs : List (List Char × List Char)) : List Char :=
  segs.flatMap (fun x => x.1 ++ x.2)

/-- Invariant of the `while` loop that ties each picked word to the text its marker replaced:
`out` is `working` with marker `j` replaced by the text `x.2` of entry `j` of `segs`, the word
picked in round `j` is that text in lower case, the text outside the markers holds no
underscore, every whole-word occurrence of an unpicked pool word starts right of the last
marker, and no picked word has a whole-word occurrence left of its marker. -/
structure Blanked (out : List Char) (pool picked : List (List Char)) (working : List Char)
    (segs : List (List Char × List Char)) (tail : List Char) : Prop where
  sub : ∀ a ∈ picked, a ∈ pool
  text : out = plainText segs ++ tail
  marked : working = markedText segs ++ tail
  words : picked = segs.map (fun x => x.2.map Char.toLower)
  clean : (∀ x ∈ segs, '_' ∉ x.1) ∧ '_' ∉ tail
  left : ∀ w ∈ pool, w ∉ picked → ∀ p, wholeWordAt working w p = true →
    (markedText segs).length ≤ p
  hidden : ∀ pre x post, segs = pre ++ x :: post → ∀ i, i < (markedText pre ++ x.1).length →
    wholeWordAt working (x.2.map Char.toLower) i = false

end Dictation

/-! # Properties -/

namespace Dictation

/-! ## Characters -/

theorem toLower_rel (P : Char → Char → Prop) (hid : ∀ c, P c c)
    (hup : ∀ n, 65 ≤ n → n ≤ 90 → P (Char.ofNat n) (Char.ofNat (n + 32))) (c : Char) :
    P c c.toLower := by
  unfold Char.toLower
  by_cases h : c.toNat ≥ 65 ∧ c.toNat ≤ 90
  · simp only [h, and_self, if_true]
    have := hup c.toNat h.1 h.2
    rwa [Char.ofNat_toNat] at this
  · simp only [h, if_false]
    exact hid c

theorem isWordChar_toLower (c : Char) : isWordChar c.toLower = isWordChar c := by
  refine toLower_rel (fun a b => isWordChar b = isWordChar a) (fun _ => rfl) ?_ c
  intro n h1 h2
  interval_cases n <;> decide

theorem toLower_eq_underscore (c : Char) : c.toLower = '_' ↔ c = '_' := by
  refine toLower_rel (fun a b => b = '_' ↔ a = '_') (fun _ => Iff.rfl) ?_ c
  intro n h1 h2
  interval_cases n <;> decide

theorem toLower_eq_apostrophe (c : Char) : c.toLower = '\'' ↔ c = '\'' := by
  refine toLower_rel (fun a b => b = '\'' ↔ a = '\'') (fun _ => Iff.rfl) ?_ c
  intro n h1 h2
  interval_cases n <;> decide

theorem toLower_toLower (c : Char) : c.toLower.toLower = c.toLower := by
  have h := toLower_rel (fun a b => b.toLower = b ∨ b = a) (fun _ => Or.inr rfl) (by
    intro n h1 h2
    interval_cases n <;> exact Or.inl (by decide)) c
  rcases h with h | h
  · exact h
  · rw [h, h]

theorem isEdgeJunk_toLower (c : Char) : isEdgeJunk c.toLower = isEdgeJunk c := by
  have h : (c.toLower == '\'') = (c == '\'') := by
    rw [Bool.eq_iff_iff]; simpa using toLower_eq_apostrophe c
  simp only [isEdgeJunk, isWordChar_toLower, h]

/-! ## White space normalisation -/

theorem isSpace_blank : isSpace ' ' = true := by decide

theorem collapseSpaces_collapse (l : List Char) : ∀ b b0 : Bool, (b0 = true → b = true) →
    collapseSpaces b0 (collapseSpaces b l) = collapseSpaces b l := by
  induction l with
  | nil => intro b b0 _; rfl
  | cons c cs ih =>
    intro b b0 hb
    by_cases hc : isSpace c = true
    · cases b
      · have hb0 : b0 = false := by cases b0 <;> simp_all
        subst hb0
        simp only [collapseSpaces, hc, if_true, Bool.false_eq_true, if_false, isSpace_blank]
        rw [ih true true (fun _ => rfl)]
      · simp only [collapseSpaces, hc, if_true]
        exact ih true b0 (fun _ => rfl)
    · simp only [collapseSpaces, hc, Bool.false_eq_true, if_false]
      rw [ih false false (by simp)]

theorem dropWhile_collapseSpaces (l : List Char) : ∀ b : Bool,
    (collapseSpaces b l).dropWhile isSpace = collapseSpaces true l := by
  induction l with
  | nil => intro b; rfl
  | cons c cs ih =>
    intro b
    by_cases hc : isSpace c = true
    · cases b
      · simp only [collapseSpaces, hc, if_true, Bool.false_eq_true, if_false,
          List.dropWhile_cons, isSpace_blank]
        exact ih true
      · simp only [collapseSpaces, hc, if_true]
        exact ih true
    · simp only [collapseSpaces, hc, Bool.false_eq_true, if_false, List.dropWhile_cons]

theorem collapseSpaces_length_le (l : List Char) : ∀ b : Bool,
    (collapseSpaces b l).length ≤ l.length := by
  induction l with
  | nil => intro b; simp [collapseSpaces]
  | cons c cs ih =>
    intro b
    have h1 := ih true
    have h2 := ih false
    by_cases hc : isSpace c = true <;> cases b <;>
      simp only [collapseSpaces, hc, if_true, Bool.false_eq_true, if_false, List.length_cons] <;>
      omega

theorem collapseSpaces_append (x y : List Char) : ∀ b : Bool, ∃ b1 : Bool,
    collapseSpaces b (x ++ y) = collapseSpaces b x ++ collapseSpaces b1 y := by
  induction x with
  | nil => intro b; exact ⟨b, rfl⟩
  | cons c cs ih =>
    intro b
    by_cases hc : isSpace c = true
    · obtain ⟨b1, h1⟩ := ih true
      refine ⟨b1, ?_⟩
      cases b <;>
        simp only [List.cons_append, collapseSpaces, hc, if_true, Bool.false_eq_true, if_false,
          List.append_eq, h1]
    · obtain ⟨b1, h1⟩ := ih false
      refine ⟨b1, ?_⟩
      simp only [List.cons_append, collapseSpaces, hc, Bool.false_eq_true, if_false,
        List.append_eq, h1]

theorem collapseSpaces_fixed_prefix (x y : List Char) (b : Bool)
    (h : collapseSpaces b (x ++ y) = x ++ y) : collapseSpaces b x = x := by
  obtain ⟨b1, h1⟩ := collapseSpaces_append x y b
  rw [h1] at h
  have hx := collapseSpaces_length_le x b
  have hy := collapseSpaces_length_le y b1
  have hl := congrArg List.length h
  simp only [List.length_append] at hl
  exact (List.append_inj h (by omega)).1

theorem rdropWhile_cons_of_neg (p : Char → Bool) (h : Char) (t : List Char) (hp : ¬ p h = true) :
    List.rdropWhile p (h :: t) = h :: List.rdropWhile p t := by
  induction t using List.reverseRecOn with
  | nil => simp [List.rdropWhile, hp]
  | append_singleton t x ih =>
    rw [← List.cons_append, List.rdropWhile_concat, List.rdropWhile_concat]
    by_cases hx : p x = true
    · simp only [hx, if_true, ih]
    · simp only [hx, Bool.false_eq_true, if_false, List.cons_append]

theorem dropWhile_rdropWhile_dropWhile (p : Char → Bool) (l : List Char) :
    (List.rdropWhile p (l.dropWhile p)).dropWhile p = List.rdropWhile p (l.dropWhile p) := by
  cases hl : l.dropWhile p with
  | nil => simp [List.rdropWhile]
  | cons h t =>
    have hp : ¬ p h = true := by
      have := List.head_dropWhile_not p l (by rw [hl]; simp)
      simpa [hl] using this
    rw [rdropWhile_cons_of_neg p h t hp]
    simp [List.dropWhile_cons, hp]

theorem trim_eq (s : List Char) : trim s = List.rdropWhile isSpace (s.dropWhile isSpace) := rfl

/-- White space normalisation is idempotent. -/
theorem normalizeSpaces_idem (s : List Char) :
    normalizeSpaces (normalizeSpaces s) = normalizeSpaces s := by
  have hv : normalizeSpaces s = List.rdropWhile isSpace (collapseSpaces true s) := by
    rw [normalizeSpaces, trim_eq, dropWhile_collapseSpaces]
  have hfix : collapseSpaces false (normalizeSpaces s) = normalizeSpaces s := by
    rw [hv]
    obtain ⟨z, hz⟩ := List.rdropWhile_prefix isSpace (collapseSpaces true s)
    apply collapseSpaces_fixed_prefix _ z
    rw [hz]
    exact collapseSpaces_collapse s true false (by simp)
  have htrim : trim (normalizeSpaces s) = normalizeSpaces s := by
    rw [trim_eq]
    have h1 : (normalizeSpaces s).dropWhile isSpace = normalizeSpaces s := by
      rw [normalizeSpaces, trim_eq]
      exact dropWhile_rdropWhile_dropWhile isSpace _
    rw [h1, normalizeSpaces, trim_eq]
    exact List.rdropWhile_idempotent isSpace _
  conv_lhs => rw [normalizeSpaces, hfix, htrim]

theorem tokenize_normalizeSpaces (s : List Char) : tokenize (normalizeSpaces s) = tokenize s := by
  simp only [tokenize, normalizeSpaces_idem]

/-! ## Tokens and the candidate pool -/

theorem mem_uniqueAux {α : Type} [DecidableEq α] (l : List α) : ∀ (seen : List α) (w : α),
    w ∈ uniqueAux seen l ↔ w ∈ l ∧ w ∉ seen := by
  induction l with
  | nil => intro seen w; simp [uniqueAux]
  | cons x xs ih =>
    intro seen w
    by_cases hx : x ∈ seen
    · simp only [uniqueAux, hx, if_true, ih, List.mem_cons]
      constructor
      · rintro ⟨h1, h2⟩; exact ⟨Or.inr h1, h2⟩
      · rintro ⟨h1 | h1, h2⟩
        · subst h1; exact absurd hx h2
        · exact ⟨h1, h2⟩
    · simp only [uniqueAux, hx, if_false, List.mem_cons, ih]
      constructor
      · rintro (h | ⟨h1, h2⟩)
        · subst h; exact ⟨Or.inl rfl, hx⟩
        · exact ⟨Or.inr h1, fun h => h2 (Or.inr h)⟩
      · rintro ⟨h1 | h1, h2⟩
        · exact Or.inl h1
        · by_cases hw : w = x
          · exact Or.inl hw
          · exact Or.inr ⟨h1, fun h => h.elim hw h2⟩

theorem nodup_uniqueAux {α : Type} [DecidableEq α] (l : List α) : ∀ seen : List α,
    (uniqueAux seen l).Nodup := by
  induction l with
  | nil => intro seen; simp [uniqueAux]
  | cons x xs ih =>
    intro seen
    by_cases hx : x ∈ seen
    · simp only [uniqueAux, hx, if_true]; exact ih seen
    · simp only [uniqueAux, hx, if_false, List.nodup_cons]
      refine ⟨?_, ih _⟩
      rw [mem_uniqueAux]
      simp

theorem mem_eligibleWords (text w : List Char) :
    w ∈ eligibleWords text ↔
      w ∈ tokenize text ∧ 4 ≤ w.length ∧ w ∉ STOPWORDS ∧ isNumeric w = false := by
  simp only [eligibleWords, uniqueWordsInText, List.mem_filter, mem_uniqueAux, List.not_mem_nil,
    not_false_eq_true, and_true, decide_eq_true_eq, Bool.not_eq_true', decide_eq_false_iff_not]
  tauto

theorem nodup_eligibleWords (text : List Char) : (eligibleWords text).Nodup := by
  unfold eligibleWords uniqueWordsInText
  exact ((nodup_uniqueAux _ _).filter _ |>.filter _).filter _

theorem mem_tokenize (text a : List Char) (h : a ∈ tokenize text) :
    a ≠ [] ∧ ∃ raw, raw ∈ splitSpaces (normalizeSpaces text) ∧ a = normalizeWord raw := by
  simp only [tokenize, List.mem_filter, List.mem_map, Bool.not_eq_true', List.isEmpty_eq_false] at h
  obtain ⟨⟨raw, h1, h2⟩, h3⟩ := h
  exact ⟨h3, raw, h1, h2.symm⟩

theorem normalizeWord_lower (raw : List Char) :
    (normalizeWord raw).map Char.toLower = normalizeWord raw := by
  simp only [normalizeWord, List.map_map]
  apply List.map_congr_left
  intro c _
  exact toLower_toLower c

theorem normalizeWord_head (raw : List Char) (c : Char)
    (h : (normalizeWord raw).head? = some c) : isEdgeJunk c = false := by
  have hn : normalizeWord raw =
      (List.rdropWhile isEdgeJunk ((trim raw).dropWhile isEdgeJunk)).map Char.toLower := rfl
  have hd := dropWhile_rdropWhile_dropWhile isEdgeJunk (trim raw)
  rw [hn] at h
  generalize List.rdropWhile isEdgeJunk ((trim raw).dropWhile isEdgeJunk) = y at h hd
  cases y with
  | nil => simp at h
  | cons d ds =>
    simp only [List.map_cons, List.head?_cons, Option.some.injEq] at h
    rw [List.dropWhile_eq_self_iff] at hd
    have := hd (by simp)
    simp only [List.get_eq_getElem, List.getElem_cons_zero, Bool.not_eq_true] at this
    rw [← h, isEdgeJunk_toLower]
    exact this

theorem normalizeWord_getLast (raw : List Char) (c : Char)
    (h : (normalizeWord raw).getLast? = some c) : isEdgeJunk c = false := by
  have hn : normalizeWord raw =
      (List.rdropWhile isEdgeJunk ((trim raw).dropWhile isEdgeJunk)).map Char.toLower := rfl
  have hd := List.rdropWhile_idempotent isEdgeJunk ((trim raw).dropWhile isEdgeJunk)
  rw [hn] at h
  generalize List.rdropWhile isEdgeJunk ((trim raw).dropWhile isEdgeJunk) = y at h hd
  rw [List.rdropWhile_eq_self_iff] at hd
  by_cases hy : y = []
  · subst hy; simp at h
  · have h2 := hd hy
    rw [List.getLast?_eq_getLast _ (by simpa using hy)] at h
    simp only [Option.some.injEq] at h
    rw [List.getLast_map] at h
    rw [← h, isEdgeJunk_toLower]
    simpa using h2

/-! ## The search for the leftmost match -/

theorem findFrom_some (p : Nat → Bool) : ∀ (fuel i j : Nat), findFrom p fuel i = some j →
    i ≤ j ∧ j < i + fuel ∧ p j = true ∧ ∀ x, i ≤ x → x < j → p x = false := by
  intro fuel
  induction fuel with
  | zero => intro i j h; simp [findFrom] at h
  | succ k ih =>
    intro i j h
    by_cases hp : p i = true
    · simp only [findFrom, hp, if_true, Option.some.injEq] at h
      subst h
      exact ⟨le_refl _, by omega, hp, fun x h1 h2 => by omega⟩
    · simp only [findFrom, hp, Bool.false_eq_true, if_false] at h
      obtain ⟨h1, h2, h3, h4⟩ := ih (i + 1) j h
      refine ⟨by omega, by omega, h3, fun x hx1 hx2 => ?_⟩
      by_cases hxi : x = i
      · subst hxi; simpa using hp
      · exact h4 x (by omega) hx2

theorem findFrom_none (p : Nat → Bool) : ∀ (fuel i : Nat), findFrom p fuel i = none →
    ∀ x, i ≤ x → x < i + fuel → p x = false := by
  intro fuel
  induction fuel with
  | zero => intro i _ x h1 h2; omega
  | succ k ih =>
    intro i h x h1 h2
    by_cases hp : p i = true
    · simp [findFrom, hp] at h
    · simp only [findFrom, hp, Bool.false_eq_true, if_false] at h
      by_cases hxi : x = i
      · subst hxi; simpa using hp
      · exact ih (i + 1) h x (by omega) (by omega)

theorem bestStep_ok (picked : List (List Char)) (working : List Char) (seen : List (List Char))
    (best : Option (List Char × Nat)) (w : List Char) (h : BestOk picked working seen best) :
    BestOk picked working (seen ++ [w]) (bestStep picked working best w) := by
  unfold bestStep
  by_cases hw : w ∈ picked
  · simp only [hw, if_true]
    cases best with
    | none =>
      intro v hv hvp
      rcases List.mem_append.1 hv with hv | hv
      · exact h v hv hvp
      · simp only [List.mem_singleton] at hv; subst hv; exact absurd hw hvp
    | some b =>
      obtain ⟨h1, h2, h3, h4⟩ := h
      refine ⟨List.mem_append_left _ h1, h2, h3, fun v hv hvp i hi => ?_⟩
      rcases List.mem_append.1 hv with hv | hv
      · exact h4 v hv hvp i hi
      · simp only [List.mem_singleton] at hv; subst hv; exact absurd hw hvp
  · simp only [hw, if_false]
    cases hf : firstIndexOfWholeWord working w with
    | none =>
      cases best with
      | none =>
        intro v hv hvp
        rcases List.mem_append.1 hv with hv | hv
        · exact h v hv hvp
        · simp only [List.mem_singleton] at hv; subst hv; exact hf
      | some b =>
        obtain ⟨h1, h2, h3, h4⟩ := h
        refine ⟨List.mem_append_left _ h1, h2, h3, fun v hv hvp i hi => ?_⟩
        rcases List.mem_append.1 hv with hv | hv
        · exact h4 v hv hvp i hi
        · simp only [List.mem_singleton] at hv; subst hv; rw [hf] at hi; cases hi
    | some idx =>
      cases best with
      | none =>
        refine ⟨by simp, hw, hf, fun v hv hvp i hi => ?_⟩
        rcases List.mem_append.1 hv with hv | hv
        · rw [h v hv hvp] at hi; cases hi
        · simp only [List.mem_singleton] at hv; subst hv
          rw [hf] at hi; cases hi; exact le_refl _
      | some b =>
        obtain ⟨h1, h2, h3, h4⟩ := h
        by_cases hlt : idx < b.2
        · simp only [hlt, if_true]
          refine ⟨by simp, hw, hf, fun v hv hvp i hi => ?_⟩
          rcases List.mem_append.1 hv with hv | hv
          · have := h4 v hv hvp i hi
            show idx ≤ i
            omega
          · simp only [List.mem_singleton] at hv; subst hv
            rw [hf] at hi; cases hi; exact le_refl _
        · simp only [hlt, if_false]
          refine ⟨List.mem_append_left _ h1, h2, h3, fun v hv hvp i hi => ?_⟩
          rcases List.mem_append.1 hv with hv | hv
          · exact h4 v hv hvp i hi
          · simp only [List.mem_singleton] at hv; subst hv
            rw [hf] at hi; cases hi; omega

theorem foldl_bestStep_ok (picked : List (List Char)) (working : List Char)
    (l : List (List Char)) : ∀ (seen : List (List Char)) (best : Option (List Char × Nat)),
    BestOk picked working seen best →
    BestOk picked working (seen ++ l) (l.foldl (bestStep picked working) best) := by
  induction l with
  | nil => intro seen best h; simpa using h
  | cons w ws ih =>
    intro seen best h
    have := ih (seen ++ [w]) _ (bestStep_ok picked working seen best w h)
    simpa using this

/-- The word found by the inner `for` loop is an unpicked pool word whose first whole-word
occurrence is leftmost among the unpicked pool words. -/
theorem findBest_ok (pool picked : List (List Char)) (working : List Char) :
    BestOk picked working pool (findBest pool picked working) := by
  have := foldl_bestStep_ok picked working pool [] none (by intro w hw; simp at hw)
  simpa using this

/-- Induction principle for the `while` loop. -/
theorem clozeLoop_induct (pool : List (List Char)) (Inv : List (List Char) → List Char → Prop)
    (step : ∀ picked working b, Inv picked working → findBest pool picked working = some b →
      Inv (picked ++ [b.1]) (replaceOnceWholeWord working b.1 blankMarker)) :
    ∀ (fuel : Nat) (picked : List (List Char)) (working : List Char), Inv picked working →
      Inv (clozeLoop pool fuel picked working).1 (clozeLoop pool fuel picked working).2 := by
  intro fuel
  induction fuel with
  | zero => intro picked working h; exact h
  | succ k ih =>
    intro picked working h
    cases hb : findBest pool picked working with
    | none => simp only [clozeLoop, hb]; exact h
    | some b =>
      simp only [clozeLoop, hb]
      exact ih _ _ (step picked working b h hb)

theorem clozeLoop_picked (pool : List (List Char)) (fuel : Nat) (working : List Char) :
    (∀ a ∈ (clozeLoop pool fuel [] working).1, a ∈ pool) ∧
      (clozeLoop pool fuel [] working).1.Nodup := by
  refine clozeLoop_induct pool (fun picked _ => (∀ a ∈ picked, a ∈ pool) ∧ picked.Nodup) ?_
    fuel [] working ⟨by simp, List.nodup_nil⟩
  intro picked w b ⟨h1, h2⟩ hb
  have hok := findBest_ok pool picked w
  rw [hb] at hok
  obtain ⟨hb1, hb2, _, _⟩ := hok
  refine ⟨fun a ha => ?_, ?_⟩
  · rcases List.mem_append.1 ha with ha | ha
    · exact h1 a ha
    · simp only [List.mem_singleton] at ha; subst ha; exact hb1
  · rw [List.nodup_append]
    refine ⟨h2, List.nodup_singleton _, ?_⟩
    intro a ha hb'
    simp only [List.mem_singleton] at hb'
    subst hb'
    exact hb2 ha

/-- C6. Every answer returned by `buildClozeFromSnippet` is a normalised token of the snippet
(lower case, no `[^\w']` character at either end) of length at least 4 that is neither a stop
word nor purely numeric, and the answers are pairwise distinct. -/
theorem buildCloze_answers_eligible (snippet : List Char) (blankCount : Nat) :
    (∀ a ∈ (buildClozeFromSnippet snippet blankCount).answers,
        a ∈ tokenize snippet ∧ a.map Char.toLower = a ∧
        (∀ c, a.head? = some c → isEdgeJunk c = false) ∧
        (∀ c, a.getLast? = some c → isEdgeJunk c = false) ∧
        4 ≤ a.length ∧ a ∉ STOPWORDS ∧ isNumeric a = false) ∧
    (buildClozeFromSnippet snippet blankCount).answers.Nodup := by
  unfold buildClozeFromSnippet
  by_cases he : (normalizeSpaces snippet).isEmpty = true
  · simp [he]
  · simp only [he, Bool.false_eq_true, if_false]
    obtain ⟨hsub, hnd⟩ := clozeLoop_picked (eligibleWords (normalizeSpaces snippet)) blankCount
      (normalizeSpaces snippet)
    refine ⟨fun a ha => ?_, hnd.sublist (List.take_sublist _ _)⟩
    have hp := hsub a (List.mem_of_mem_take ha)
    rw [mem_eligibleWords, tokenize_normalizeSpaces] at hp
    obtain ⟨ht, h4, hs, hn⟩ := hp
    obtain ⟨_, raw, _, hraw⟩ := mem_tokenize snippet a ht
    subst hraw
    exact ⟨ht, normalizeWord_lower raw, normalizeWord_head raw, normalizeWord_getLast raw,
      h4, hs, hn⟩


/-! ## Whole-word matches and positions -/

theorem wordAt_congr {s t : List Char} {k : Nat} (h : s[k]? = t[k]?) : wordAt s k = wordAt t k := by
  simp only [wordAt, h]

theorem isBoundary_congr (s t : List Char) (m i : Nat) (hag : ∀ k, k < m → s[k]? = t[k]?)
    (hm : wordAt s m = wordAt t m) (hi : i ≤ m) : isBoundary s i = isBoundary t i := by
  have h1 : wordAt s i = wordAt t i := by
    rcases Nat.lt_or_eq_of_le hi with h | h
    · exact wordAt_congr (hag i h)
    · rw [h]; exact hm
  unfold isBoundary
  rw [h1]
  by_cases h0 : i = 0
  · simp [h0]
  · rw [wordAt_congr (hag (i - 1) (by omega))]

theorem ciMatchAt_congr (s t w : List Char) (m i : Nat) (hag : ∀ k, k < m → s[k]? = t[k]?)
    (hi : i + w.length ≤ m) : ciMatchAt s w i = ciMatchAt t w i := by
  have : (s.drop i).take w.length = (t.drop i).take w.length := by
    apply List.ext_getElem?
    intro k
    by_cases hk : k < w.length
    · simp only [List.getElem?_take, hk, if_true, List.getElem?_drop]
      exact hag _ (by omega)
    · simp only [List.getElem?_take, hk, if_false]
  simp only [ciMatchAt, this]

theorem wholeWordAt_congr (s t w : List Char) (m i : Nat) (hag : ∀ k, k < m → s[k]? = t[k]?)
    (hm : wordAt s m = wordAt t m) (hi : i + w.length ≤ m) :
    wholeWordAt s w i = wholeWordAt t w i := by
  simp only [wholeWordAt, isBoundary_congr s t m i hag hm (by omega),
    ciMatchAt_congr s t w m i hag hi, isBoundary_congr s t m (i + w.length) hag hm hi]

theorem ciMatchAt_getElem (t w : List Char) (i : Nat) (h : ciMatchAt t w i = true) (k : Nat)
    (hk : k < w.length) : ∃ c, t[i + k]? = some c ∧ c.toLower = (w[k]).toLower := by
  simp only [ciMatchAt, beq_iff_eq] at h
  have h2 := congrArg (fun l => l[k]?) h
  simp only [List.getElem?_map, List.getElem?_take, hk, if_true, List.getElem?_drop,
    List.getElem?_eq_getElem hk, Option.map_some'] at h2
  cases hc : t[i + k]? with
  | none => rw [hc] at h2; simp at h2
  | some c =>
    rw [hc] at h2
    simp only [Option.map_some', Option.some.injEq] at h2
    exact ⟨c, rfl, h2⟩

theorem ciMatchAt_no_underscore (t w : List Char) (i : Nat) (h : ciMatchAt t w i = true)
    (hw : '_' ∉ w) (k : Nat) (h1 : i ≤ k) (h2 : k < i + w.length) : t[k]? ≠ some '_' := by
  obtain ⟨c, hc, hl⟩ := ciMatchAt_getElem t w i h (k - i) (by omega)
  have e : i + (k - i) = k := by omega
  rw [e] at hc
  rw [hc]
  intro hcu
  simp only [Option.some.injEq] at hcu
  subst hcu
  have hki : k - i < w.length := by omega
  have : w[k - i] = '_' := (toLower_eq_underscore _).1 hl.symm
  exact hw (this ▸ List.getElem_mem hki)

theorem PlainWord.length_pos {w : List Char} (h : PlainWord w) : 0 < w.length :=
  List.length_pos.2 h.1

theorem wholeWordAt_plain (t w : List Char) (i : Nat) (hw : PlainWord w)
    (h : wholeWordAt t w i = true) :
    i + w.length ≤ t.length ∧ wordAt t i = true ∧ wordAt t (i + w.length) = false ∧
      (i ≠ 0 → wordAt t (i - 1) = false) := by
  have hpos := hw.length_pos
  simp only [wholeWordAt, Bool.and_eq_true] at h
  obtain ⟨⟨hb1, hm⟩, hb2⟩ := h
  obtain ⟨c0, hc0, hl0⟩ := ciMatchAt_getElem t w i hm 0 hpos
  obtain ⟨c1, hc1, hl1⟩ := ciMatchAt_getElem t w i hm (w.length - 1) (by omega)
  have hfirst : isWordChar c0 = true := by
    rw [← isWordChar_toLower, hl0, isWordChar_toLower]
    apply hw.2.2.1
    rw [List.head?_eq_getElem?, List.getElem?_eq_getElem hpos]
  have hlast : isWordChar c1 = true := by
    rw [← isWordChar_toLower, hl1, isWordChar_toLower]
    apply hw.2.2.2
    rw [List.getLast?_eq_getElem?, List.getElem?_eq_getElem (by omega)]
  have hlen : i + w.length ≤ t.length := by
    have : i + (w.length - 1) < t.length := by
      by_contra hcon
      rw [List.getElem?_eq_none (by omega)] at hc1
      cases hc1
    omega
  have hwi : wordAt t i = true := by
    simp only [Nat.add_zero] at hc0
    simp only [wordAt, hc0, hfirst]
  have hwl : wordAt t (i + w.length - 1) = true := by
    have e : i + w.length - 1 = i + (w.length - 1) := by omega
    simp only [wordAt, e, hc1, hlast]
  refine ⟨hlen, hwi, ?_, ?_⟩
  · simp only [isBoundary] at hb2
    have hne : (i + w.length != 0) = true := by
      rw [bne_iff_ne]; omega
    rw [hne, hwl] at hb2
    simpa using hb2
  · intro h0
    simp only [isBoundary] at hb1
    have hne : (i != 0) = true := by
      rw [bne_iff_ne]; exact h0
    rw [hne, hwi] at hb1
    simpa using hb1

theorem wholeWordAt_no_underscore (t w : List Char) (i : Nat) (hw : PlainWord w)
    (h : wholeWordAt t w i = true) (k : Nat) (h1 : i ≤ k) (h2 : k < i + w.length) :
    t[k]? ≠ some '_' := by
  simp only [wholeWordAt, Bool.and_eq_true] at h
  exact ciMatchAt_no_underscore t w i h.1.2 hw.2.1 k h1 h2

theorem firstIndex_le_of_match (t w : List Char) (p : Nat) (hp : p ≤ t.length)
    (h : wholeWordAt t w p = true) : ∃ i, firstIndexOfWholeWord t w = some i ∧ i ≤ p := by
  cases hf : firstIndexOfWholeWord t w with
  | none =>
    have := findFrom_none _ _ _ hf p (Nat.zero_le _) (by omega)
    rw [h] at this; cases this
  | some i =>
    refine ⟨i, rfl, ?_⟩
    by_contra hcon
    have := (findFrom_some _ _ _ _ hf).2.2.2 p (Nat.zero_le _) (by omega)
    rw [h] at this; cases this

theorem getElem?_append_cons_length (pre v : List Char) (c : Char) :
    (pre ++ c :: v)[pre.length]? = some c := by
  rw [List.getElem?_append_right (le_refl _)]
  simp

/-- A match left of position `|pre|` survives in any text with the same prefix in which
position `|pre|` holds an underscore. -/
theorem noMatch_left_transfer (pre u v a : List Char) (ha : PlainWord a)
    (hw : wordAt (pre ++ u) pre.length = true)
    (h : ∀ i, i < pre.length → wholeWordAt (pre ++ u) a i = false) :
    ∀ i, i < pre.length → wholeWordAt (pre ++ '_' :: v) a i = false := by
  intro i hi
  by_contra hcon
  simp only [Bool.not_eq_false] at hcon
  have hag : ∀ k, k < pre.length → (pre ++ '_' :: v)[k]? = (pre ++ u)[k]? := by
    intro k hk
    rw [List.getElem?_append_left hk, List.getElem?_append_left hk]
  by_cases hle : i + a.length ≤ pre.length
  · have hwm : wordAt (pre ++ '_' :: v) pre.length = wordAt (pre ++ u) pre.length := by
      rw [hw]
      simp only [wordAt, getElem?_append_cons_length]
      decide
    rw [wholeWordAt_congr _ _ a pre.length i hag hwm hle, h i hi] at hcon
    cases hcon
  · exact wholeWordAt_no_underscore _ a i ha hcon pre.length (by omega) (by omega)
      (getElem?_append_cons_length pre v '_')


/-! ## Counting blank markers -/

theorem countBlanksAux_free (z : List Char) (hz : ∀ c ∈ z, c ≠ '_') (r : Nat) :
    countBlanksAux r z = if 3 ≤ r then 1 else 0 := by
  cases z with
  | nil => rfl
  | cons c cs =>
    have hc : (c == '_') = false := by simpa using hz c (List.mem_cons_self _ _)
    have ih : ∀ (l : List Char), (∀ c ∈ l, c ≠ '_') → countBlanksAux 0 l = 0 := by
      intro l
      induction l with
      | nil => intro _; rfl
      | cons d ds ihd =>
        intro hl
        have hd : (d == '_') = false := by simpa using hl d (List.mem_cons_self _ _)
        simp only [countBlanksAux, hd, Bool.false_eq_true, if_false]
        rw [ihd (fun c hc => hl c (List.mem_cons_of_mem _ hc))]
        simp
    simp only [countBlanksAux, hc, Bool.false_eq_true, if_false]
    rw [ih cs (fun c hc => hz c (List.mem_cons_of_mem _ hc))]
    simp

theorem countBlanksAux_split (x : List Char) (c : Char) (y : List Char) (hc : c ≠ '_') :
    ∀ r, countBlanksAux r (x ++ c :: y) = countBlanksAux r (x ++ [c]) + countBlanksAux 0 y := by
  have hcb : (c == '_') = false := by simpa using hc
  induction x with
  | nil =>
    intro r
    simp only [List.nil_append, countBlanksAux, hcb, Bool.false_eq_true, if_false]
    split <;> simp
  | cons d ds ih =>
    intro r
    by_cases hd : (d == '_') = true
    · simp only [List.cons_append, countBlanksAux, hd, if_true, List.append_eq]
      exact ih _
    · simp only [List.cons_append, countBlanksAux, hd, Bool.false_eq_true, if_false,
        List.append_eq]
      rw [ih 0]
      omega

theorem countBlanks_append (x z : List Char) (hx : x.getLast? ≠ some '_') :
    countBlanks (x ++ z) = countBlanks x + countBlanks z := by
  rcases List.eq_nil_or_concat x with h | ⟨x1, c, h⟩
  · subst h; simp [countBlanks, countBlanksAux]
  · subst h
    rw [List.concat_eq_append] at hx ⊢
    have hc : c ≠ '_' := by
      intro hc
      apply hx
      simp [hc]
    cases z with
    | nil => simp [countBlanks, countBlanksAux]
    | cons d ds =>
      unfold countBlanks
      have e : x1 ++ [c] ++ d :: ds = x1 ++ c :: (d :: ds) := by simp
      rw [e, countBlanksAux_split x1 c (d :: ds) hc 0]

theorem countBlanks_marker (y : List Char) (hy : ∀ c ∈ y, c ≠ '_') :
    countBlanks (blankMarker ++ y) = 1 := by
  have e : countBlanks (blankMarker ++ y) = countBlanksAux 8 y := by
    simp [countBlanks, blankMarker, countBlanksAux]
  rw [e, countBlanksAux_free y hy]
  rfl

theorem blankMarker_eq : blankMarker = '_' :: List.replicate 7 '_' := by decide

theorem blankMarker_getElem? (k : Nat) (hk : k < 8) : blankMarker[k]? = some '_' := by
  have : blankMarker = List.replicate 8 '_' := by decide
  rw [this, List.getElem?_replicate]
  simp [hk]

/-! ## Characters of the pool words -/

theorem mem_collapseSpaces (l : List Char) : ∀ (b : Bool) (c : Char),
    c ∈ collapseSpaces b l → c ∈ l ∨ c = ' ' := by
  induction l with
  | nil => intro b c h; simp [collapseSpaces] at h
  | cons d ds ih =>
    intro b c h
    by_cases hd : isSpace d = true
    · cases b
      · simp only [collapseSpaces, hd, if_true, Bool.false_eq_true, if_false,
          List.mem_cons] at h
        rcases h with h | h
        · exact Or.inr h
        · exact (ih true c h).imp (List.mem_cons_of_mem _) id
      · simp only [collapseSpaces, hd, if_true] at h
        exact (ih true c h).imp (List.mem_cons_of_mem _) id
    · simp only [collapseSpaces, hd, Bool.false_eq_true, if_false, List.mem_cons] at h
      rcases h with h | h
      · exact Or.inl (h ▸ List.mem_cons_self _ _)
      · exact (ih false c h).imp (List.mem_cons_of_mem _) id

theorem trim_sublist (s : List Char) : (trim s).Sublist s :=
  ((List.rdropWhile_prefix isSpace _).sublist).trans (List.dropWhile_sublist isSpace)

theorem mem_normalizeSpaces (s : List Char) (c : Char) (h : c ∈ normalizeSpaces s) :
    c ∈ s ∨ c = ' ' :=
  mem_collapseSpaces s false c ((trim_sublist _).subset h)

theorem mem_splitSpacesAux (l : List Char) : ∀ (cur : List Char) (b : Bool) (piece : List Char),
    piece ∈ splitSpacesAux cur b l → ∀ c ∈ piece, c ∈ cur ∨ c ∈ l := by
  induction l with
  | nil =>
    intro cur b piece h c hc
    simp only [splitSpacesAux, List.mem_singleton] at h
    subst h
    exact Or.inl (List.mem_reverse.1 hc)
  | cons d ds ih =>
    intro cur b piece h c hc
    by_cases hd : isSpace d = true
    · cases b
      · simp only [splitSpacesAux, hd, if_true, Bool.false_eq_true, if_false,
          List.mem_cons] at h
        rcases h with h | h
        · subst h; exact Or.inl (List.mem_reverse.1 hc)
        · rcases ih [] true piece h c hc with h1 | h1
          · simp at h1
          · exact Or.inr (List.mem_cons_of_mem _ h1)
      · simp only [splitSpacesAux, hd, if_true] at h
        exact (ih cur true piece h c hc).imp id (List.mem_cons_of_mem _)
    · simp only [splitSpacesAux, hd, Bool.false_eq_true, if_false] at h
      rcases ih (d :: cur) false piece h c hc with h1 | h1
      · rcases List.mem_cons.1 h1 with h2 | h2
        · exact Or.inr (h2 ▸ List.mem_cons_self _ _)
        · exact Or.inl h2
      · exact Or.inr (List.mem_cons_of_mem _ h1)

theorem mem_normalizeWord (raw : List Char) (c : Char) (h : c ∈ normalizeWord raw) :
    ∃ d ∈ raw, c = d.toLower := by
  simp only [normalizeWord, List.mem_map, List.mem_reverse] at h
  obtain ⟨d, hd, rfl⟩ := h
  refine ⟨d, ?_, rfl⟩
  have h1 := (List.dropWhile_sublist isEdgeJunk).subset hd
  have h2 := (List.dropWhile_sublist isEdgeJunk).subset (List.mem_reverse.1 h1)
  exact (trim_sublist raw).subset h2

theorem mem_token_char (s a : List Char) (ha : a ∈ tokenize s) (c : Char) (hc : c ∈ a) :
    ∃ d, (d ∈ s ∨ d = ' ') ∧ c = d.toLower := by
  obtain ⟨_, raw, hraw, rfl⟩ := mem_tokenize s a ha
  obtain ⟨d, hd, rfl⟩ := mem_normalizeWord raw c hc
  refine ⟨d, ?_, rfl⟩
  rcases mem_splitSpacesAux _ [] false raw hraw d hd with h | h
  · simp at h
  · exact mem_normalizeSpaces s d h

/-- The pool words of a snippet without underscores and apostrophes are plain. -/
theorem plainWord_of_eligible (s w : List Char) (hu : '_' ∉ s) (hq : '\'' ∉ s)
    (hw : w ∈ eligibleWords (normalizeSpaces s)) : PlainWord w := by
  rw [mem_eligibleWords, tokenize_normalizeSpaces] at hw
  obtain ⟨ht, h4, _, _⟩ := hw
  have hne : w ≠ [] := by
    intro h; subst h; simp at h4
  have hchar : ∀ c ∈ w, c ≠ '_' ∧ c ≠ '\'' := by
    intro c hc
    obtain ⟨d, hd, rfl⟩ := mem_token_char s w ht c hc
    constructor
    · intro h
      rw [toLower_eq_underscore] at h
      subst h
      rcases hd with hd | hd
      · exact hu hd
      · exact absurd hd (by decide)
    · intro h
      rw [toLower_eq_apostrophe] at h
      subst h
      rcases hd with hd | hd
      · exact hq hd
      · exact absurd hd (by decide)
  obtain ⟨_, raw, _, hraw⟩ := mem_tokenize s w ht
  have hword : ∀ c ∈ w, isEdgeJunk c = false → isWordChar c = true := by
    intro c hc hj
    have := (hchar c hc).2
    simp only [isEdgeJunk, Bool.not_eq_false', Bool.or_eq_true, beq_iff_eq] at hj
    rcases hj with hj | hj
    · exact hj
    · exact absurd hj this
  refine ⟨hne, fun h => (hchar _ h).1 rfl, fun c hc => ?_, fun c hc => ?_⟩
  · exact hword c (List.mem_of_mem_head? hc) (normalizeWord_head raw c (hraw ▸ hc))
  · exact hword c (List.mem_of_mem_getLast? hc) (normalizeWord_getLast raw c (hraw ▸ hc))


/-! ## The invariant of the selection loop on plain pool words -/

theorem mem_of_getElem?_eq {α : Type} {l : List α} {k : Nat} {c : α} (h : l[k]? = some c) :
    c ∈ l :=
  List.mem_iff_getElem?.2 ⟨k, h⟩

theorem clozeInv_init (pool : List (List Char)) (out : List Char) (h : '_' ∉ out) :
    ClozeInv pool [] out where
  sub := by simp
  count := by
    unfold countBlanks
    rw [countBlanksAux_free out (fun c hc hcu => h (hcu ▸ hc))]
    rfl
  tail := ⟨0, fun k _ hk => h (mem_of_getElem?_eq hk), fun _ _ _ _ _ => Nat.zero_le _⟩
  blanks := by simp

theorem clozeInv_step (pool : List (List Char)) (hpool : ∀ w ∈ pool, PlainWord w)
    (picked : List (List Char)) (working : List Char) (b : List Char × Nat)
    (h : ClozeInv pool picked working) (hb : findBest pool picked working = some b) :
    ClozeInv pool (picked ++ [b.1]) (replaceOnceWholeWord working b.1 blankMarker) := by
  have hok := findBest_ok pool picked working
  rw [hb] at hok
  obtain ⟨hb1, hb2, hb3, hb4⟩ := hok
  obtain ⟨w, i⟩ := b
  simp only at hb1 hb2 hb3 hb4 ⊢
  obtain ⟨_, _, hmatch, hmin⟩ := findFrom_some _ _ _ _ hb3
  have hw := hpool w hb1
  obtain ⟨hlen, hwi, _, hprev⟩ := wholeWordAt_plain working w i hw hmatch
  obtain ⟨L, hL1, hL2⟩ := h.tail
  have hLi : L ≤ i := hL2 w hb1 hb2 i hmatch
  have hrep : replaceOnceWholeWord working w blankMarker =
      working.take i ++ (blankMarker ++ working.drop (i + w.length)) := by
    simp only [replaceOnceWholeWord, hb3, List.append_assoc]
  have hXlen : (working.take i).length = i := by
    rw [List.length_take]; omega
  have hW : working = working.take i ++ working.drop i := (List.take_append_drop i working).symm
  have hfree : ∀ n, i ≤ n → ∀ c ∈ working.drop n, c ≠ '_' := by
    intro n hn c hc hcu
    obtain ⟨k, hk⟩ := List.mem_iff_getElem?.1 hc
    rw [List.getElem?_drop, hcu] at hk
    exact hL1 (n + k) (by omega) hk
  have hXlast : (working.take i).getLast? ≠ some '_' := by
    intro hlast
    rw [List.getLast?_eq_getElem?, hXlen] at hlast
    have hi0 : i ≠ 0 := by
      intro h0
      rw [h0] at hlast
      simp at hlast
    have hget : working[i - 1]? = some '_' := by
      rw [← hlast, List.getElem?_take_of_lt (by omega)]
    have := hprev hi0
    simp only [wordAt, hget] at this
    exact absurd this (by decide)
  have hcountX : countBlanks (working.take i) = picked.length := by
    have := countBlanks_append (working.take i) (working.drop i) hXlast
    rw [← hW, h.count] at this
    have h0 : countBlanks (working.drop i) = 0 := by
      unfold countBlanks
      rw [countBlanksAux_free _ (hfree i (le_refl _))]
      rfl
    omega
  have hpre : ∀ k, k < i →
      (working.take i ++ (blankMarker ++ working.drop (i + w.length)))[k]? = working[k]? := by
    intro k hk
    rw [List.getElem?_append_left (by omega), List.getElem?_take_of_lt hk]
  have hmid : ∀ k, i ≤ k → k < i + 8 →
      (working.take i ++ (blankMarker ++ working.drop (i + w.length)))[k]? = some '_' := by
    intro k hk1 hk2
    rw [List.getElem?_append_right (by omega), hXlen,
      List.getElem?_append_left (by simp [blankMarker]; omega)]
    exact blankMarker_getElem? _ (by omega)
  rw [hrep]
  refine ⟨?_, ?_, ⟨i + 8, ?_, ?_⟩, ?_⟩
  · intro a ha
    rcases List.mem_append.1 ha with ha | ha
    · exact h.sub a ha
    · simp only [List.mem_singleton] at ha; subst ha; exact hb1
  · rw [countBlanks_append _ _ hXlast, countBlanks_marker _ (hfree _ (by omega)), hcountX]
    simp
  · intro k hk hget
    rw [List.getElem?_append_right (by omega), hXlen,
      List.getElem?_append_right (by simp [blankMarker]; omega)] at hget
    exact hfree (i + w.length) (by omega) _ (mem_of_getElem?_eq hget) rfl
  · intro v hv hvp p hp
    have hvp1 : v ∉ picked := fun hin => hvp (List.mem_append_left _ hin)
    have hvw : PlainWord v := hpool v hv
    by_contra hcon
    by_cases hle : p + v.length ≤ i
    · have hwm : wordAt (working.take i ++ (blankMarker ++ working.drop (i + w.length))) i =
          wordAt working i := by
        rw [hwi]
        simp only [wordAt, hmid i (le_refl _) (by omega)]
        decide
      rw [wholeWordAt_congr _ working v i p hpre hwm hle] at hp
      obtain ⟨i0, hi0, hi0p⟩ := firstIndex_le_of_match working v p (by omega) hp
      have := hb4 v hv hvp1 i0 hi0
      have := hvw.length_pos
      omega
    · exact wholeWordAt_no_underscore _ v p hvw hp (max p i) (le_max_left _ _)
        (by rw [max_lt_iff]; have := hvw.length_pos; omega)
        (hmid _ (le_max_right _ _) (by rw [max_lt_iff]; omega))
  · intro j a hj
    by_cases hjl : j < picked.length
    · rw [List.getElem?_append_left hjl] at hj
      obtain ⟨pre, post, hwk, hcnt, hlast, hno⟩ := h.blanks j a hj
      have ha : PlainWord a := hpool a (h.sub a (mem_of_getElem?_eq hj))
      have hpl : pre.length + 8 ≤ i := by
        by_contra hcon
        have hget : working[pre.length + 7]? = some '_' := by
          rw [hwk, List.append_assoc, List.getElem?_append_right (by omega),
            List.getElem?_append_left (by simp [blankMarker])]
          exact blankMarker_getElem? _ (by omega)
        exact hL1 _ (by omega) hget
      have htake : working.take i = pre ++ blankMarker ++ post.take (i - (pre.length + 8)) := by
        have hl : (pre ++ blankMarker).length = pre.length + 8 := by simp [blankMarker]
        conv_lhs => rw [hwk]
        rw [List.take_append_eq_append_take, List.take_of_length_le (by omega), hl]
      refine ⟨pre, post.take (i - (pre.length + 8)) ++
        (blankMarker ++ working.drop (i + w.length)), ?_, hcnt, hlast, ?_⟩
      · rw [htake]; simp only [List.append_assoc]
      · have e1 : working.take i ++ (blankMarker ++ working.drop (i + w.length)) =
            pre ++ '_' :: (List.replicate 7 '_' ++ (post.take (i - (pre.length + 8)) ++
              (blankMarker ++ working.drop (i + w.length)))) := by
          rw [htake, blankMarker_eq]; simp only [List.append_assoc, List.cons_append]
        have e2 : working = pre ++ (blankMarker ++ post) := by
          rw [hwk, List.append_assoc]
        rw [e1]
        apply noMatch_left_transfer pre (blankMarker ++ post) _ a ha
        · rw [blankMarker_eq]
          simp only [wordAt, List.cons_append, getElem?_append_cons_length]
          decide
        · rw [← e2]; exact hno
    · have hje : j = picked.length := by
        by_contra hne
        rw [List.getElem?_eq_none (by simp; omega)] at hj
        cases hj
      subst hje
      rw [List.getElem?_append_right (le_refl _)] at hj
      simp only [Nat.sub_self, List.getElem?_cons_zero, Option.some.injEq] at hj
      subst hj
      refine ⟨working.take i, working.drop (i + w.length), by simp only [List.append_assoc],
        hcountX, hXlast, ?_⟩
      have e1 : working.take i ++ (blankMarker ++ working.drop (i + w.length)) =
          working.take i ++ '_' :: (List.replicate 7 '_' ++ working.drop (i + w.length)) := by
        rw [blankMarker_eq]; simp only [List.cons_append]
      rw [e1]
      apply noMatch_left_transfer (working.take i) (working.drop i) _ w hw
      · rw [← hW, hXlen]; exact hwi
      · rw [← hW, hXlen]; exact fun x hx => hmin x (Nat.zero_le _) hx

theorem clozeLoop_inv (pool : List (List Char)) (hpool : ∀ w ∈ pool, PlainWord w) (fuel : Nat)
    (out : List Char) (h : '_' ∉ out) :
    ClozeInv pool (clozeLoop pool fuel [] out).1 (clozeLoop pool fuel [] out).2 :=
  clozeLoop_induct pool (ClozeInv pool)
    (fun picked working b hi hb => clozeInv_step pool hpool picked working b hi hb)
    fuel [] out (clozeInv_init pool out h)

theorem normalizeSpaces_no_underscore (s : List Char) (h : '_' ∉ s) :
    '_' ∉ normalizeSpaces s := by
  intro hin
  rcases mem_normalizeSpaces s '_' hin with h1 | h1
  · exact h h1
  · exact absurd h1 (by decide)

/-! ## Concrete runs of `buildClozeFromSnippet` -/

/-- C5 (counterexample). In "The river runs where the river bends." with two blanks the answer
`river` fills marker 0, and it is still visible as a whole word at position 32, to the right of
marker 1 (the marker after "The ________ "), which is filled by `runs`. -/
theorem buildCloze_repeated_answer_visible :
    2 ≤ (eligibleWords (normalizeSpaces "The river runs where the river bends.".toList)).length ∧
    (buildClozeFromSnippet "The river runs where the river bends.".toList 2).sentence =
      "The ________ ".toList ++ blankMarker ++ " where the river bends.".toList ∧
    countBlanks "The ________ ".toList = 1 ∧
    (buildClozeFromSnippet "The river runs where the river bends.".toList 2).answers =
      ["river".toList, "runs".toList] ∧
    ("The ________ ".toList ++ blankMarker).length ≤ 32 ∧
    wholeWordAt (buildClozeFromSnippet "The river runs where the river bends.".toList 2).sentence
      "river".toList 32 = true := by
  decide

/-- C3 (failing inputs). A snippet that already holds a run of underscores, and a snippet whose
pool holds a word starting with an apostrophe: `fillBlanks` does not give the snippet back, the
answers are not the words at the markers counted from the left. -/
theorem buildCloze_answers_not_in_blank_order :
    (2 ≤ (eligibleWords (normalizeSpaces "The ___ stands for a missing word.".toList)).length ∧
      buildClozeFromSnippet "The ___ stands for a missing word.".toList 2 =
        ⟨"The ___ ________ for a ________ word.".toList, ["stands".toList, "missing".toList]⟩ ∧
      fillBlanks "The ___ ________ for a ________ word.".toList
          ["stands".toList, "missing".toList] =
        "The stands missing for a ____ word.".toList) ∧
    (2 ≤ (eligibleWords (normalizeSpaces "rock'roll' 'roll rock".toList)).length ∧
      buildClozeFromSnippet "rock'roll' 'roll rock".toList 2 =
        ⟨"________________' 'roll rock".toList, ["rock".toList]⟩ ∧
      fillBlanks "________________' 'roll rock".toList ["rock".toList] =
        "rock' 'roll rock".toList) := by
  decide

/-- C4 (failing input). For a snippet that already holds a run of underscores the sentence has
three markers and only two answers. -/
theorem buildCloze_more_blanks_than_answers :
    buildClozeFromSnippet "Write the missing word on the ___ line.".toList 2 =
      ⟨"________ the ________ word on the ___ line.".toList,
        ["write".toList, "missing".toList]⟩ ∧
    countBlanks "________ the ________ word on the ___ line.".toList = 3 ∧
    (buildClozeFromSnippet "Write the missing word on the ___ line.".toList 2).answers.length ≠
      countBlanks (buildClozeFromSnippet "Write the missing word on the ___ line.".toList
        2).sentence := by
  decide

/-- C7 (counterexample). In the scenario of the specification `cat` is not in the candidate
pool and is not the first answer. -/
theorem scenario_cat_not_in_pool :
    ¬ ("cat".toList ∈
          eligibleWords (normalizeSpaces "The cat sat on the mat. It was raining outside.".toList) ∧
        "sat".toList ∈
          eligibleWords (normalizeSpaces "The cat sat on the mat. It was raining outside.".toList) ∧
        "mat".toList ∈
          eligibleWords (normalizeSpaces "The cat sat on the mat. It was raining outside.".toList) ∧
        (buildClozeFromSnippet "The cat sat on the mat. It was raining outside.".toList
          2).answers[0]? = some "cat".toList) := by
  decide

/-- C7 (amended). In the scenario of the specification the candidate pool is `raining, outside`
(`cat`, `sat` and `mat` have fewer than four letters), the leftmost selection picks `raining`
and then `outside`, and the sentence keeps every other word. -/
theorem scenario_raining_outside :
    eligibleWords (normalizeSpaces "The cat sat on the mat. It was raining outside.".toList) =
      ["raining".toList, "outside".toList] ∧
    firstIndexOfWholeWord "The cat sat on the mat. It was raining outside.".toList
      "raining".toList = some 31 ∧
    buildClozeFromSnippet "The cat sat on the mat. It was raining outside.".toList 2 =
      ⟨"The cat sat on the mat. It was ________ ________.".toList,
        ["raining".toList, "outside".toList]⟩ := by
  decide


/-! ## The diversity selector -/

theorem nodup_tokenSet (a : List Char) : (tokenSet a).Nodup := nodup_uniqueAux _ _

theorem inter_length_comm (A B : List (List Char)) (hA : A.Nodup) (hB : B.Nodup) :
    (A.filter (fun w => w ∈ B)).length = (B.filter (fun w => w ∈ A)).length := by
  rw [← List.toFinset_card_of_nodup (hA.filter _), ← List.toFinset_card_of_nodup (hB.filter _)]
  congr 1
  ext w
  simp only [List.mem_toFinset, List.mem_filter, decide_eq_true_eq]
  tauto

/-- The similarity is symmetric. -/
theorem jaccard_comm (a b : List Char) : jaccard a b = jaccard b a := by
  unfold jaccard
  simp only [inter_length_comm (tokenSet a) (tokenSet b) (nodup_tokenSet a) (nodup_tokenSet b),
    Nat.add_comm (tokenSet a).length, or_comm]

theorem jaccard_eq_of (a b : List Char) (x y k : Nat) (hx : (tokenSet a).length = x)
    (hy : (tokenSet b).length = y)
    (hk : ((tokenSet a).filter (fun w => w ∈ tokenSet b)).length = k) :
    jaccard a b = if x = 0 ∨ y = 0 then 0 else
      if x + y - k = 0 then 0 else (k : ℚ) / ((x + y - k : ℕ) : ℚ) := by
  subst hx hy hk
  rfl

theorem firstPass_pairwise (maxSim : ℚ) (count : Nat) (l : List (List Char)) :
    ∀ picked : List (List Char), picked.Pairwise (fun p s => jaccard p s ≤ maxSim) →
      (firstPass maxSim count l picked).Pairwise (fun p s => jaccard p s ≤ maxSim) := by
  induction l with
  | nil => intro picked h; exact h
  | cons s rest ih =>
    intro picked h
    by_cases hs : s.isEmpty = true
    · simp only [firstPass, hs, if_true]; exact ih picked h
    · simp only [firstPass, hs, Bool.false_eq_true, if_false]
      by_cases hall : picked.all (fun p => decide (jaccard p s ≤ maxSim)) = true
      · have h1 : (picked ++ [s]).Pairwise (fun p s => jaccard p s ≤ maxSim) := by
          rw [List.pairwise_append]
          refine ⟨h, List.pairwise_singleton _ _, fun p hp q hq => ?_⟩
          simp only [List.mem_singleton] at hq
          subst hq
          simp only [List.all_eq_true, decide_eq_true_eq] at hall
          exact hall p hp
        simp only [hall, if_true]
        split
        · exact h1
        · exact ih _ h1
      · simp only [hall, Bool.false_eq_true, if_false]
        split
        · exact h
        · exact ih _ h

theorem secondPass_of_le (count : Nat) (l picked : List (List Char))
    (h : count ≤ picked.length) : secondPass count l picked = picked := by
  cases l with
  | nil => rfl
  | cons s rest => simp only [secondPass, h, if_true]

theorem secondPass_spec (count : Nat) (l : List (List Char)) :
    ∀ picked : List (List Char),
      (∀ s ∈ picked, s ∈ secondPass count l picked) ∧
      (count ≤ (secondPass count l picked).length ∨ ∀ s ∈ l, s ∈ secondPass count l picked) := by
  induction l with
  | nil => intro picked; simp [secondPass]
  | cons s rest ih =>
    intro picked
    by_cases hc : count ≤ picked.length
    · rw [secondPass_of_le count (s :: rest) picked hc]
      exact ⟨fun _ h => h, Or.inl hc⟩
    · simp only [secondPass, hc, if_false]
      obtain ⟨h1, h2⟩ := ih (if s ∈ picked then picked else picked ++ [s])
      have hsub : ∀ x, x ∈ picked ∨ x = s → x ∈ (if s ∈ picked then picked else picked ++ [s]) := by
        intro x hx
        split
        · rcases hx with hx | hx
          · exact hx
          · subst hx; assumption
        · rcases hx with hx | hx
          · exact List.mem_append_left _ hx
          · subst hx; simp
      refine ⟨fun x hx => h1 x (hsub x (Or.inl hx)), ?_⟩
      rcases h2 with h2 | h2
      · exact Or.inl h2
      · refine Or.inr (fun x hx => ?_)
        rcases List.mem_cons.1 hx with hx | hx
        · exact h1 x (hsub x (Or.inr hx))
        · exact h2 x hx

/-- C8. With `maxSim = 0.45` and `count ≥ 2`, when the first pass alone reaches `count`
snippets, any two distinct positions of the result hold snippets of similarity at most 0.45. -/
theorem pickDistinct_diversity (snippets : List (List Char)) (count : Nat) (_hc : 2 ≤ count)
    (hfirst : count ≤ (firstPass defaultMaxSim count snippets []).length)
    (i j : Nat) (a b : List Char) (hij : i ≠ j)
    (hi : (pickDistinctSnippets snippets count defaultMaxSim)[i]? = some a)
    (hj : (pickDistinctSnippets snippets count defaultMaxSim)[j]? = some b) :
    jaccard a b ≤ defaultMaxSim := by
  have hpw : (pickDistinctSnippets snippets count defaultMaxSim).Pairwise
      (fun p s => jaccard p s ≤ defaultMaxSim) := by
    unfold pickDistinctSnippets
    rw [secondPass_of_le count snippets _ hfirst]
    exact (firstPass_pairwise defaultMaxSim count snippets [] List.Pairwise.nil).sublist
      (List.take_sublist _ _)
  rw [List.pairwise_iff_getElem] at hpw
  obtain ⟨hi1, hi2⟩ := List.getElem?_eq_some.1 hi
  obtain ⟨hj1, hj2⟩ := List.getElem?_eq_some.1 hj
  rcases Nat.lt_or_gt_of_ne hij with h | h
  · have := hpw i j hi1 hj1 h
    rwa [hi2, hj2] at this
  · have := hpw j i hj1 hi1 h
    rw [hi2, hj2] at this
    rwa [jaccard_comm]

/-- C9. For three distinct non-empty candidates whose second and third are both more similar
than 0.45 to the first, the first pass keeps only the first and the fallback pass appends the
second: the result for `count = 2` is `[c1, c2]`. -/
theorem pickDistinct_fallback (c1 c2 c3 : List Char) (h1 : c1 ≠ []) (h2 : c2 ≠ []) (h3 : c3 ≠ [])
    (h12 : c1 ≠ c2) (_h13 : c1 ≠ c3) (_h23 : c2 ≠ c3)
    (hs12 : jaccard c1 c2 > defaultMaxSim) (hs13 : jaccard c1 c3 > defaultMaxSim) :
    firstPass defaultMaxSim 2 [c1, c2, c3] [] = [c1] ∧
    pickDistinctSnippets [c1, c2, c3] 2 defaultMaxSim = [c1, c2] := by
  have e1 : c1.isEmpty = false := by simpa using h1
  have e2 : c2.isEmpty = false := by simpa using h2
  have e3 : c3.isEmpty = false := by simpa using h3
  have n12 : ¬ jaccard c1 c2 ≤ defaultMaxSim := not_le.2 hs12
  have n13 : ¬ jaccard c1 c3 ≤ defaultMaxSim := not_le.2 hs13
  have hf : firstPass defaultMaxSim 2 [c1, c2, c3] [] = [c1] := by
    simp [firstPass, e1, e2, e3, n12, n13]
  refine ⟨hf, ?_⟩
  have h21 : ¬ c2 = c1 := fun h => h12 h.symm
  simp [pickDistinctSnippets, hf, secondPass, h21]

/-- C10. When `pickDistinctSnippets` returns fewer than `count` snippets, every candidate
occurs in the result; otherwise the result has exactly `count` snippets. -/
theorem pickDistinct_fills (snippets : List (List Char)) (count : Nat) (maxSim : ℚ) :
    ((pickDistinctSnippets snippets count maxSim).length < count →
      ∀ s ∈ snippets, s ∈ pickDistinctSnippets snippets count maxSim) ∧
    (¬ (pickDistinctSnippets snippets count maxSim).length < count →
      (pickDistinctSnippets snippets count maxSim).length = count) := by
  unfold pickDistinctSnippets
  obtain ⟨_, h2⟩ := secondPass_spec count snippets (firstPass maxSim count snippets [])
  constructor
  · intro hlt s hs
    rw [List.length_take] at hlt
    have hl : (secondPass count snippets (firstPass maxSim count snippets [])).length < count := by
      omega
    rw [List.take_of_length_le (by omega)]
    rcases h2 with h2 | h2
    · omega
    · exact h2 s hs
  · intro hge
    rw [List.length_take] at hge ⊢
    omega


/-! ## Concrete runs of the selector -/

theorem jaccard_dog_home_away :
    jaccard "the dog ran home".toList "the dog ran away".toList = 3 / 5 := by
  rw [jaccard_eq_of _ _ 4 4 3 (by decide) (by decide) (by decide)]
  norm_num

theorem jaccard_dog_home_fast :
    jaccard "the dog ran home".toList "the dog ran fast".toList = 3 / 5 := by
  rw [jaccard_eq_of _ _ 4 4 3 (by decide) (by decide) (by decide)]
  norm_num

theorem jaccard_dog_cat :
    jaccard "the dog ran home".toList "the cat sat there".toList = 1 / 7 := by
  rw [jaccard_eq_of _ _ 4 4 1 (by decide) (by decide) (by decide)]
  norm_num

theorem firstPass_pair (a b : List Char) (maxSim : ℚ) (ha : a ≠ []) (hb : b ≠ [])
    (h : jaccard a b ≤ maxSim) : firstPass maxSim 2 [a, b] [] = [a, b] := by
  have e1 : a.isEmpty = false := by simpa using ha
  have e2 : b.isEmpty = false := by simpa using hb
  simp [firstPass, e1, e2, h]

theorem pickDistinct_dog_cat :
    firstPass defaultMaxSim 2 ["the dog ran home".toList, "the cat sat there".toList] [] =
        ["the dog ran home".toList, "the cat sat there".toList] ∧
      pickDistinctSnippets ["the dog ran home".toList, "the cat sat there".toList] 2
        defaultMaxSim = ["the dog ran home".toList, "the cat sat there".toList] := by
  have h : firstPass defaultMaxSim 2 ["the dog ran home".toList, "the cat sat there".toList] [] =
      ["the dog ran home".toList, "the cat sat there".toList] := by
    apply firstPass_pair _ _ _ (by decide) (by decide)
    rw [jaccard_dog_cat]; norm_num [defaultMaxSim]
  refine ⟨h, ?_⟩
  rw [pickDistinctSnippets, h, secondPass_of_le 2 _ _ (by decide)]
  rfl

/-- Witness of `pickDistinct_diversity`: two snippets of similarity 1/7. -/
theorem pickDistinct_diversity_witness :
    2 ≤ 2 ∧
    2 ≤ (firstPass defaultMaxSim 2
      ["the dog ran home".toList, "the cat sat there".toList] []).length ∧
    (0 : Nat) ≠ 1 ∧
    (pickDistinctSnippets ["the dog ran home".toList, "the cat sat there".toList] 2
      defaultMaxSim)[0]? = some "the dog ran home".toList ∧
    (pickDistinctSnippets ["the dog ran home".toList, "the cat sat there".toList] 2
      defaultMaxSim)[1]? = some "the cat sat there".toList ∧
    jaccard "the dog ran home".toList "the cat sat there".toList ≤ defaultMaxSim := by
  have h1 : 2 ≤ (firstPass defaultMaxSim 2
      ["the dog ran home".toList, "the cat sat there".toList] []).length := by
    rw [pickDistinct_dog_cat.1]; simp
  have h2 : (pickDistinctSnippets ["the dog ran home".toList, "the cat sat there".toList] 2
      defaultMaxSim)[0]? = some "the dog ran home".toList := by
    rw [pickDistinct_dog_cat.2]; rfl
  have h3 : (pickDistinctSnippets ["the dog ran home".toList, "the cat sat there".toList] 2
      defaultMaxSim)[1]? = some "the cat sat there".toList := by
    rw [pickDistinct_dog_cat.2]; rfl
  exact ⟨le_refl _, h1, by decide, h2, h3,
    pickDistinct_diversity _ 2 (le_refl _) h1 0 1 _ _ (by decide) h2 h3⟩

/-- Witness of `pickDistinct_fallback`: the second and the third candidate both have
similarity 3/5 with the first. -/
theorem pickDistinct_fallback_witness :
    "the dog ran home".toList ≠ [] ∧ "the dog ran away".toList ≠ [] ∧
    "the dog ran fast".toList ≠ [] ∧
    "the dog ran home".toList ≠ "the dog ran away".toList ∧
    "the dog ran home".toList ≠ "the dog ran fast".toList ∧
    "the dog ran away".toList ≠ "the dog ran fast".toList ∧
    jaccard "the dog ran home".toList "the dog ran away".toList > defaultMaxSim ∧
    jaccard "the dog ran home".toList "the dog ran fast".toList > defaultMaxSim ∧
    firstPass defaultMaxSim 2
      ["the dog ran home".toList, "the dog ran away".toList, "the dog ran fast".toList] [] =
      ["the dog ran home".toList] ∧
    pickDistinctSnippets
      ["the dog ran home".toList, "the dog ran away".toList, "the dog ran fast".toList] 2
      defaultMaxSim = ["the dog ran home".toList, "the dog ran away".toList] := by
  have h12 : jaccard "the dog ran home".toList "the dog ran away".toList > defaultMaxSim := by
    rw [jaccard_dog_home_away]; norm_num [defaultMaxSim]
  have h13 : jaccard "the dog ran home".toList "the dog ran fast".toList > defaultMaxSim := by
    rw [jaccard_dog_home_fast]; norm_num [defaultMaxSim]
  exact ⟨by decide, by decide, by decide, by decide, by decide, by decide, h12, h13,
    pickDistinct_fallback _ _ _ (by decide) (by decide) (by decide) (by decide) (by decide)
      (by decide) h12 h13⟩

/-- Witness of `pickDistinct_fills`: one candidate for `count = 2`. -/
theorem pickDistinct_fills_witness :
    (pickDistinctSnippets ["the dog ran home".toList] 2 defaultMaxSim).length < 2 ∧
    ∀ s ∈ ["the dog ran home".toList],
      s ∈ pickDistinctSnippets ["the dog ran home".toList] 2 defaultMaxSim := by
  have h : (pickDistinctSnippets ["the dog ran home".toList] 2 defaultMaxSim).length < 2 := by
    simp [pickDistinctSnippets, firstPass, secondPass]
  exact ⟨h, (pickDistinct_fills ["the dog ran home".toList] 2 defaultMaxSim).1 h⟩

end Dictation

namespace Materials

open Dictation

/-! ## Idempotence of the aggregator -/

theorem uniqueAux_cons_mem {α : Type} [DecidableEq α] (seen l : List α) (x : α) (h : x ∈ seen) :
    uniqueAux seen (x :: l) = uniqueAux seen l := by
  simp only [uniqueAux, h, if_true]

theorem uniqueAux_cons_not_mem {α : Type} [DecidableEq α] (seen l : List α) (x : α)
    (h : x ∉ seen) : uniqueAux seen (x :: l) = x :: uniqueAux (x :: seen) l := by
  simp only [uniqueAux, h, if_false]

theorem uniqueAux_append_singleton {α : Type} [DecidableEq α] (l : List α) (p : α) :
    ∀ seen : List α, uniqueAux seen (l ++ [p]) =
      uniqueAux seen l ++ (if p ∈ seen ∨ p ∈ l then [] else [p]) := by
  induction l with
  | nil =>
    intro seen
    by_cases hp : p ∈ seen <;> simp [uniqueAux, hp]
  | cons x xs ih =>
    intro seen
    rw [List.cons_append]
    by_cases hx : x ∈ seen
    · rw [uniqueAux_cons_mem _ _ _ hx, uniqueAux_cons_mem _ _ _ hx, ih seen]
      by_cases hpx : p = x
      · subst hpx; simp [hx]
      · simp [hpx]
    · rw [uniqueAux_cons_not_mem _ _ _ hx, uniqueAux_cons_not_mem _ _ _ hx, ih (x :: seen)]
      by_cases hpx : p = x
      · subst hpx; simp
      · simp [hpx]

theorem uniqueAux_of_nodup {α : Type} [DecidableEq α] (l : List α) :
    ∀ seen : List α, l.Nodup → (∀ x ∈ l, x ∉ seen) → uniqueAux seen l = l := by
  induction l with
  | nil => intro seen _ _; rfl
  | cons x xs ih =>
    intro seen hnd hdis
    have hx : x ∉ seen := hdis x (List.mem_cons_self _ _)
    rw [List.nodup_cons] at hnd
    simp only [uniqueAux, hx, if_false]
    rw [ih (x :: seen) hnd.2]
    intro y hy hys
    rcases List.mem_cons.1 hys with h | h
    · subst h; exact hnd.1 hy
    · exact hdis y (List.mem_cons_of_mem _ hy) h

instance : IsTotal (List Char) imageLe := ⟨fun _ _ => Nat.le_total _ _⟩

instance : IsTrans (List Char) imageLe := ⟨fun _ _ _ h1 h2 => Nat.le_trans h1 h2⟩

theorem upsert_sorted (existing : Option (List (List Char))) (p : List Char) :
    (upsertSortedImagePaths existing p).Sorted imageLe :=
  List.sorted_insertionSort imageLe _

theorem upsert_perm (existing : Option (List (List Char))) (p : List Char) :
    (upsertSortedImagePaths existing p).Perm (setOfArray (existing.getD [] ++ [p])) :=
  List.perm_insertionSort imageLe _

theorem upsert_nodup (existing : Option (List (List Char))) (p : List Char) :
    (upsertSortedImagePaths existing p).Nodup :=
  (upsert_perm existing p).nodup_iff.2 (nodup_uniqueAux _ _)

theorem mem_upsert (existing : Option (List (List Char))) (p q : List Char) :
    q ∈ upsertSortedImagePaths existing p ↔ q ∈ existing.getD [] ∨ q = p := by
  rw [(upsert_perm existing p).mem_iff, setOfArray, mem_uniqueAux]
  simp

/-- Adding a path that was just added changes nothing. -/
theorem upsert_idem (existing : Option (List (List Char))) (p : List Char) :
    upsertSortedImagePaths (some (upsertSortedImagePaths existing p)) p =
      upsertSortedImagePaths existing p := by
  have hmem : p ∈ upsertSortedImagePaths existing p := (mem_upsert existing p p).2 (Or.inr rfl)
  have h1 : setOfArray (upsertSortedImagePaths existing p ++ [p]) =
      upsertSortedImagePaths existing p := by
    rw [setOfArray, uniqueAux_append_singleton]
    simp only [hmem, or_true, if_true, List.append_nil]
    exact uniqueAux_of_nodup _ _ (upsert_nodup existing p) (by simp)
  conv_lhs => rw [upsertSortedImagePaths]
  simp only [Option.getD_some, h1]
  exact (upsert_sorted existing p).insertionSort_eq

theorem writeField_id (kind : FileKind) (filePath : List Char) (x : Passage) :
    (writeField kind filePath x).id = x.id := by
  cases kind <;> rfl

theorem writeField_idem (kind : FileKind) (filePath : List Char) (x : Passage) :
    writeField kind filePath (writeField kind filePath x) = writeField kind filePath x := by
  cases kind <;> try rfl
  simp only [writeField, upsert_idem]

theorem upsertPassage_idem (passage : Nat) (f : Passage → Passage)
    (hid : ∀ x, (f x).id = x.id) (hf : ∀ x, f (f x) = f x) (ps : List Passage) :
    upsertPassage passage f (upsertPassage passage f ps) = upsertPassage passage f ps := by
  induction ps with
  | nil => simp [upsertPassage, hid, hf, newPassage]
  | cons x xs ih =>
    by_cases hx : x.id = passage
    · simp [upsertPassage, hx, hid, hf]
    · simp [upsertPassage, hx, ih]

theorem find?_upsertPassage (passage : Nat) (f : Passage → Passage)
    (hid : ∀ x, (f x).id = x.id) (ps : List Passage) :
    (upsertPassage passage f ps).find? (fun x => x.id == passage) =
      some (f ((ps.find? (fun x => x.id == passage)).getD (newPassage passage))) := by
  induction ps with
  | nil => simp [upsertPassage, hid, newPassage]
  | cons x xs ih =>
    by_cases hx : x.id = passage
    · simp [upsertPassage, hx, hid]
    · simp [upsertPassage, hx, ih]

theorem touchedPassage_upsert (passage : Nat) (f : Passage → Passage)
    (hid : ∀ x, (f x).id = x.id) (hf : ∀ x, f (f x) = f x) (ps : List Passage) :
    touchedPassage passage f (upsertPassage passage f ps) = touchedPassage passage f ps := by
  simp only [touchedPassage, find?_upsertPassage passage f hid ps, Option.getD_some, hf]

theorem modeAfter_nodup (mode : Option (List (List Char))) (b : Bool) :
    (modeAfter mode b).Nodup := by
  unfold modeAfter
  have hb : (setOfArray (mode.getD defaultModes)).Nodup :=
    nodup_uniqueAux _ _
  simp only
  split
  · rename_i h
    simp only [Bool.and_eq_true, Bool.not_eq_true', decide_eq_false_iff_not] at h
    rw [List.nodup_append]
    refine ⟨hb, List.nodup_singleton _, ?_⟩
    intro a ha hb'
    simp only [List.mem_singleton] at hb'
    subst hb'
    exact h.2 ha
  · exact hb

theorem modeAfter_idem (mode : Option (List (List Char))) (b : Bool) :
    modeAfter (some (modeAfter mode b)) b = modeAfter mode b := by
  have hnd := modeAfter_nodup mode b
  have hset : setOfArray (modeAfter mode b) = modeAfter mode b :=
    uniqueAux_of_nodup _ _ hnd (by simp)
  have hmem : b = true → dictationMode ∈ modeAfter mode b := by
    intro hb
    subst hb
    unfold modeAfter
    simp only [Bool.true_and]
    split
    · simp
    · rename_i h
      simpa using h
  conv_lhs => rw [modeAfter]
  simp only [Option.getD_some, hset]
  cases b
  · simp
  · simp [hmem rfl]

theorem arrayUnion_idem (field : Option (List (List Char))) (x : List Char) :
    arrayUnion (some (arrayUnion field x)) x = arrayUnion field x := by
  have hmem : x ∈ arrayUnion field x := by
    unfold arrayUnion
    cases field with
    | none => simp
    | some l =>
      simp only
      split
      · assumption
      · simp
  conv_lhs => rw [arrayUnion]
  simp only [hmem, if_true]

theorem setLessonDictation_idem (filePath : List Char) (snap : Option LessonRecord) :
    setLessonDictation filePath (some (setLessonDictation filePath snap)) =
      setLessonDictation filePath snap := by
  simp only [setLessonDictation, Option.getD_some, arrayUnion_idem]

theorem txBody_idem (level lesson pattern : List Char) (passage : Nat) (kind : FileKind)
    (filePath : List Char) (snap : Option LessonRecord) :
    txBody level lesson pattern passage kind filePath
        (some (txBody level lesson pattern passage kind filePath snap)) =
      txBody level lesson pattern passage kind filePath snap := by
  have hid := writeField_id kind filePath
  have hf := writeField_idem kind filePath
  simp only [txBody, Option.getD_some, upsertPassage_idem passage _ hid hf,
    touchedPassage_upsert passage _ hid hf, modeAfter_idem]
  congr 1
  cases (snap.getD emptyRecord).lesson with
  | some n => rfl
  | none => cases lessonToNumber lesson <;> rfl

/-- C2. Handling the same classified event twice in a row leaves the record that handling it
once leaves, from the absent record and from every stored record, for every kind of passage
file and for the lesson-level `dictation.json`. -/
theorem applyEvent_idempotent (level lesson pattern : List Char) (e : Event)
    (snap : Option LessonRecord) :
    applyEvent level lesson pattern e (applyEvent level lesson pattern e snap) =
      applyEvent level lesson pattern e snap := by
  cases e with
  | lessonDictation filePath =>
    simp only [applyEvent, setLessonDictation_idem]
  | passageFile passage kind filePath =>
    simp only [applyEvent, txBody_idem]

/-- The handler itself is idempotent: a redelivered upload event leaves the collection as the
first delivery left it. -/
theorem buildLegacyMaterials_redelivery (filePath : List Char) (db : Store) :
    buildLegacyMaterialsOnOfficialUpload filePath
        (buildLegacyMaterialsOnOfficialUpload filePath db) =
      buildLegacyMaterialsOnOfficialUpload filePath db := by
  unfold buildLegacyMaterialsOnOfficialUpload
  cases hcl : classifyUpload filePath with
  | none => rfl
  | some x =>
    obtain ⟨level, lesson, pattern, e⟩ := x
    funext docId
    by_cases hd : docId = legacyDocId level lesson pattern
    · simp only [hd, if_true]
      cases e with
      | lessonDictation fp => simp only [applyEvent, setLessonDictation_idem]
      | passageFile passage kind fp => simp only [applyEvent, txBody_idem]
    · simp only [hd, if_false]

/-! ## The record built from compatible events -/

theorem Compatible.of_append_left {l1 l2 : List PassageEvent} (h : Compatible (l1 ++ l2)) :
    Compatible l1 :=
  fun e1 h1 e2 h2 => h e1 (List.mem_append_left _ h1) e2 (List.mem_append_left _ h2)

theorem Compatible.perm {l1 l2 : List PassageEvent} (hp : l1.Perm l2) (h : Compatible l1) :
    Compatible l2 :=
  fun e1 h1 e2 h2 => h e1 (hp.mem_iff.2 h1) e2 (hp.mem_iff.2 h2)

/-- Under compatibility the path recorded for a single-valued kind is the path of any event of
that kind for the passage. -/
theorem pathOf_eq_some (es : List PassageEvent) (hc : Compatible es) (n : Nat) (k : FileKind)
    (hk1 : k ≠ .image) (hk2 : k ≠ .other) (q : List Char) :
    pathOf es n k = some q ↔ ∃ e ∈ es, e.passage = n ∧ e.kind = k ∧ e.filePath = q := by
  unfold pathOf
  constructor
  · intro h
    rw [Option.map_eq_some'] at h
    obtain ⟨e, he, hq⟩ := h
    have hmem := List.mem_of_find?_eq_some he
    have hp := List.find?_some he
    simp only [Bool.and_eq_true, beq_iff_eq] at hp
    exact ⟨e, hmem, hp.1, hp.2, hq⟩
  · rintro ⟨e, he, h1, h2, h3⟩
    cases hf : es.find? (fun e => e.passage == n && e.kind == k) with
    | none =>
      rw [List.find?_eq_none] at hf
      have := hf e he
      simp [h1, h2] at this
    | some e0 =>
      have hmem := List.mem_of_find?_eq_some hf
      have hp := List.find?_some hf
      simp only [Bool.and_eq_true, beq_iff_eq] at hp
      have := (hc e0 hmem e he (hp.1.trans h1.symm) (hp.2.trans h2.symm)).2
        (by rw [hp.2]; exact hk1) (by rw [hp.2]; exact hk2)
      simp only [Option.map_some', Option.some.injEq]
      rw [this, h3]

theorem pathOf_append_other (pre : List PassageEvent) (e : PassageEvent) (n : Nat) (k : FileKind)
    (h : ¬ (e.passage = n ∧ e.kind = k)) : pathOf (pre ++ [e]) n k = pathOf pre n k := by
  unfold pathOf
  rw [List.find?_append]
  have : [e].find? (fun e => e.passage == n && e.kind == k) = none := by
    rw [List.find?_eq_none]
    intro x hx
    simp only [List.mem_singleton] at hx
    subst hx
    simpa using h
  rw [this, Option.or_none]

theorem pathOf_append_self (pre : List PassageEvent) (e : PassageEvent)
    (hc : Compatible (pre ++ [e])) (hk1 : e.kind ≠ .image) (hk2 : e.kind ≠ .other) :
    pathOf (pre ++ [e]) e.passage e.kind = some e.filePath :=
  (pathOf_eq_some _ hc _ _ hk1 hk2 _).2 ⟨e, by simp, rfl, rfl, rfl⟩

theorem imagesOf_append (pre : List PassageEvent) (e : PassageEvent) (n : Nat) :
    imagesOf (pre ++ [e]) n =
      imagesOf pre n ++ (if e.passage = n ∧ e.kind = .image then [e.filePath] else []) := by
  unfold imagesOf
  rw [List.filter_append, List.map_append]
  congr 1
  by_cases h : e.passage = n ∧ e.kind = .image
  · simp [h.1, h.2]
  · simp only [h, if_false]
    have : (fun e => e.passage == n && e.kind == FileKind.image) e = false := by
      simpa using h
    simp [List.filter_cons, this]

theorem mem_imagesOf (es : List PassageEvent) (n : Nat) (q : List Char) :
    q ∈ imagesOf es n ↔ ∃ e ∈ es, e.passage = n ∧ e.kind = .image ∧ e.filePath = q := by
  simp only [imagesOf, List.mem_map, List.mem_filter, Bool.and_eq_true, beq_iff_eq]
  constructor
  · rintro ⟨e, ⟨h1, h2, h3⟩, h4⟩; exact ⟨e, h1, h2, h3, h4⟩
  · rintro ⟨e, h1, h2, h3, h4⟩; exact ⟨e, ⟨h1, h2, h3⟩, h4⟩

theorem imageKey_injOn (es : List PassageEvent) (hc : Compatible es) (n : Nat) :
    ∀ a ∈ imagesOf es n, ∀ b ∈ imagesOf es n, imageSortKey a = imageSortKey b → a = b := by
  intro a ha b hb hab
  obtain ⟨e1, h1, hp1, hk1, rfl⟩ := (mem_imagesOf es n a).1 ha
  obtain ⟨e2, h2, hp2, hk2, rfl⟩ := (mem_imagesOf es n b).1 hb
  exact (hc e1 h1 e2 h2 (hp1.trans hp2.symm) (hk1.trans hk2.symm)).1 hk1 hab

theorem map_inj_of_injOn {α β : Type} (f : α → β) : ∀ (l1 l2 : List α),
    l1.map f = l2.map f → (∀ a ∈ l1, ∀ b ∈ l2, f a = f b → a = b) → l1 = l2 := by
  intro l1
  induction l1 with
  | nil => intro l2 h _; cases l2 with
    | nil => rfl
    | cons _ _ => simp at h
  | cons a l1 ih =>
    intro l2 h hinj
    cases l2 with
    | nil => simp at h
    | cons b l2 =>
      simp only [List.map_cons, List.cons.injEq] at h
      have hab := hinj a (List.mem_cons_self _ _) b (List.mem_cons_self _ _) h.1
      rw [hab, ih l2 h.2 (fun x hx y hy =>
        hinj x (List.mem_cons_of_mem _ hx) y (List.mem_cons_of_mem _ hy))]

/-- Two sorted lists of image paths with the same elements are equal when no two elements
share a sort key. -/
theorem sorted_images_unique (l1 l2 : List (List Char)) (hp : l1.Perm l2)
    (h1 : l1.Sorted imageLe) (h2 : l2.Sorted imageLe)
    (hinj : ∀ a ∈ l1, ∀ b ∈ l1, imageSortKey a = imageSortKey b → a = b) : l1 = l2 := by
  have hm : l1.map imageSortKey = l2.map imageSortKey := by
    apply List.eq_of_perm_of_sorted (r := (· ≤ ·)) (hp.map _)
    · exact List.pairwise_map.2 h1
    · exact List.pairwise_map.2 h2
  exact map_inj_of_injOn imageSortKey l1 l2 hm
    (fun a ha b hb hab => hinj a ha b (hp.mem_iff.2 hb) hab)

theorem setOfArray_perm_of_mem {l1 l2 : List (List Char)} (h : ∀ a, a ∈ l1 ↔ a ∈ l2) :
    (setOfArray l1).Perm (setOfArray l2) := by
  unfold setOfArray
  rw [List.perm_ext_iff_of_nodup (nodup_uniqueAux _ _) (nodup_uniqueAux _ _)]
  intro a
  simp only [mem_uniqueAux, List.not_mem_nil, not_false_eq_true, and_true]
  exact h a

theorem mem_sortedImages (es : List PassageEvent) (n : Nat) (q : List Char) :
    q ∈ sortedImages es n ↔ q ∈ imagesOf es n := by
  rw [sortedImages, (List.perm_insertionSort imageLe _).mem_iff, setOfArray, mem_uniqueAux]
  simp

theorem sortedImages_nil (es : List PassageEvent) (n : Nat) (h : imagesOf es n = []) :
    sortedImages es n = [] := by
  rw [sortedImages, h]; rfl

/-- Adding an image to the entry described by `pre` gives the images described by
`pre ++ [e]`. -/
theorem upsert_sortedImages (pre : List PassageEvent) (e : PassageEvent)
    (hc : Compatible (pre ++ [e])) (hk : e.kind = .image) :
    upsertSortedImagePaths (if imagesOf pre e.passage = [] then none
        else some (sortedImages pre e.passage)) e.filePath =
      sortedImages (pre ++ [e]) e.passage := by
  have hget : (if imagesOf pre e.passage = [] then none
      else some (sortedImages pre e.passage)).getD [] = sortedImages pre e.passage := by
    by_cases h : imagesOf pre e.passage = []
    · simp [h, sortedImages_nil pre _ h]
    · simp [h]
  have himg : imagesOf (pre ++ [e]) e.passage = imagesOf pre e.passage ++ [e.filePath] := by
    rw [imagesOf_append]; simp [hk]
  unfold upsertSortedImagePaths
  rw [hget]
  apply sorted_images_unique
  · refine ((List.perm_insertionSort imageLe _).trans ?_).trans
      (List.perm_insertionSort imageLe _).symm
    apply setOfArray_perm_of_mem
    intro a
    rw [himg]
    simp only [List.mem_append, mem_sortedImages]
  · exact List.sorted_insertionSort imageLe _
  · exact List.sorted_insertionSort imageLe _
  · intro a ha b hb hab
    have hmem : ∀ x, x ∈ List.insertionSort imageLe
        (setOfArray (sortedImages pre e.passage ++ [e.filePath])) →
        x ∈ imagesOf (pre ++ [e]) e.passage := by
      intro x hx
      rw [(List.perm_insertionSort imageLe _).mem_iff, setOfArray, mem_uniqueAux] at hx
      rw [himg]
      simpa [mem_sortedImages] using hx.1
    exact imageKey_injOn _ hc e.passage a (hmem a ha) b (hmem b hb) hab


theorem mem_passageIds (es : List PassageEvent) (n : Nat) :
    n ∈ passageIds es ↔ ∃ e ∈ es, e.passage = n := by
  simp [passageIds, mem_uniqueAux]

theorem passageIds_nodup (es : List PassageEvent) : (passageIds es).Nodup :=
  nodup_uniqueAux _ _

theorem passageIds_append (pre : List PassageEvent) (e : PassageEvent) :
    passageIds (pre ++ [e]) =
      passageIds pre ++ (if e.passage ∈ passageIds pre then [] else [e.passage]) := by
  unfold passageIds
  rw [List.map_append, List.map_singleton, uniqueAux_append_singleton]
  have : (e.passage ∈ ([] : List Nat) ∨ e.passage ∈ pre.map (fun e => e.passage)) ↔
      e.passage ∈ uniqueAux [] (pre.map (fun e => e.passage)) := by
    simp [mem_uniqueAux]
  simp only [this]

theorem sortedImages_append_other (pre : List PassageEvent) (e : PassageEvent) (n : Nat)
    (h : ¬ (e.passage = n ∧ e.kind = .image)) :
    imagesOf (pre ++ [e]) n = imagesOf pre n ∧ sortedImages (pre ++ [e]) n = sortedImages pre n := by
  have h1 : imagesOf (pre ++ [e]) n = imagesOf pre n := by
    rw [imagesOf_append]; simp only [h, if_false, List.append_nil]
  exact ⟨h1, by rw [sortedImages, h1, sortedImages]⟩

theorem expectedPassage_append_other (pre : List PassageEvent) (e : PassageEvent) (m : Nat)
    (h : m ≠ e.passage) : expectedPassage (pre ++ [e]) m = expectedPassage pre m := by
  have hne : ∀ k, ¬ (e.passage = m ∧ e.kind = k) := fun k hk => h hk.1.symm
  obtain ⟨h1, h2⟩ := sortedImages_append_other pre e m (hne _)
  simp only [expectedPassage, pathOf_append_other pre e m _ (hne _), h1, h2]

theorem expectedPassage_of_not_mem (pre : List PassageEvent) (n : Nat)
    (h : n ∉ passageIds pre) : expectedPassage pre n = newPassage n := by
  have hno : ∀ e ∈ pre, e.passage ≠ n := fun e he hn => h ((mem_passageIds pre n).2 ⟨e, he, hn⟩)
  have hp : ∀ k, pathOf pre n k = none := by
    intro k
    unfold pathOf
    rw [Option.map_eq_none', List.find?_eq_none]
    intro e he
    simp [hno e he]
  have hi : imagesOf pre n = [] := by
    unfold imagesOf
    rw [List.map_eq_nil_iff, List.filter_eq_nil_iff]
    intro e he
    simp [hno e he]
  simp only [expectedPassage, hp, hi, if_true, sortedImages_nil pre n hi, newPassage,
    List.head?_nil]

/-- The assignment made for an event turns the entry described by `pre` into the entry
described by `pre ++ [e]`. -/
theorem writeField_expected (pre : List PassageEvent) (e : PassageEvent)
    (hc : Compatible (pre ++ [e])) :
    writeField e.kind e.filePath (expectedPassage pre e.passage) =
      expectedPassage (pre ++ [e]) e.passage := by
  have hother : ∀ k, e.kind ≠ k → pathOf (pre ++ [e]) e.passage k = pathOf pre e.passage k :=
    fun k hk => pathOf_append_other pre e _ k (fun h => hk h.2)
  have hself := pathOf_append_self pre e hc
  cases hk : e.kind with
  | image =>
    have hup := upsert_sortedImages pre e hc hk
    have himg : imagesOf (pre ++ [e]) e.passage ≠ [] := by
      rw [imagesOf_append]; simp [hk]
    rw [hk] at hother
    simp only [writeField, expectedPassage, hup, himg, if_false,
      hother _ (by decide : FileKind.image ≠ FileKind.audio),
      hother _ (by decide : FileKind.image ≠ FileKind.subtitle),
      hother _ (by decide : FileKind.image ≠ FileKind.script),
      hother _ (by decide : FileKind.image ≠ FileKind.questions),
      hother _ (by decide : FileKind.image ≠ FileKind.dictation)]
  | other =>
    obtain ⟨h1, h2⟩ := sortedImages_append_other pre e e.passage (by simp [hk])
    rw [hk] at hother
    simp only [writeField, expectedPassage, h1, h2,
      hother _ (by decide : FileKind.other ≠ FileKind.audio),
      hother _ (by decide : FileKind.other ≠ FileKind.subtitle),
      hother _ (by decide : FileKind.other ≠ FileKind.script),
      hother _ (by decide : FileKind.other ≠ FileKind.questions),
      hother _ (by decide : FileKind.other ≠ FileKind.dictation)]
  | audio =>
    obtain ⟨h1, h2⟩ := sortedImages_append_other pre e e.passage (by simp [hk])
    rw [hk] at hother hself
    simp only [writeField, expectedPassage, h1, h2, hself (by decide) (by decide),
      hother _ (by decide : FileKind.audio ≠ FileKind.subtitle),
      hother _ (by decide : FileKind.audio ≠ FileKind.script),
      hother _ (by decide : FileKind.audio ≠ FileKind.questions),
      hother _ (by decide : FileKind.audio ≠ FileKind.dictation)]
  | subtitle =>
    obtain ⟨h1, h2⟩ := sortedImages_append_other pre e e.passage (by simp [hk])
    rw [hk] at hother hself
    simp only [writeField, expectedPassage, h1, h2, hself (by decide) (by decide),
      hother _ (by decide : FileKind.subtitle ≠ FileKind.audio),
      hother _ (by decide : FileKind.subtitle ≠ FileKind.script),
      hother _ (by decide : FileKind.subtitle ≠ FileKind.questions),
      hother _ (by decide : FileKind.subtitle ≠ FileKind.dictation)]
  | script =>
    obtain ⟨h1, h2⟩ := sortedImages_append_other pre e e.passage (by simp [hk])
    rw [hk] at hother hself
    simp only [writeField, expectedPassage, h1, h2, hself (by decide) (by decide),
      hother _ (by decide : FileKind.script ≠ FileKind.audio),
      hother _ (by decide : FileKind.script ≠ FileKind.subtitle),
      hother _ (by decide : FileKind.script ≠ FileKind.questions),
      hother _ (by decide : FileKind.script ≠ FileKind.dictation)]
  | questions =>
    obtain ⟨h1, h2⟩ := sortedImages_append_other pre e e.passage (by simp [hk])
    rw [hk] at hother hself
    simp only [writeField, expectedPassage, h1, h2, hself (by decide) (by decide),
      hother _ (by decide : FileKind.questions ≠ FileKind.audio),
      hother _ (by decide : FileKind.questions ≠ FileKind.subtitle),
      hother _ (by decide : FileKind.questions ≠ FileKind.script),
      hother _ (by decide : FileKind.questions ≠ FileKind.dictation)]
  | dictation =>
    obtain ⟨h1, h2⟩ := sortedImages_append_other pre e e.passage (by simp [hk])
    rw [hk] at hother hself
    simp only [writeField, expectedPassage, h1, h2, hself (by decide) (by decide),
      hother _ (by decide : FileKind.dictation ≠ FileKind.audio),
      hother _ (by decide : FileKind.dictation ≠ FileKind.subtitle),
      hother _ (by decide : FileKind.dictation ≠ FileKind.script),
      hother _ (by decide : FileKind.dictation ≠ FileKind.questions)]

theorem upsertPassage_map (n : Nat) (f : Passage → Passage) (g : Nat → Passage)
    (hg : ∀ m, (g m).id = m) (ids : List Nat) (hnd : ids.Nodup) :
    upsertPassage n f (ids.map g) =
      ids.map (fun m => if m = n then f (g m) else g m) ++
        (if n ∈ ids then [] else [f (newPassage n)]) := by
  induction ids with
  | nil => simp [upsertPassage]
  | cons m ms ih =>
    rw [List.nodup_cons] at hnd
    by_cases hm : m = n
    · subst hm
      have hrest : ms.map (fun x => if x = m then f (g x) else g x) = ms.map g := by
        apply List.map_congr_left
        intro x hx
        have : x ≠ m := fun h => hnd.1 (h ▸ hx)
        simp [this]
      simp [upsertPassage, hg, hrest]
    · have hm2 : ¬ n = m := fun h => hm h.symm
      simp [upsertPassage, hg, hm, hm2, ih hnd.2]

theorem find?_map_id (n : Nat) (g : Nat → Passage) (hg : ∀ m, (g m).id = m) (ids : List Nat) :
    (ids.map g).find? (fun x => x.id == n) = if n ∈ ids then some (g n) else none := by
  induction ids with
  | nil => simp
  | cons m ms ih =>
    by_cases hm : m = n
    · subst hm; simp [hg]
    · have hm2 : ¬ n = m := fun h => hm h.symm
      simp [hg, hm, hm2, ih]

theorem expectedPassage_id (es : List PassageEvent) (m : Nat) : (expectedPassage es m).id = m :=
  rfl

/-- The passages after an event, from the passages described by `pre`. -/
theorem upsertPassage_expected (pre : List PassageEvent) (e : PassageEvent)
    (hc : Compatible (pre ++ [e])) :
    upsertPassage e.passage (writeField e.kind e.filePath)
        ((passageIds pre).map (expectedPassage pre)) =
      (passageIds (pre ++ [e])).map (expectedPassage (pre ++ [e])) := by
  rw [upsertPassage_map _ _ _ (expectedPassage_id pre) _ (passageIds_nodup pre),
    passageIds_append, List.map_append]
  have hmap : (passageIds pre).map (fun m => if m = e.passage
      then writeField e.kind e.filePath (expectedPassage pre m) else expectedPassage pre m) =
      (passageIds pre).map (expectedPassage (pre ++ [e])) := by
    apply List.map_congr_left
    intro m _
    by_cases hm : m = e.passage
    · subst hm; simp only [if_true]; exact writeField_expected pre e hc
    · simp only [hm, if_false]; exact (expectedPassage_append_other pre e m hm).symm
  rw [hmap]
  congr 1
  by_cases hin : e.passage ∈ passageIds pre
  · simp [hin]
  · simp only [hin, if_false, List.map_singleton, List.cons.injEq, and_true]
    rw [← expectedPassage_of_not_mem pre _ hin]
    exact writeField_expected pre e hc

theorem touchedPassage_expected (pre : List PassageEvent) (e : PassageEvent)
    (hc : Compatible (pre ++ [e])) :
    touchedPassage e.passage (writeField e.kind e.filePath)
        ((passageIds pre).map (expectedPassage pre)) =
      expectedPassage (pre ++ [e]) e.passage := by
  unfold touchedPassage
  rw [find?_map_id _ _ (expectedPassage_id pre)]
  by_cases hin : e.passage ∈ passageIds pre
  · simp only [hin, if_true, Option.getD_some]
    exact writeField_expected pre e hc
  · simp only [hin, if_false, Option.getD_none]
    rw [← expectedPassage_of_not_mem pre _ hin]
    exact writeField_expected pre e hc


theorem expectedMode_nodup (es : List PassageEvent) : (expectedMode es).Nodup := by
  unfold expectedMode
  cases hasDictation es <;> decide

theorem hasDictation_append (pre : List PassageEvent) (e : PassageEvent) :
    hasDictation (pre ++ [e]) =
      (hasDictation pre || (e.kind == .dictation && !e.filePath.isEmpty)) := by
  simp [hasDictation, List.any_append]

theorem truthy_dictation_step (pre : List PassageEvent) (e : PassageEvent)
    (hc : Compatible (pre ++ [e])) (hpre : hasDictation pre = false) :
    truthy (pathOf (pre ++ [e]) e.passage .dictation) =
      (e.kind == .dictation && !e.filePath.isEmpty) := by
  by_cases hk : e.kind = .dictation
  · have := pathOf_append_self pre e hc (by rw [hk]; decide) (by rw [hk]; decide)
    rw [hk] at this
    simp [this, truthy, hk]
  · rw [pathOf_append_other pre e _ _ (fun h => hk h.2)]
    have hfalse : (e.kind == FileKind.dictation && !e.filePath.isEmpty) = false := by
      simp [hk]
    rw [hfalse]
    cases hq : pathOf pre e.passage .dictation with
    | none => rfl
    | some q =>
      obtain ⟨e0, he0, _, hk0, hq0⟩ :=
        (pathOf_eq_some pre hc.of_append_left _ _ (by decide) (by decide) q).1 hq
      have hall : ∀ x ∈ pre, (x.kind == FileKind.dictation && !x.filePath.isEmpty) = false := by
        simpa [hasDictation] using hpre
      have := hall e0 he0
      simp only [hk0, beq_self_eq_true, Bool.true_and, Bool.not_eq_false', hq0] at this
      simp [truthy, this]

/-- The modes after an event, from the modes described by `pre`. -/
theorem modeAfter_expected (pre : List PassageEvent) (e : PassageEvent)
    (hc : Compatible (pre ++ [e])) (mode : Option (List (List Char)))
    (hmode : mode.getD defaultModes = expectedMode pre) :
    modeAfter mode (truthy (pathOf (pre ++ [e]) e.passage .dictation)) =
      expectedMode (pre ++ [e]) := by
  have hset : setOfArray (expectedMode pre) = expectedMode pre :=
    uniqueAux_of_nodup _ _ (expectedMode_nodup pre) (by simp)
  unfold modeAfter
  simp only [hmode, hset]
  cases hpre : hasDictation pre with
  | true =>
    have h1 : expectedMode pre = defaultModes ++ [dictationMode] := by
      simp [expectedMode, hpre]
    have h2 : expectedMode (pre ++ [e]) = defaultModes ++ [dictationMode] := by
      simp [expectedMode, hasDictation_append, hpre]
    rw [h1, h2]
    simp
  | false =>
    have h1 : expectedMode pre = defaultModes := by
      simp [expectedMode, hpre]
    have h3 : dictationMode ∉ defaultModes := by decide
    rw [truthy_dictation_step pre e hc hpre, h1]
    simp only [h3, decide_False, Bool.not_false, Bool.and_true]
    unfold expectedMode
    rw [hasDictation_append, hpre, Bool.false_or]
    cases (e.kind == FileKind.dictation && !e.filePath.isEmpty) <;> simp

/-- One step of the aggregator on the record described by `pre` gives the record described by
`pre ++ [e]`. -/
theorem txBody_expected (level lesson pattern : List Char) (pre : List PassageEvent)
    (e : PassageEvent) (hc : Compatible (pre ++ [e])) :
    some (txBody level lesson pattern e.passage e.kind e.filePath
      (expectedRecord level lesson pattern pre)) =
      expectedRecord level lesson pattern (pre ++ [e]) := by
  have hne : pre ++ [e] ≠ [] := by simp
  have hpass : ((expectedRecord level lesson pattern pre).getD emptyRecord).passages.getD [] =
      (passageIds pre).map (expectedPassage pre) := by
    by_cases hpre : pre = []
    · subst hpre; rfl
    · simp [expectedRecord, hpre]
  have hmode : ((expectedRecord level lesson pattern pre).getD emptyRecord).mode.getD
      defaultModes = expectedMode pre := by
    by_cases hpre : pre = []
    · subst hpre; rfl
    · simp [expectedRecord, hpre]
  have hlesson : (match ((expectedRecord level lesson pattern pre).getD emptyRecord).lesson with
      | some n => some n
      | none => lessonToNumber lesson) = lessonToNumber lesson := by
    by_cases hpre : pre = []
    · subst hpre; rfl
    · simp only [expectedRecord, hpre, if_false, Option.getD_some]
      cases lessonToNumber lesson <;> rfl
  have htop : ((expectedRecord level lesson pattern pre).getD emptyRecord).title.getD lesson
        = lesson ∧
      ((expectedRecord level lesson pattern pre).getD emptyRecord).level.getD level = level ∧
      ((expectedRecord level lesson pattern pre).getD emptyRecord).pattern.getD pattern
        = pattern ∧
      ((expectedRecord level lesson pattern pre).getD emptyRecord).id.getD
        (legacyId level lesson pattern) = legacyId level lesson pattern ∧
      ((expectedRecord level lesson pattern pre).getD emptyRecord).dictationPath = none := by
    by_cases hpre : pre = []
    · subst hpre; exact ⟨rfl, rfl, rfl, rfl, rfl⟩
    · simp [expectedRecord, hpre]
  obtain ⟨ht1, ht2, ht3, ht4, ht5⟩ := htop
  have hR : expectedRecord level lesson pattern (pre ++ [e]) = some
      { title := some lesson, level := some level, lesson := lessonToNumber lesson,
        pattern := some pattern, id := some (legacyId level lesson pattern),
        mode := some (expectedMode (pre ++ [e])),
        passages := some ((passageIds (pre ++ [e])).map (expectedPassage (pre ++ [e]))),
        dictationPath := none } := by
    simp only [expectedRecord, hne, if_false]
  rw [hR]
  generalize expectedRecord level lesson pattern pre = D at hpass hmode hlesson ht1 ht2 ht3 ht4 ht5
  have hdict : (expectedPassage (pre ++ [e]) e.passage).dictationPath =
      pathOf (pre ++ [e]) e.passage .dictation := rfl
  unfold txBody
  simp only [hpass, hlesson, ht1, ht2, ht3, ht4, ht5, upsertPassage_expected pre e hc,
    touchedPassage_expected pre e hc, hdict, modeAfter_expected pre e hc _ hmode]

theorem applyEvents_append (level lesson pattern : List Char) (l1 l2 : List Event)
    (snap : Option LessonRecord) :
    applyEvents level lesson pattern (l1 ++ l2) snap =
      applyEvents level lesson pattern l2 (applyEvents level lesson pattern l1 snap) := by
  simp [applyEvents, List.foldl_append]

/-- From the absent record, compatible events build the record that `expectedRecord`
describes. -/
theorem applyEvents_eq_expected (level lesson pattern : List Char) (es : List PassageEvent)
    (hc : Compatible es) :
    applyEvents level lesson pattern (es.map PassageEvent.toEvent) none =
      expectedRecord level lesson pattern es := by
  induction es using List.reverseRecOn with
  | nil => rfl
  | append_singleton pre e ih =>
    rw [List.map_append, applyEvents_append, ih hc.of_append_left]
    simp only [List.map_singleton, applyEvents, List.foldl_cons, List.foldl_nil,
      PassageEvent.toEvent, applyEvent]
    exact txBody_expected level lesson pattern pre e hc


/-! ## Order of arrival -/

theorem pathOf_perm (es es2 : List PassageEvent) (hp : es.Perm es2) (hc : Compatible es)
    (n : Nat) (k : FileKind) (hk1 : k ≠ .image) (hk2 : k ≠ .other) :
    pathOf es n k = pathOf es2 n k := by
  apply Option.ext
  intro q
  rw [Option.mem_def, Option.mem_def, pathOf_eq_some es hc n k hk1 hk2,
    pathOf_eq_some es2 (hc.perm hp) n k hk1 hk2]
  constructor
  · rintro ⟨e, he, h⟩; exact ⟨e, hp.mem_iff.1 he, h⟩
  · rintro ⟨e, he, h⟩; exact ⟨e, hp.mem_iff.2 he, h⟩

theorem imagesOf_perm (es es2 : List PassageEvent) (hp : es.Perm es2) (n : Nat) :
    (imagesOf es n).Perm (imagesOf es2 n) :=
  (hp.filter _).map _

theorem sortedImages_perm (es es2 : List PassageEvent) (hp : es.Perm es2) (hc : Compatible es)
    (n : Nat) : sortedImages es n = sortedImages es2 n := by
  apply sorted_images_unique
  · refine ((List.perm_insertionSort imageLe _).trans ?_).trans
      (List.perm_insertionSort imageLe _).symm
    exact setOfArray_perm_of_mem (fun a => (imagesOf_perm es es2 hp n).mem_iff)
  · exact List.sorted_insertionSort imageLe _
  · exact List.sorted_insertionSort imageLe _
  · intro a ha b hb hab
    exact imageKey_injOn es hc n a ((mem_sortedImages es n a).1 ha) b
      ((mem_sortedImages es n b).1 hb) hab

theorem expectedPassage_perm (es es2 : List PassageEvent) (hp : es.Perm es2)
    (hc : Compatible es) (n : Nat) : expectedPassage es n = expectedPassage es2 n := by
  have hnil : imagesOf es n = [] ↔ imagesOf es2 n = [] := by
    constructor
    · intro h; exact List.Perm.eq_nil (h ▸ (imagesOf_perm es es2 hp n).symm)
    · intro h; exact List.Perm.eq_nil (h ▸ imagesOf_perm es es2 hp n)
  simp only [expectedPassage, pathOf_perm es es2 hp hc n .audio (by decide) (by decide),
    pathOf_perm es es2 hp hc n .subtitle (by decide) (by decide),
    pathOf_perm es es2 hp hc n .script (by decide) (by decide),
    pathOf_perm es es2 hp hc n .questions (by decide) (by decide),
    pathOf_perm es es2 hp hc n .dictation (by decide) (by decide),
    sortedImages_perm es es2 hp hc n, hnil]

theorem hasDictation_perm (es es2 : List PassageEvent) (hp : es.Perm es2) :
    hasDictation es = hasDictation es2 := by
  rw [Bool.eq_iff_iff]
  simp only [hasDictation, List.any_eq_true]
  constructor
  · rintro ⟨e, he, h⟩; exact ⟨e, hp.mem_iff.1 he, h⟩
  · rintro ⟨e, he, h⟩; exact ⟨e, hp.mem_iff.2 he, h⟩

theorem passageIds_perm (es es2 : List PassageEvent) (hp : es.Perm es2) :
    (passageIds es).Perm (passageIds es2) := by
  rw [List.perm_ext_iff_of_nodup (passageIds_nodup es) (passageIds_nodup es2)]
  intro n
  rw [mem_passageIds, mem_passageIds]
  constructor
  · rintro ⟨e, he, h⟩; exact ⟨e, hp.mem_iff.1 he, h⟩
  · rintro ⟨e, he, h⟩; exact ⟨e, hp.mem_iff.2 he, h⟩

theorem expectedRecord_perm (level lesson pattern : List Char) (es es2 : List PassageEvent)
    (hp : es.Perm es2) (hc : Compatible es) :
    SameUpToPassageOrder (expectedRecord level lesson pattern es)
      (expectedRecord level lesson pattern es2) := by
  by_cases he : es = []
  · subst he
    have : es2 = [] := List.Perm.eq_nil hp.symm
    subst this
    simp [expectedRecord, SameUpToPassageOrder]
  · have he2 : es2 ≠ [] := fun h => he (List.Perm.eq_nil (h ▸ hp))
    simp only [expectedRecord, he, he2, if_false, SameUpToPassageOrder, true_and]
    refine ⟨by rw [expectedMode, expectedMode, hasDictation_perm es es2 hp], _, _, rfl, rfl, ?_⟩
    have hfun : expectedPassage es = expectedPassage es2 :=
      funext (expectedPassage_perm es es2 hp hc)
    rw [hfun]
    exact (passageIds_perm es es2 hp).map _

/-- C1 (counterexample). Five pairs of events for the key `Level3/Lesson2/B`, each handled in
both orders from the absent record: the lesson-level `dictation.json` and a passage file (the
modes differ), files of two passages (the order of `passages` differs), two audio files of one
passage (the last one wins), two images with the same suffix letter (their order differs), two
lesson-level files `dictation.json` and `Dictation.json` (the last one wins).
The first two conjuncts and the first part of the last one show that the events are the
classification of uploaded files. -/
theorem applyEvents_order_matters :
    classifyUpload "official/Level3/Lesson2/B/dictation.json".toList =
      some ("Level3".toList, "Lesson2".toList, "B".toList,
        .lessonDictation "official/Level3/Lesson2/B/dictation.json".toList) ∧
    (["official/Level3/Lesson2/B/passage1/listening.mp3",
      "official/Level3/Lesson2/B/passage2/listening.mp3",
      "official/Level3/Lesson2/B/passage1/listening.wav",
      "official/Level3/Lesson2/B/passage1/img_x_a.png",
      "official/Level3/Lesson2/B/passage1/img_y_a.png"].map
        (fun p => (classifyUpload p.toList).map (fun x => x.2.2.2)) =
      [some (.passageFile 1 .audio "official/Level3/Lesson2/B/passage1/listening.mp3".toList),
       some (.passageFile 2 .audio "official/Level3/Lesson2/B/passage2/listening.mp3".toList),
       some (.passageFile 1 .audio "official/Level3/Lesson2/B/passage1/listening.wav".toList),
       some (.passageFile 1 .image "official/Level3/Lesson2/B/passage1/img_x_a.png".toList),
       some (.passageFile 1 .image "official/Level3/Lesson2/B/passage1/img_y_a.png".toList)]) ∧
    ((applyEvents "Level3".toList "Lesson2".toList "B".toList
        [.lessonDictation "official/Level3/Lesson2/B/dictation.json".toList,
          .passageFile 1 .audio "official/Level3/Lesson2/B/passage1/listening.mp3".toList]
        none).map (fun r => r.mode) = some (some [dictationMode]) ∧
      (applyEvents "Level3".toList "Lesson2".toList "B".toList
        [.passageFile 1 .audio "official/Level3/Lesson2/B/passage1/listening.mp3".toList,
          .lessonDictation "official/Level3/Lesson2/B/dictation.json".toList]
        none).map (fun r => r.mode) =
          some (some ["listening".toList, "overlapping".toList, dictationMode])) ∧
    ((applyEvents "Level3".toList "Lesson2".toList "B".toList
        [.passageFile 1 .audio "official/Level3/Lesson2/B/passage1/listening.mp3".toList,
          .passageFile 2 .audio "official/Level3/Lesson2/B/passage2/listening.mp3".toList]
        none).map (fun r => r.passages.map (fun ps => ps.map (fun x => x.id))) =
          some (some [1, 2]) ∧
      (applyEvents "Level3".toList "Lesson2".toList "B".toList
        [.passageFile 2 .audio "official/Level3/Lesson2/B/passage2/listening.mp3".toList,
          .passageFile 1 .audio "official/Level3/Lesson2/B/passage1/listening.mp3".toList]
        none).map (fun r => r.passages.map (fun ps => ps.map (fun x => x.id))) =
          some (some [2, 1])) ∧
    ((applyEvents "Level3".toList "Lesson2".toList "B".toList
        [.passageFile 1 .audio "official/Level3/Lesson2/B/passage1/listening.mp3".toList,
          .passageFile 1 .audio "official/Level3/Lesson2/B/passage1/listening.wav".toList]
        none).map (fun r => r.passages.map (fun ps => ps.map (fun x => x.audioPath))) =
          some (some [some "official/Level3/Lesson2/B/passage1/listening.wav".toList]) ∧
      (applyEvents "Level3".toList "Lesson2".toList "B".toList
        [.passageFile 1 .audio "official/Level3/Lesson2/B/passage1/listening.wav".toList,
          .passageFile 1 .audio "official/Level3/Lesson2/B/passage1/listening.mp3".toList]
        none).map (fun r => r.passages.map (fun ps => ps.map (fun x => x.audioPath))) =
          some (some [some "official/Level3/Lesson2/B/passage1/listening.mp3".toList])) ∧
    ((applyEvents "Level3".toList "Lesson2".toList "B".toList
        [.passageFile 1 .image "official/Level3/Lesson2/B/passage1/img_x_a.png".toList,
          .passageFile 1 .image "official/Level3/Lesson2/B/passage1/img_y_a.png".toList]
        none).map (fun r => r.passages.map (fun ps => ps.map (fun x => x.imagePath))) =
          some (some [some "official/Level3/Lesson2/B/passage1/img_x_a.png".toList]) ∧
      (applyEvents "Level3".toList "Lesson2".toList "B".toList
        [.passageFile 1 .image "official/Level3/Lesson2/B/passage1/img_y_a.png".toList,
          .passageFile 1 .image "official/Level3/Lesson2/B/passage1/img_x_a.png".toList]
        none).map (fun r => r.passages.map (fun ps => ps.map (fun x => x.imagePath))) =
          some (some [some "official/Level3/Lesson2/B/passage1/img_y_a.png".toList])) ∧
    (classifyUpload "official/Level3/Lesson2/B/Dictation.json".toList =
        some ("Level3".toList, "Lesson2".toList, "B".toList,
          .lessonDictation "official/Level3/Lesson2/B/Dictation.json".toList) ∧
      (applyEvents "Level3".toList "Lesson2".toList "B".toList
        [.lessonDictation "official/Level3/Lesson2/B/dictation.json".toList,
          .lessonDictation "official/Level3/Lesson2/B/Dictation.json".toList]
        none).map (fun r => r.dictationPath) =
          some (some "official/Level3/Lesson2/B/Dictation.json".toList) ∧
      (applyEvents "Level3".toList "Lesson2".toList "B".toList
        [.lessonDictation "official/Level3/Lesson2/B/Dictation.json".toList,
          .lessonDictation "official/Level3/Lesson2/B/dictation.json".toList]
        none).map (fun r => r.dictationPath) =
          some (some "official/Level3/Lesson2/B/dictation.json".toList)) := by
  exact ⟨by decide, by decide, ⟨by decide, by decide⟩, ⟨by decide, by decide⟩,
    ⟨by decide, by decide⟩, ⟨by decide, by decide⟩, by decide, by decide, by decide⟩

/-- The same divergence through the handler: the two orders of delivery of the lesson-level
`dictation.json` and of a passage audio file leave different modes in the document
`Level_3_Lesson2_B`. -/
theorem handleUploads_order_matters :
    legacyDocId "Level3".toList "Lesson2".toList "B".toList = "Level_3_Lesson2_B".toList ∧
    (handleUploads ["official/Level3/Lesson2/B/dictation.json".toList,
        "official/Level3/Lesson2/B/passage1/listening.mp3".toList]
      (fun _ => none) "Level_3_Lesson2_B".toList).map (fun r => r.mode) =
        some (some [dictationMode]) ∧
    (handleUploads ["official/Level3/Lesson2/B/passage1/listening.mp3".toList,
        "official/Level3/Lesson2/B/dictation.json".toList]
      (fun _ => none) "Level_3_Lesson2_B".toList).map (fun r => r.mode) =
        some (some ["listening".toList, "overlapping".toList, dictationMode]) := by
  decide

end Materials

namespace Dictation

/-! ## The selector returns a bounded selection; the similarity as a quotient of cardinals -/

theorem firstPass_subset (maxSim : ℚ) (count : Nat) (l : List (List Char)) :
    ∀ picked : List (List Char), ∀ s ∈ firstPass maxSim count l picked, s ∈ picked ∨ s ∈ l := by
  induction l with
  | nil => intro picked s hs; exact Or.inl hs
  | cons x rest ih =>
    intro picked s hs
    by_cases hx : x.isEmpty = true
    · simp only [firstPass, hx, if_true] at hs
      exact (ih picked s hs).imp id (List.mem_cons_of_mem _)
    · simp only [firstPass, hx, Bool.false_eq_true, if_false] at hs
      by_cases hall : picked.all (fun p => decide (jaccard p x ≤ maxSim)) = true
      · simp only [hall, if_true] at hs
        have hstep : ∀ t, t ∈ picked ++ [x] → t ∈ picked ∨ t ∈ x :: rest := by
          intro t ht
          rcases List.mem_append.1 ht with h | h
          · exact Or.inl h
          · exact Or.inr (List.mem_cons.2 (Or.inl (by simpa using h)))
        split at hs
        · exact hstep s hs
        · rcases ih _ s hs with h | h
          · exact hstep s h
          · exact Or.inr (List.mem_cons_of_mem _ h)
      · simp only [hall, Bool.false_eq_true, if_false] at hs
        split at hs
        · exact Or.inl hs
        · exact (ih _ s hs).imp id (List.mem_cons_of_mem _)

theorem secondPass_subset (count : Nat) (l : List (List Char)) :
    ∀ picked : List (List Char), ∀ s ∈ secondPass count l picked, s ∈ picked ∨ s ∈ l := by
  induction l with
  | nil => intro picked s hs; exact Or.inl hs
  | cons x rest ih =>
    intro picked s hs
    by_cases hc : count ≤ picked.length
    · rw [secondPass_of_le count (x :: rest) picked hc] at hs
      exact Or.inl hs
    · simp only [secondPass, hc, if_false] at hs
      rcases ih _ s hs with h | h
      · split at h
        · exact Or.inl h
        · rcases List.mem_append.1 h with h1 | h1
          · exact Or.inl h1
          · exact Or.inr (List.mem_cons.2 (Or.inl (by simpa using h1)))
      · exact Or.inr (List.mem_cons_of_mem _ h)

/-- C11. `pickDistinctSnippets` returns at most `count` snippets, and every returned snippet
is one of the candidates. -/
theorem pickDistinct_bounded_selection (snippets : List (List Char)) (count : Nat)
    (maxSim : ℚ) :
    (pickDistinctSnippets snippets count maxSim).length ≤ count ∧
    ∀ s ∈ pickDistinctSnippets snippets count maxSim, s ∈ snippets := by
  unfold pickDistinctSnippets
  refine ⟨by rw [List.length_take]; exact Nat.min_le_left _ _, fun s hs => ?_⟩
  rcases secondPass_subset count snippets _ s (List.mem_of_mem_take hs) with h | h
  · rcases firstPass_subset maxSim count snippets [] s h with h1 | h1
    · simp at h1
    · exact h1
  · exact h

theorem tokenSet_toFinset (a : List Char) : (tokenSet a).toFinset = (tokenize a).toFinset := by
  ext w
  simp [tokenSet, mem_uniqueAux]

theorem tokenSet_length (a : List Char) : (tokenSet a).length = (tokenize a).toFinset.card := by
  rw [← tokenSet_toFinset, List.toFinset_card_of_nodup (nodup_tokenSet a)]

theorem tokenSet_inter_length (a b : List Char) :
    ((tokenSet a).filter (fun w => w ∈ tokenSet b)).length =
      ((tokenize a).toFinset ∩ (tokenize b).toFinset).card := by
  rw [← List.toFinset_card_of_nodup ((nodup_tokenSet a).filter _)]
  congr 1
  ext w
  simp [tokenSet, mem_uniqueAux]

/-- The value of `jaccard` as a quotient of cardinals, the convention `x / 0 = 0` covering the
case of two empty token sets. -/
theorem jaccard_eq_card (a b : List Char) :
    jaccard a b = (((tokenize a).toFinset ∩ (tokenize b).toFinset).card : ℚ) /
      (((tokenize a).toFinset ∪ (tokenize b).toFinset).card : ℚ) := by
  have hu := Finset.card_union_add_card_inter (tokenize a).toFinset (tokenize b).toFinset
  unfold jaccard
  simp only [tokenSet_length, tokenSet_inter_length]
  by_cases h0 : (tokenize a).toFinset.card = 0 ∨ (tokenize b).toFinset.card = 0
  · simp only [h0, if_true]
    have hi : ((tokenize a).toFinset ∩ (tokenize b).toFinset).card = 0 := by
      rcases h0 with h | h
      · rw [Finset.card_eq_zero] at h; simp [h]
      · rw [Finset.card_eq_zero] at h; simp [h]
    simp [hi]
  · simp only [h0, if_false]
    have he : (tokenize a).toFinset.card + (tokenize b).toFinset.card -
        ((tokenize a).toFinset ∩ (tokenize b).toFinset).card =
        ((tokenize a).toFinset ∪ (tokenize b).toFinset).card := by omega
    rw [he]
    split
    · rename_i hz; simp [hz]
    · rfl

/-- C12. `jaccard(a, b)` is the number of common tokens over the number of tokens of either
string, it is 0 when one of the token sets is empty, it lies between 0 and 1, and it is
symmetric. -/
theorem jaccard_metric (a b : List Char) :
    jaccard a b = (((tokenize a).toFinset ∩ (tokenize b).toFinset).card : ℚ) /
      (((tokenize a).toFinset ∪ (tokenize b).toFinset).card : ℚ) ∧
    (((tokenize a).toFinset = ∅ ∨ (tokenize b).toFinset = ∅) → jaccard a b = 0) ∧
    0 ≤ jaccard a b ∧ jaccard a b ≤ 1 ∧ jaccard a b = jaccard b a := by
  have hle : (((tokenize a).toFinset ∩ (tokenize b).toFinset).card : ℚ) ≤
      (((tokenize a).toFinset ∪ (tokenize b).toFinset).card : ℚ) := by
    exact_mod_cast Finset.card_le_card
      (Finset.inter_subset_left.trans Finset.subset_union_left)
  refine ⟨jaccard_eq_card a b, ?_, ?_, ?_, jaccard_comm a b⟩
  · intro h
    rw [jaccard_eq_card]
    have hi : ((tokenize a).toFinset ∩ (tokenize b).toFinset).card = 0 := by
      rcases h with h | h <;> simp [h]
    simp [hi]
  · rw [jaccard_eq_card]
    exact div_nonneg (Nat.cast_nonneg _) (Nat.cast_nonneg _)
  · rw [jaccard_eq_card]
    exact div_le_one_of_le₀ hle (Nat.cast_nonneg _)

/-- Witness of `jaccard_metric`: the empty string has no token. -/
theorem jaccard_metric_witness :
    ((tokenize "".toList).toFinset = ∅ ∨ (tokenize "the dog ran home".toList).toFinset = ∅) ∧
    jaccard "".toList "the dog ran home".toList = 0 :=
  ⟨Or.inl (by decide), (jaccard_metric "".toList "the dog ran home".toList).2.1
    (Or.inl (by decide))⟩

end Dictation

namespace Materials

open Dictation

/-! ## What one passage event changes -/

theorem passagesOf_txBody (level lesson pattern : List Char) (passage : Nat) (kind : FileKind)
    (filePath : List Char) (snap : Option LessonRecord) :
    passagesOf (some (txBody level lesson pattern passage kind filePath snap)) =
      upsertPassage passage (writeField kind filePath) (passagesOf snap) := rfl

theorem passagesOf_setLessonDictation (filePath : List Char) (snap : Option LessonRecord) :
    passagesOf (some (setLessonDictation filePath snap)) = passagesOf snap := rfl

theorem baseModes_txBody (level lesson pattern : List Char) (passage : Nat) (kind : FileKind)
    (filePath : List Char) (snap : Option LessonRecord) :
    baseModes (some (txBody level lesson pattern passage kind filePath snap)) =
      modeAfter (snap.getD emptyRecord).mode
        (truthy (touchedPassage passage (writeField kind filePath)
          (passagesOf snap)).dictationPath) := rfl

/-- The passages after an event: the first entry with the id is replaced by the written
entry, or the written new entry is appended. -/
theorem upsertPassage_decomp (n : Nat) (f : Passage → Passage) (ps : List Passage) :
    (∃ l1 x l2, ps = l1 ++ x :: l2 ∧ x.id = n ∧ (∀ z ∈ l1, z.id ≠ n) ∧
        upsertPassage n f ps = l1 ++ f x :: l2 ∧ touchedPassage n f ps = f x) ∨
    ((∀ z ∈ ps, z.id ≠ n) ∧ upsertPassage n f ps = ps ++ [f (newPassage n)] ∧
        touchedPassage n f ps = f (newPassage n)) := by
  induction ps with
  | nil => exact Or.inr ⟨by simp, rfl, rfl⟩
  | cons y ys ih =>
    by_cases hy : y.id = n
    · refine Or.inl ⟨[], y, ys, rfl, hy, by simp, ?_, ?_⟩
      · simp [upsertPassage, hy]
      · simp [touchedPassage, hy]
    · have hup : upsertPassage n f (y :: ys) = y :: upsertPassage n f ys := by
        simp [upsertPassage, hy]
      have hto : touchedPassage n f (y :: ys) = touchedPassage n f ys := by
        simp [touchedPassage, hy]
      rcases ih with ⟨l1, x, l2, h1, h2, h3, h4, h5⟩ | ⟨h1, h2, h3⟩
      · refine Or.inl ⟨y :: l1, x, l2, by rw [h1]; rfl, h2, ?_, by rw [hup, h4]; rfl,
          by rw [hto, h5]⟩
        intro z hz
        rcases List.mem_cons.1 hz with h | h
        · rw [h]; exact hy
        · exact h3 z h
      · refine Or.inr ⟨?_, by rw [hup, h2]; rfl, by rw [hto, h3]⟩
        intro z hz
        rcases List.mem_cons.1 hz with h | h
        · rw [h]; exact hy
        · exact h1 z h

theorem writeField_agree (kind : FileKind) (filePath : List Char) (x : Passage) :
    AgreeOutside kind x (writeField kind filePath x) := by
  cases kind <;> simp [AgreeOutside, writeField]

/-- C13. A passage event of kind `K` for passage `n` leaves every other entry of `passages` as
it was and in its place; the entry of passage `n` (the first one with that id, or the new
entry appended when there is none) keeps `id`, `order`, `durationSec` and every content field
that `K` does not own. -/
theorem txBody_field_isolation (level lesson pattern : List Char) (n : Nat) (kind : FileKind)
    (filePath : List Char) (snap : Option LessonRecord) :
    (∃ l1 x l2 y, passagesOf snap = l1 ++ x :: l2 ∧ x.id = n ∧ (∀ z ∈ l1, z.id ≠ n) ∧
        (txBody level lesson pattern n kind filePath snap).passages = some (l1 ++ y :: l2) ∧
        AgreeOutside kind x y) ∨
    ((∀ z ∈ passagesOf snap, z.id ≠ n) ∧
      ∃ y, (txBody level lesson pattern n kind filePath snap).passages =
          some (passagesOf snap ++ [y]) ∧
        AgreeOutside kind (newPassage n) y) := by
  have hp : (txBody level lesson pattern n kind filePath snap).passages =
      some (upsertPassage n (writeField kind filePath) (passagesOf snap)) := rfl
  rcases upsertPassage_decomp n (writeField kind filePath) (passagesOf snap) with
    ⟨l1, x, l2, h1, h2, h3, h4, _⟩ | ⟨h1, h2, _⟩
  · exact Or.inl ⟨l1, x, l2, _, h1, h2, h3, by rw [hp, h4], writeField_agree kind filePath x⟩
  · exact Or.inr ⟨h1, _, by rw [hp, h2], writeField_agree kind filePath (newPassage n)⟩

/-! ## Passage ids stay distinct -/

theorem upsertPassage_ids_nodup (n : Nat) (f : Passage → Passage)
    (hid : ∀ x, (f x).id = x.id) (ps : List Passage)
    (h : (ps.map (fun x => x.id)).Nodup) :
    ((upsertPassage n f ps).map (fun x => x.id)).Nodup := by
  rcases upsertPassage_decomp n f ps with ⟨l1, x, l2, h1, _, _, h4, _⟩ | ⟨h1, h2, _⟩
  · rw [h4]
    rw [h1] at h
    simpa [hid] using h
  · rw [h2, List.map_append, List.nodup_append]
    refine ⟨h, by simp, ?_⟩
    intro a ha hb
    simp only [List.map_cons, List.map_nil, List.mem_singleton, hid, newPassage] at hb
    obtain ⟨z, hz, hza⟩ := List.mem_map.1 ha
    exact h1 z hz (hza.trans hb)

theorem applyEvent_ids_nodup (level lesson pattern : List Char) (e : Event)
    (snap : Option LessonRecord) (h : (passageIdsOf snap).Nodup) :
    (passageIdsOf (applyEvent level lesson pattern e snap)).Nodup := by
  cases e with
  | lessonDictation filePath => exact h
  | passageFile passage kind filePath =>
    exact upsertPassage_ids_nodup passage _ (writeField_id kind filePath) _ h

/-- A property of record states that every event preserves is preserved by the handler, for
every document of the collection. -/
theorem handler_preserves (P : Option LessonRecord → Prop)
    (hstep : ∀ level lesson pattern e r, P r → P (applyEvent level lesson pattern e r))
    (filePath : List Char) (db : Store) (h : ∀ docId, P (db docId)) :
    ∀ docId, P (buildLegacyMaterialsOnOfficialUpload filePath db docId) := by
  intro docId
  unfold buildLegacyMaterialsOnOfficialUpload
  cases classifyUpload filePath with
  | none => exact h docId
  | some x =>
    obtain ⟨level, lesson, pattern, e⟩ := x
    by_cases hd : docId = legacyDocId level lesson pattern
    · simp only [hd, if_true]
      exact hstep _ _ _ _ _ (h _)
    · simp only [hd, if_false]
      exact h docId

theorem handleUploads_preserves (P : Option LessonRecord → Prop)
    (hstep : ∀ level lesson pattern e r, P r → P (applyEvent level lesson pattern e r))
    (filePaths : List (List Char)) :
    ∀ db : Store, (∀ docId, P (db docId)) → ∀ docId, P (handleUploads filePaths db docId) := by
  induction filePaths with
  | nil => intro db h; exact h
  | cons p ps ih =>
    intro db h
    exact ih _ (handler_preserves P hstep p db h)

/-- C16. An event keeps the passage ids of a record pairwise distinct, so every record built
from the absent record by a sequence of classified events, and every document built by the
handler from the empty collection, has pairwise distinct passage ids. -/
theorem passage_ids_distinct :
    (∀ (level lesson pattern : List Char) (e : Event) (snap : Option LessonRecord),
      (passageIdsOf snap).Nodup →
        (passageIdsOf (applyEvent level lesson pattern e snap)).Nodup) ∧
    (∀ (level lesson pattern : List Char) (es : List Event),
      (passageIdsOf (applyEvents level lesson pattern es none)).Nodup) ∧
    (∀ (filePaths : List (List Char)) (docId : List Char),
      (passageIdsOf (handleUploads filePaths emptyStore docId)).Nodup) := by
  refine ⟨applyEvent_ids_nodup, ?_, ?_⟩
  · intro level lesson pattern es
    have : ∀ (l : List Event) (r : Option LessonRecord), (passageIdsOf r).Nodup →
        (passageIdsOf (applyEvents level lesson pattern l r)).Nodup := by
      intro l
      induction l with
      | nil => intro r h; exact h
      | cons e l ih =>
        intro r h
        exact ih _ (applyEvent_ids_nodup level lesson pattern e r h)
    exact this es none List.nodup_nil
  · intro filePaths docId
    exact handleUploads_preserves (fun r => (passageIdsOf r).Nodup)
      (fun l s t e r h => applyEvent_ids_nodup l s t e r h) filePaths emptyStore
      (fun _ => List.nodup_nil) docId

/-- Witness of `passage_ids_distinct`: an audio file for passage 2 on a record that holds
passages 1 and 3. -/
theorem passage_ids_distinct_witness :
    (passageIdsOf (some { emptyRecord with passages := some [newPassage 1, newPassage 3] })).Nodup ∧
    (passageIdsOf (applyEvent "Level3".toList "Lesson2".toList "B".toList
      (.passageFile 2 .audio "official/Level3/Lesson2/B/passage2/listening.mp3".toList)
      (some { emptyRecord with passages := some [newPassage 1, newPassage 3] }))).Nodup :=
  ⟨by decide, passage_ids_distinct.1 _ _ _ _ _ (by decide)⟩


/-! ## Modes -/

theorem mem_setOfArray (l : List (List Char)) (m : List Char) : m ∈ setOfArray l ↔ m ∈ l := by
  simp [setOfArray, mem_uniqueAux]

/-- The modes after a passage event: the modes it starts from, and `"dictation"` when the
passage written has a non-empty dictation path. -/
theorem mem_modeAfter (mode : Option (List (List Char))) (b : Bool) (m : List Char) :
    m ∈ modeAfter mode b ↔ m ∈ mode.getD defaultModes ∨ (m = dictationMode ∧ b = true) := by
  unfold modeAfter
  simp only
  split
  · rename_i h
    simp only [Bool.and_eq_true, Bool.not_eq_true', decide_eq_false_iff_not] at h
    rw [List.mem_append, mem_setOfArray, List.mem_singleton]
    simp [h.1]
  · rename_i h
    simp only [Bool.and_eq_true, Bool.not_eq_true', decide_eq_false_iff_not, not_and,
      not_not, mem_setOfArray] at h
    rw [mem_setOfArray]
    constructor
    · exact Or.inl
    · rintro (h1 | ⟨h1, h2⟩)
      · exact h1
      · rw [h1]; exact h h2

theorem mem_arrayUnion (field : Option (List (List Char))) (x m : List Char) :
    m ∈ arrayUnion field x ↔ m ∈ field.getD [] ∨ m = x := by
  unfold arrayUnion
  cases field with
  | none => simp
  | some l =>
    simp only [Option.getD_some]
    split
    · rename_i h
      constructor
      · exact Or.inl
      · rintro (h1 | h1)
        · exact h1
        · rw [h1]; exact h
    · simp

/-- C17. When the record has a `mode` array, every mode of the array is still a mode after
any classified event, a passage file or the lesson-level `dictation.json`. -/
theorem mode_monotone (level lesson pattern : List Char) (e : Event) (r : LessonRecord)
    (l : List (List Char)) (hl : r.mode = some l) (m : List Char) (hm : m ∈ l) :
    ∃ r2 l2, applyEvent level lesson pattern e (some r) = some r2 ∧ r2.mode = some l2 ∧
      m ∈ l2 := by
  cases e with
  | lessonDictation filePath =>
    refine ⟨_, _, rfl, rfl, ?_⟩
    rw [mem_arrayUnion]
    simp [hl, hm]
  | passageFile passage kind filePath =>
    refine ⟨_, _, rfl, rfl, ?_⟩
    rw [mem_modeAfter]
    simp [hl, hm]

/-- Witness of `mode_monotone`: the mode `"shadowing"` of a stored record survives an audio
file. -/
theorem mode_monotone_witness :
    ({ emptyRecord with mode := some ["shadowing".toList] } : LessonRecord).mode =
      some ["shadowing".toList] ∧
    "shadowing".toList ∈ ["shadowing".toList] ∧
    ∃ r2 l2, applyEvent "Level3".toList "Lesson2".toList "B".toList
        (.passageFile 1 .audio "official/Level3/Lesson2/B/passage1/listening.mp3".toList)
        (some { emptyRecord with mode := some ["shadowing".toList] }) = some r2 ∧
      r2.mode = some l2 ∧ "shadowing".toList ∈ l2 :=
  ⟨rfl, by decide, mode_monotone _ _ _ _ _ _ rfl _ (by decide)⟩

theorem mem_upsertPassage (n : Nat) (f : Passage → Passage) (ps : List Passage) :
    touchedPassage n f ps ∈ upsertPassage n f ps ∧
    ∀ q ∈ upsertPassage n f ps, q = touchedPassage n f ps ∨ q ∈ ps := by
  rcases upsertPassage_decomp n f ps with ⟨l1, x, l2, h1, _, _, h4, h5⟩ | ⟨_, h2, h3⟩
  · rw [h4, h5]
    refine ⟨by simp, fun q hq => ?_⟩
    rw [h1]
    simp only [List.mem_append, List.mem_cons] at hq ⊢
    tauto
  · rw [h2, h3]
    refine ⟨by simp, fun q hq => ?_⟩
    simp only [List.mem_append, List.mem_singleton] at hq
    tauto

/-- After a passage event the stored modes are the modes the event starts from
(the `mode` array of the record, or `listening` and `overlapping`), together with `dictation`
when the passage that the event writes has a non-empty dictation path.  When before the event
`dictation` is already a mode as soon as a passage has a non-empty dictation path, this is:
together with `dictation` when some passage of the resulting record has a non-empty dictation
path. -/
theorem txBody_mode (level lesson pattern : List Char) (n : Nat) (kind : FileKind)
    (filePath : List Char) (snap : Option LessonRecord) :
    ∃ l2, (txBody level lesson pattern n kind filePath snap).mode = some l2 ∧
      (∀ m, m ∈ l2 ↔ m ∈ baseModes snap ∨ (m = dictationMode ∧
        truthy (touchedPassage n (writeField kind filePath)
          (passagesOf snap)).dictationPath = true)) ∧
      (DictationModeInv snap →
        ∀ m, m ∈ l2 ↔ m ∈ baseModes snap ∨ (m = dictationMode ∧
          ∃ q ∈ passagesOf (some (txBody level lesson pattern n kind filePath snap)),
            truthy q.dictationPath = true)) := by
  refine ⟨_, rfl, fun m => mem_modeAfter _ _ m, fun hinv m => ?_⟩
  rw [mem_modeAfter, passagesOf_txBody]
  obtain ⟨h1, h2⟩ := mem_upsertPassage n (writeField kind filePath) (passagesOf snap)
  constructor
  · rintro (h | ⟨h, ht⟩)
    · exact Or.inl h
    · exact Or.inr ⟨h, _, h1, ht⟩
  · rintro (h | ⟨h, q, hq, ht⟩)
    · exact Or.inl h
    · rcases h2 q hq with hq1 | hq1
      · exact Or.inr ⟨h, hq1 ▸ ht⟩
      · exact Or.inl (h ▸ hinv q hq1 ht)

/-- Every event keeps `DictationModeInv`, so it holds for every document that the handler
builds from the empty collection. -/
theorem dictationModeInv_reachable :
    (∀ (level lesson pattern : List Char) (e : Event) (r : Option LessonRecord),
      DictationModeInv r → DictationModeInv (applyEvent level lesson pattern e r)) ∧
    ∀ (filePaths : List (List Char)) (docId : List Char),
      DictationModeInv (handleUploads filePaths emptyStore docId) := by
  have hstep : ∀ (level lesson pattern : List Char) (e : Event) (r : Option LessonRecord),
      DictationModeInv r → DictationModeInv (applyEvent level lesson pattern e r) := by
    intro level lesson pattern e r hinv
    cases e with
    | lessonDictation filePath =>
      intro q _ _
      show dictationMode ∈ arrayUnion (r.getD emptyRecord).mode dictationMode
      rw [mem_arrayUnion]
      exact Or.inr rfl
    | passageFile passage kind filePath =>
      intro q hq ht
      show dictationMode ∈ baseModes (some (txBody level lesson pattern passage kind filePath r))
      rw [baseModes_txBody, mem_modeAfter]
      have hq2 : q ∈ upsertPassage passage (writeField kind filePath) (passagesOf r) := hq
      rcases (mem_upsertPassage passage (writeField kind filePath) (passagesOf r)).2 q hq2
        with h | h
      · exact Or.inr ⟨rfl, h ▸ ht⟩
      · exact Or.inl (hinv q h ht)
  refine ⟨hstep, fun filePaths docId => ?_⟩
  exact handleUploads_preserves DictationModeInv hstep filePaths emptyStore
    (fun _ q hq => by simp [passagesOf, emptyStore, emptyRecord] at hq) docId


/-! ## The image list -/

/-- C19. `upsertSortedImagePaths(existing, p)` has no duplicate, holds exactly the elements of
`existing` and `p`, and is ordered by the sort key (the letter after the last underscore, before
the extension; 8 for a path without such a suffix); paths with the suffixes `d`, `a`, `c`, `b`
inserted in that order are stored in the order `a`, `b`, `c`, `d`. -/
theorem upsert_sorted_union (existing : Option (List (List Char))) (p : List Char) :
    (upsertSortedImagePaths existing p).Nodup ∧
    (∀ q, q ∈ upsertSortedImagePaths existing p ↔ q ∈ existing.getD [] ∨ q = p) ∧
    (upsertSortedImagePaths existing p).Pairwise
      (fun a b => imageSortKey a ≤ imageSortKey b) ∧
    (["x/img_L3_02_a.png", "x/img_L3_02_b.jpg", "x/img_L3_02_c.jpeg", "x/img_L3_02_d.png",
        "x/cover.png"].map (fun s => imageSortKey s.toList) = [0, 2, 4, 6, 8]) ∧
    upsertSortedImagePaths (some (upsertSortedImagePaths (some (upsertSortedImagePaths
        (some (upsertSortedImagePaths none
          "official/Level3/Lesson2/B/passage1/img_L3_02_d.png".toList))
        "official/Level3/Lesson2/B/passage1/img_L3_02_a.png".toList))
        "official/Level3/Lesson2/B/passage1/img_L3_02_c.png".toList))
        "official/Level3/Lesson2/B/passage1/img_L3_02_b.png".toList =
      ["official/Level3/Lesson2/B/passage1/img_L3_02_a.png".toList,
       "official/Level3/Lesson2/B/passage1/img_L3_02_b.png".toList,
       "official/Level3/Lesson2/B/passage1/img_L3_02_c.png".toList,
       "official/Level3/Lesson2/B/passage1/img_L3_02_d.png".toList] :=
  ⟨upsert_nodup existing p, mem_upsert existing p, upsert_sorted existing p, by decide,
    by decide⟩

/-! ## Which uploads write, and where -/

/-- C14 (failing input). A file under `passage1` whose name matches no branch of the `if`
chain: on the empty collection the handler creates the document `Level_3_Lesson2_B` with the
default modes, the top-level fields and an entry for passage 1. -/
theorem unmatched_file_creates_record :
    classifyFilename "notes.md".toList = .other ∧
    classifyUpload "official/Level3/Lesson2/B/passage1/notes.md".toList =
      some ("Level3".toList, "Lesson2".toList, "B".toList,
        .passageFile 1 .other "official/Level3/Lesson2/B/passage1/notes.md".toList) ∧
    buildLegacyMaterialsOnOfficialUpload "official/Level3/Lesson2/B/passage1/notes.md".toList
        emptyStore "Level_3_Lesson2_B".toList =
      some { title := some "Lesson2".toList, level := some "Level3".toList, lesson := some 2,
             pattern := some "B".toList, id := some "L3_B_02".toList,
             mode := some ["listening".toList, "overlapping".toList],
             passages := some [newPassage 1], dictationPath := none } := by
  exact ⟨by decide, by decide, by decide⟩

theorem classifyUpload_none_of_inapplicable (filePath : List Char)
    (h : isOfficialPath filePath = false ∨ (extractMetaFromOfficialPath filePath).1 = [] ∨
      (extractMetaFromOfficialPath filePath).2.1 = [] ∨
      (extractMetaFromOfficialPath filePath).2.2.1 = []) :
    classifyUpload filePath = none := by
  unfold classifyUpload
  by_cases he : filePath.isEmpty = true
  · simp [he]
  · by_cases ho : isOfficialPath filePath = true
    · have hm : ((splitSlash filePath).getD 1 []).isEmpty = true ∨
          ((splitSlash filePath).getD 2 []).isEmpty = true ∨
          ((splitSlash filePath).getD 3 []).isEmpty = true := by
        rcases h with h | h | h | h
        · rw [ho] at h; cases h
        · exact Or.inl (by rw [List.isEmpty_iff]; exact h)
        · exact Or.inr (Or.inl (by rw [List.isEmpty_iff]; exact h))
        · exact Or.inr (Or.inr (by rw [List.isEmpty_iff]; exact h))
      have hor : (((splitSlash filePath).getD 1 []).isEmpty ||
          ((splitSlash filePath).getD 2 []).isEmpty ||
          ((splitSlash filePath).getD 3 []).isEmpty) = true := by
        rcases hm with h1 | h1 | h1 <;> simp only [h1, Bool.true_or, Bool.or_true]
      simp only [he, ho, Bool.false_eq_true, if_false, Bool.not_true, hor, if_true]
    · simp [he, ho]

/-- C15. For a path outside `official/`, or with an empty level, lesson or pattern segment,
the handler leaves the collection as it is. -/
theorem inapplicable_upload_skipped (filePath : List Char) (db : Store)
    (h : isOfficialPath filePath = false ∨ (extractMetaFromOfficialPath filePath).1 = [] ∨
      (extractMetaFromOfficialPath filePath).2.1 = [] ∨
      (extractMetaFromOfficialPath filePath).2.2.1 = []) :
    buildLegacyMaterialsOnOfficialUpload filePath db = db := by
  unfold buildLegacyMaterialsOnOfficialUpload
  rw [classifyUpload_none_of_inapplicable filePath h]

/-- Witness of `inapplicable_upload_skipped`: a path outside `official/`. -/
theorem inapplicable_upload_skipped_witness :
    (isOfficialPath "uploads/Level3/Lesson2/B/passage1/listening.mp3".toList = false ∨
      (extractMetaFromOfficialPath
        "uploads/Level3/Lesson2/B/passage1/listening.mp3".toList).1 = [] ∨
      (extractMetaFromOfficialPath
        "uploads/Level3/Lesson2/B/passage1/listening.mp3".toList).2.1 = [] ∨
      (extractMetaFromOfficialPath
        "uploads/Level3/Lesson2/B/passage1/listening.mp3".toList).2.2.1 = []) ∧
    buildLegacyMaterialsOnOfficialUpload "uploads/Level3/Lesson2/B/passage1/listening.mp3".toList
      emptyStore = emptyStore :=
  ⟨Or.inl (by decide), inapplicable_upload_skipped _ _ (Or.inl (by decide))⟩

/-- The key found by the guards is the triple of segments 1, 2 and 3 of the path. -/
theorem classifyUpload_key (filePath : List Char) (x : List Char × List Char × List Char × Event)
    (h : classifyUpload filePath = some x) :
    x.1 = (extractMetaFromOfficialPath filePath).1 ∧
    x.2.1 = (extractMetaFromOfficialPath filePath).2.1 ∧
    x.2.2.1 = (extractMetaFromOfficialPath filePath).2.2.1 := by
  unfold classifyUpload at h
  simp only [extractMetaFromOfficialPath]
  split at h
  · cases h
  · split at h
    · cases h
    · simp only at h
      split at h
      · cases h
      · split at h
        · cases h
        · split at h
          · split at h
            · simp only [Option.some.injEq] at h
              subst h
              exact ⟨rfl, rfl, rfl⟩
            · cases h
          · simp only [Option.some.injEq] at h
            subst h
            exact ⟨rfl, rfl, rfl⟩

/-- C20. The document id written for an uploaded file is `legacyDocId` of the level, lesson
and pattern segments of its path, no other document is touched, and two paths with the same
three segments that are written are written to the same document. -/
theorem lesson_key_deterministic (p1 p2 : List Char) (d1 d2 : List Char)
    (h1 : targetDocId p1 = some d1) (h2 : targetDocId p2 = some d2)
    (hl : (extractMetaFromOfficialPath p1).1 = (extractMetaFromOfficialPath p2).1)
    (hs : (extractMetaFromOfficialPath p1).2.1 = (extractMetaFromOfficialPath p2).2.1)
    (ht : (extractMetaFromOfficialPath p1).2.2.1 = (extractMetaFromOfficialPath p2).2.2.1) :
    d1 = legacyDocId (extractMetaFromOfficialPath p1).1 (extractMetaFromOfficialPath p1).2.1
      (extractMetaFromOfficialPath p1).2.2.1 ∧
    d1 = d2 ∧
    (∀ (db : Store) (docId : List Char), docId ≠ d1 →
      buildLegacyMaterialsOnOfficialUpload p1 db docId = db docId ∧
      buildLegacyMaterialsOnOfficialUpload p2 db docId = db docId) ∧
    (∀ db : Store, (buildLegacyMaterialsOnOfficialUpload p1 db d1).isSome = true ∧
      (buildLegacyMaterialsOnOfficialUpload p2 db d1).isSome = true) := by
  have key : ∀ (p d : List Char), targetDocId p = some d →
      d = legacyDocId (extractMetaFromOfficialPath p).1 (extractMetaFromOfficialPath p).2.1
        (extractMetaFromOfficialPath p).2.2.1 ∧
      (∀ (db : Store) (docId : List Char), docId ≠ d →
        buildLegacyMaterialsOnOfficialUpload p db docId = db docId) ∧
      ∀ db : Store, (buildLegacyMaterialsOnOfficialUpload p db d).isSome = true := by
    intro p d h
    unfold targetDocId at h
    cases hc : classifyUpload p with
    | none => rw [hc] at h; cases h
    | some x =>
      rw [hc] at h
      simp only [Option.map_some', Option.some.injEq] at h
      obtain ⟨k1, k2, k3⟩ := classifyUpload_key p x hc
      obtain ⟨level, lesson, pattern, e⟩ := x
      simp only at k1 k2 k3 h
      refine ⟨by rw [← h, k1, k2, k3], fun db docId hne => ?_, fun db => ?_⟩
      · unfold buildLegacyMaterialsOnOfficialUpload
        rw [hc]
        simp only [h, hne, if_false]
      · unfold buildLegacyMaterialsOnOfficialUpload
        rw [hc]
        simp only [h, if_true]
        cases e <;> rfl
  obtain ⟨a1, a2, a3⟩ := key p1 d1 h1
  obtain ⟨b1, b2, b3⟩ := key p2 d2 h2
  have hd : d1 = d2 := by rw [a1, b1, hl, hs, ht]
  refine ⟨a1, hd, fun db docId hne => ⟨a2 db docId hne, b2 db docId (hd ▸ hne)⟩,
    fun db => ⟨a3 db, hd ▸ b3 db⟩⟩

/-- Witness of `lesson_key_deterministic`: an audio file of passage 1 and a subtitle file of
passage 2 of `(Level3, Lesson2, B)` are both written to `Level_3_Lesson2_B`. -/
theorem lesson_key_deterministic_witness :
    targetDocId "official/Level3/Lesson2/B/passage1/listening.mp3".toList =
      some "Level_3_Lesson2_B".toList ∧
    targetDocId "official/Level3/Lesson2/B/passage2/p2_subtitles.json".toList =
      some "Level_3_Lesson2_B".toList ∧
    "Level_3_Lesson2_B".toList = legacyDocId
      (extractMetaFromOfficialPath "official/Level3/Lesson2/B/passage1/listening.mp3".toList).1
      (extractMetaFromOfficialPath "official/Level3/Lesson2/B/passage1/listening.mp3".toList).2.1
      (extractMetaFromOfficialPath
        "official/Level3/Lesson2/B/passage1/listening.mp3".toList).2.2.1 :=
  ⟨by decide, by decide,
    (lesson_key_deterministic "official/Level3/Lesson2/B/passage1/listening.mp3".toList
      "official/Level3/Lesson2/B/passage2/p2_subtitles.json".toList
      "Level_3_Lesson2_B".toList "Level_3_Lesson2_B".toList
      (by decide) (by decide) (by decide) (by decide) (by decide)).1⟩

end Materials

namespace Dictation

/-! ## The selector never returns a snippet twice -/

theorem jaccard_self (s : List Char) (h : tokenize s ≠ []) : jaccard s s = 1 := by
  have hne : tokenSet s ≠ [] := by
    cases ht : tokenize s with
    | nil => exact absurd ht h
    | cons w ws =>
      have : w ∈ tokenSet s := by
        unfold tokenSet
        rw [mem_uniqueAux, ht]
        simp
      exact List.ne_nil_of_mem this
  have hpos : 0 < (tokenSet s).length := List.length_pos.2 hne
  have hk : ((tokenSet s).filter (fun w => w ∈ tokenSet s)).length = (tokenSet s).length := by
    congr 1
    rw [List.filter_eq_self]
    intro w hw
    simpa using hw
  rw [jaccard_eq_of s s _ _ _ rfl rfl hk]
  have h0 : ¬ ((tokenSet s).length = 0 ∨ (tokenSet s).length = 0) := by omega
  have h1 : ¬ ((tokenSet s).length + (tokenSet s).length - (tokenSet s).length = 0) := by omega
  rw [if_neg h0, if_neg h1]
  have e : (tokenSet s).length + (tokenSet s).length - (tokenSet s).length =
      (tokenSet s).length := by omega
  rw [e]
  have : ((tokenSet s).length : ℚ) ≠ 0 := by
    exact_mod_cast (by omega : (tokenSet s).length ≠ 0)
  exact div_self this

theorem firstPass_nodup (maxSim : ℚ) (hm : maxSim < 1) (count : Nat) (l : List (List Char))
    (hl : ∀ s ∈ l, tokenize s ≠ []) :
    ∀ picked : List (List Char), picked.Nodup → (firstPass maxSim count l picked).Nodup := by
  induction l with
  | nil => intro picked h; exact h
  | cons s rest ih =>
    intro picked h
    have ihr := ih (fun x hx => hl x (List.mem_cons_of_mem _ hx))
    by_cases hs : s.isEmpty = true
    · simp only [firstPass, hs, if_true]; exact ihr picked h
    · simp only [firstPass, hs, Bool.false_eq_true, if_false]
      by_cases hall : picked.all (fun p => decide (jaccard p s ≤ maxSim)) = true
      · have h1 : (picked ++ [s]).Nodup := by
          rw [List.nodup_append]
          refine ⟨h, List.nodup_singleton _, ?_⟩
          intro a ha hb
          simp only [List.mem_singleton] at hb
          subst hb
          simp only [List.all_eq_true, decide_eq_true_eq] at hall
          have := hall a ha
          rw [jaccard_self a (hl a (List.mem_cons_self _ _))] at this
          exact absurd (lt_of_le_of_lt this hm) (lt_irrefl _)
        simp only [hall, if_true]
        split
        · exact h1
        · exact ihr _ h1
      · simp only [hall, Bool.false_eq_true, if_false]
        split
        · exact h
        · exact ihr _ h

theorem secondPass_nodup (count : Nat) (l : List (List Char)) :
    ∀ picked : List (List Char), picked.Nodup → (secondPass count l picked).Nodup := by
  induction l with
  | nil => intro picked h; exact h
  | cons s rest ih =>
    intro picked h
    by_cases hc : count ≤ picked.length
    · rw [secondPass_of_le count (s :: rest) picked hc]; exact h
    · simp only [secondPass, hc, if_false]
      apply ih
      split
      · exact h
      · rename_i hs
        rw [List.nodup_append]
        refine ⟨h, List.nodup_singleton _, ?_⟩
        intro a ha hb
        simp only [List.mem_singleton] at hb
        subst hb
        exact hs ha

/-- C30. When every candidate has at least one word token and `maxSim < 1`, the list returned
by `pickDistinctSnippets` holds no string twice. -/
theorem pickDistinct_nodup (snippets : List (List Char)) (count : Nat) (maxSim : ℚ)
    (hm : maxSim < 1) (hs : ∀ s ∈ snippets, tokenize s ≠ []) :
    (pickDistinctSnippets snippets count maxSim).Nodup := by
  unfold pickDistinctSnippets
  exact (secondPass_nodup count snippets _
    (firstPass_nodup maxSim hm count snippets hs [] List.nodup_nil)).sublist
    (List.take_sublist _ _)

/-- Witness of `pickDistinct_nodup`: a candidate list that holds the same snippet twice. -/
theorem pickDistinct_nodup_witness :
    (defaultMaxSim < 1 ∧
      ∀ s ∈ ["the dog ran home".toList, "the dog ran home".toList, "a cat sat".toList],
        tokenize s ≠ []) ∧
    (pickDistinctSnippets ["the dog ran home".toList, "the dog ran home".toList,
      "a cat sat".toList] 3 defaultMaxSim).Nodup :=
  ⟨⟨by norm_num [defaultMaxSim], by decide⟩,
    pickDistinct_nodup _ 3 defaultMaxSim (by norm_num [defaultMaxSim]) (by decide)⟩

end Dictation

namespace Subtitles

open Materials

/-! ## The Japanese subtitle file is not a source of `generateJaSubtitleJson` -/

theorem lower_append (x y : List Char) : lower (x ++ y) = lower x ++ lower y := by
  simp [lower]

theorem not_subtitles_of_ja (x : List Char) :
    isSubtitlesJson (x ++ "_ja.json".toList) = false := by
  unfold isSubtitlesJson
  rw [Bool.eq_false_iff]
  intro h
  rw [List.isSuffixOf_iff_suffix] at h
  obtain ⟨z, hz⟩ := h
  rw [lower_append] at hz
  have h2 := congrArg (fun l => l.reverse.take 6) hz
  have e1 : lower "_ja.json".toList = "_ja.json".toList := by decide
  simp only [List.reverse_append, e1] at h2
  rw [List.take_append_of_le_length (by decide), List.take_append_of_le_length (by decide)] at h2
  revert h2
  decide

theorem replaceSuffix_ja (p : List Char) (k : Nat) :
    replaceSuffix p k "_ja.json".toList = p.take (p.length - k) ++ "_ja.json".toList := rfl

/-- C28. A path returned by `toJaSubtitlesPath` ends with `_ja.json` and is not a subtitle
file for `isSubtitlesJson`, so `generateJaSubtitleJson` returns without writing when it is
run for the file it wrote. -/
theorem toJaSubtitlesPath_not_source (p q : List Char) (h : toJaSubtitlesPath p = some q) :
    "_ja.json".toList.isSuffixOf q = true ∧ isSubtitlesJson q = false ∧
    ∀ jaExists hasSegments : Bool, generateJaSubtitleJson q jaExists hasSegments = none := by
  have hq : ∃ x, q = x ++ "_ja.json".toList := by
    unfold toJaSubtitlesPath at h
    simp only at h
    split at h
    · exact ⟨_, (Option.some.inj h).symm⟩
    · split at h
      · cases h
      · split at h
        · exact ⟨_, (Option.some.inj h).symm⟩
        · split at h
          · exact ⟨_, (Option.some.inj h).symm⟩
          · cases h
  obtain ⟨x, rfl⟩ := hq
  have hns := not_subtitles_of_ja x
  refine ⟨?_, hns, fun jaExists hasSegments => ?_⟩
  · rw [List.isSuffixOf_iff_suffix]
    exact List.suffix_append _ _
  · unfold generateJaSubtitleJson
    simp only [hns, Bool.not_false, if_true]
    split <;> rfl

/-- Witness of `toJaSubtitlesPath_not_source`: the subtitle file of a listening audio. -/
theorem toJaSubtitlesPath_not_source_witness :
    toJaSubtitlesPath "official/Level3/Lesson2/B/passage1/listening_subtitles.json".toList =
      some "official/Level3/Lesson2/B/passage1/listening_ja.json".toList ∧
    isSubtitlesJson "official/Level3/Lesson2/B/passage1/listening_ja.json".toList = false :=
  ⟨by decide,
    (toJaSubtitlesPath_not_source
      "official/Level3/Lesson2/B/passage1/listening_subtitles.json".toList
      "official/Level3/Lesson2/B/passage1/listening_ja.json".toList (by decide)).2.1⟩

end Subtitles

namespace Materials

open Dictation

/-! ## The lesson-level dictation file -/

theorem splitSlashAux_of_not_mem (a : List Char) (ha : '/' ∉ a) :
    ∀ cur, splitSlashAux cur a = [cur.reverse ++ a] := by
  induction a with
  | nil => intro cur; simp [splitSlashAux]
  | cons c cs ih =>
    intro cur
    have hc : (c == '/') = false := by
      rw [beq_eq_false_iff_ne]
      intro h
      exact ha (h ▸ List.mem_cons_self _ _)
    simp only [splitSlashAux, hc, Bool.false_eq_true, if_false]
    rw [ih (fun h => ha (List.mem_cons_of_mem _ h))]
    simp

theorem splitSlashAux_append (a rest : List Char) (ha : '/' ∉ a) :
    ∀ cur, splitSlashAux cur (a ++ '/' :: rest) = (cur.reverse ++ a) :: splitSlashAux [] rest := by
  induction a with
  | nil => intro cur; simp [splitSlashAux]
  | cons c cs ih =>
    intro cur
    have hc : (c == '/') = false := by
      rw [beq_eq_false_iff_ne]
      intro h
      exact ha (h ▸ List.mem_cons_self _ _)
    simp only [List.cons_append, splitSlashAux, hc, Bool.false_eq_true, if_false,
      List.append_eq]
    rw [ih (fun h => ha (List.mem_cons_of_mem _ h))]
    simp

theorem splitSlash_lessonDictationPath (level lesson pattern : List Char)
    (hl : '/' ∉ level) (hs : '/' ∉ lesson) (hp : '/' ∉ pattern) :
    splitSlash (lessonDictationPath level lesson pattern) =
      ["official".toList, level, lesson, pattern, "dictation.json".toList] := by
  have e : lessonDictationPath level lesson pattern =
      "official".toList ++ '/' :: (level ++ '/' :: (lesson ++ '/' :: (pattern ++ '/' ::
        "dictation.json".toList))) := by
    simp [lessonDictationPath]
  rw [e, splitSlash, splitSlashAux_append _ _ (by decide), splitSlashAux_append _ _ hl,
    splitSlashAux_append _ _ hs, splitSlashAux_append _ _ hp,
    splitSlashAux_of_not_mem _ (by decide)]
  simp

theorem classifyUpload_lessonDictationPath (level lesson pattern : List Char)
    (hl : level ≠ []) (hs : lesson ≠ []) (hp : pattern ≠ [])
    (hl1 : '/' ∉ level) (hs1 : '/' ∉ lesson) (hp1 : '/' ∉ pattern)
    (he : pattern ≠ "evaluation".toList)
    (hn : extractPassageNumber (lessonDictationPath level lesson pattern) = none) :
    classifyUpload (lessonDictationPath level lesson pattern) =
      some (level, lesson, pattern,
        .lessonDictation (lessonDictationPath level lesson pattern)) := by
  have hsplit := splitSlash_lessonDictationPath level lesson pattern hl1 hs1 hp1
  have hoff : isOfficialPath (lessonDictationPath level lesson pattern) = true := by
    unfold isOfficialPath
    rw [List.isPrefixOf_iff_prefix]
    exact ⟨level ++ '/' :: lesson ++ '/' :: pattern ++ "/dictation.json".toList, by
      simp [lessonDictationPath]⟩
  have hne : (lessonDictationPath level lesson pattern).isEmpty = false := by
    simp [lessonDictationPath]
  have hfn : lower (fileNameOf (lessonDictationPath level lesson pattern)) =
      "dictation.json".toList := by
    rw [fileNameOf, hsplit]
    simp only [List.getLast?_cons_cons, List.getLast?_singleton, Option.getD_some]
    decide
  have h1 : level.isEmpty = false := by simpa using hl
  have h2 : lesson.isEmpty = false := by simpa using hs
  have h3 : pattern.isEmpty = false := by simpa using hp
  have h4 : (pattern == "evaluation".toList) = false := by
    rw [beq_eq_false_iff_ne]; exact he
  unfold classifyUpload
  simp only [hne, hoff, hsplit, hn, hfn, Bool.false_eq_true, if_false, Bool.not_true,
    List.getD_cons_succ, List.getD_cons_zero, h1, h2, h3, h4, Bool.or_self, beq_self_eq_true,
    if_true]

/-- C21 (amended). For non-empty `level`, `lesson` and `pattern` without `/`, a pattern other
than `evaluation`, and no passage segment, the upload of
`official/{level}/{lesson}/{pattern}/dictation.json` is classified as the lesson-level
dictation event: the handler stores that path in the top-level `dictationPath` of the document
of the key, `dictation` is one of its modes, the modes it had are kept, and every other field
is as before. -/
theorem lesson_dictation_classified (level lesson pattern : List Char)
    (hl : level ≠ []) (hs : lesson ≠ []) (hp : pattern ≠ [])
    (hl1 : '/' ∉ level) (hs1 : '/' ∉ lesson) (hp1 : '/' ∉ pattern)
    (he : pattern ≠ "evaluation".toList)
    (hn : extractPassageNumber (lessonDictationPath level lesson pattern) = none) :
    classifyUpload (lessonDictationPath level lesson pattern) =
      some (level, lesson, pattern,
        .lessonDictation (lessonDictationPath level lesson pattern)) ∧
    ∀ db : Store, ∃ r l,
      buildLegacyMaterialsOnOfficialUpload (lessonDictationPath level lesson pattern) db
        (legacyDocId level lesson pattern) = some r ∧
      r.dictationPath = some (lessonDictationPath level lesson pattern) ∧
      r.mode = some l ∧ dictationMode ∈ l ∧
      (∀ m ∈ ((db (legacyDocId level lesson pattern)).getD emptyRecord).mode.getD [], m ∈ l) ∧
      r.title = ((db (legacyDocId level lesson pattern)).getD emptyRecord).title ∧
      r.level = ((db (legacyDocId level lesson pattern)).getD emptyRecord).level ∧
      r.lesson = ((db (legacyDocId level lesson pattern)).getD emptyRecord).lesson ∧
      r.pattern = ((db (legacyDocId level lesson pattern)).getD emptyRecord).pattern ∧
      r.id = ((db (legacyDocId level lesson pattern)).getD emptyRecord).id ∧
      r.passages = ((db (legacyDocId level lesson pattern)).getD emptyRecord).passages := by
  have hc := classifyUpload_lessonDictationPath level lesson pattern hl hs hp hl1 hs1 hp1 he hn
  refine ⟨hc, fun db => ?_⟩
  refine ⟨setLessonDictation (lessonDictationPath level lesson pattern)
    (db (legacyDocId level lesson pattern)),
    arrayUnion ((db (legacyDocId level lesson pattern)).getD emptyRecord).mode dictationMode,
    ?_, rfl, rfl, ?_, ?_, rfl, rfl, rfl, rfl, rfl, rfl⟩
  · unfold buildLegacyMaterialsOnOfficialUpload
    rw [hc]
    simp only [if_true, applyEvent]
  · exact (mem_arrayUnion _ _ _).2 (Or.inr rfl)
  · intro m hm
    exact (mem_arrayUnion _ _ _).2 (Or.inl hm)

/-- Witness of `lesson_dictation_classified`: the key `(Level3, Lesson2, B)`. -/
theorem lesson_dictation_classified_witness :
    classifyUpload "official/Level3/Lesson2/B/dictation.json".toList =
      some ("Level3".toList, "Lesson2".toList, "B".toList,
        .lessonDictation "official/Level3/Lesson2/B/dictation.json".toList) :=
  (lesson_dictation_classified "Level3".toList "Lesson2".toList "B".toList (by decide)
    (by decide) (by decide) (by decide) (by decide) (by decide) (by decide) (by decide)).1

/-- C21 (counterexample). The path `official/Level3/Lesson2/evaluation/dictation.json` has
non-empty level, lesson and pattern segments and no passage segment, yet the handler returns at
the test `pattern === "evaluation"`: the upload is not classified and no document is
written. -/
theorem lesson_dictation_evaluation_skipped :
    lessonDictationPath "Level3".toList "Lesson2".toList "evaluation".toList =
      "official/Level3/Lesson2/evaluation/dictation.json".toList ∧
    extractMetaFromOfficialPath "official/Level3/Lesson2/evaluation/dictation.json".toList =
      ("Level3".toList, "Lesson2".toList, "evaluation".toList, none) ∧
    classifyUpload "official/Level3/Lesson2/evaluation/dictation.json".toList = none ∧
    ∀ db : Store, buildLegacyMaterialsOnOfficialUpload
      "official/Level3/Lesson2/evaluation/dictation.json".toList db = db := by
  refine ⟨by decide, by decide, by decide, fun db => ?_⟩
  unfold buildLegacyMaterialsOnOfficialUpload
  have h : classifyUpload "official/Level3/Lesson2/evaluation/dictation.json".toList = none := by
    decide
  rw [h]

/-! ## The suffix table -/

theorem classifyFilename_eq_firstMatch (filename : List Char) :
    classifyFilename filename = firstMatch suffixTable filename := by
  unfold classifyFilename firstMatch suffixTable
  simp only [List.find?_cons, List.find?_nil]
  by_cases h1 : ((".mp3".toList.isSuffixOf (lower filename) ||
      ".wav".toList.isSuffixOf (lower filename)) && includes filename "listening".toList) = true
  · simp only [h1, if_true]
  · by_cases h2 : (includes (lower filename) "subtitles".toList &&
        ".json".toList.isSuffixOf (lower filename)) = true
    · simp only [h1, h2, if_true, Bool.false_eq_true, if_false]
    · by_cases h3 : "listening.txt".toList.isSuffixOf (lower filename) = true
      · simp only [h1, h2, h3, if_true, Bool.false_eq_true, if_false]
      · by_cases h4 : ("listening_question.json".toList.isSuffixOf (lower filename) ||
            "listening_questions.json".toList.isSuffixOf (lower filename)) = true
        · have h4' : ("listening_questions.json".toList.isSuffixOf (lower filename) ||
              "listening_question.json".toList.isSuffixOf (lower filename)) = true := by
            rw [Bool.or_comm]; exact h4
          simp only [h1, h2, h3, h4, h4', if_true, Bool.false_eq_true, if_false]
        · have h4' : ¬ ("listening_questions.json".toList.isSuffixOf (lower filename) ||
              "listening_question.json".toList.isSuffixOf (lower filename)) = true := by
            rw [Bool.or_comm]; exact h4
          by_cases h5 : "dictation.json".toList.isSuffixOf (lower filename) = true
          · simp only [h1, h2, h3, h4, h4', h5, if_true, Bool.false_eq_true, if_false,
              Bool.true_or]
          · have h5' : "_dictation.json".toList.isSuffixOf (lower filename) = false := by
              rw [Bool.eq_false_iff]
              intro h
              apply h5
              rw [List.isSuffixOf_iff_suffix] at h ⊢
              exact (show "dictation.json".toList <:+ "_dictation.json".toList from
                ⟨['_'], rfl⟩).trans h
            by_cases h6 : isImageName filename = true
            · simp only [h1, h2, h3, h4, h4', h5, h5', h6, if_true, Bool.false_eq_true, if_false,
                Bool.or_self]
            · simp only [h1, h2, h3, h4, h4', h5, h5', h6, Bool.false_eq_true, if_false,
                Bool.or_self]

theorem classifyUpload_passage (filePath : List Char) (n : Nat)
    (ho : isOfficialPath filePath = true)
    (hl : (extractMetaFromOfficialPath filePath).1 ≠ [])
    (hs : (extractMetaFromOfficialPath filePath).2.1 ≠ [])
    (hp : (extractMetaFromOfficialPath filePath).2.2.1 ≠ [])
    (he : (extractMetaFromOfficialPath filePath).2.2.1 ≠ "evaluation".toList)
    (hn : extractPassageNumber filePath = some n) :
    classifyUpload filePath = some ((extractMetaFromOfficialPath filePath).1,
      (extractMetaFromOfficialPath filePath).2.1, (extractMetaFromOfficialPath filePath).2.2.1,
      .passageFile n (classifyFilename (fileNameOf filePath)) filePath) := by
  simp only [extractMetaFromOfficialPath] at hl hs hp he ⊢
  have hne : filePath.isEmpty = false := by
    cases filePath with
    | nil => simp [isOfficialPath] at ho
    | cons c cs => rfl
  have h1 : ((splitSlash filePath).getD 1 []).isEmpty = false := by
    rw [Bool.eq_false_iff, ne_eq, List.isEmpty_iff]; exact hl
  have h2 : ((splitSlash filePath).getD 2 []).isEmpty = false := by
    rw [Bool.eq_false_iff, ne_eq, List.isEmpty_iff]; exact hs
  have h3 : ((splitSlash filePath).getD 3 []).isEmpty = false := by
    rw [Bool.eq_false_iff, ne_eq, List.isEmpty_iff]; exact hp
  have h4 : ((splitSlash filePath).getD 3 [] == "evaluation".toList) = false := by
    rw [beq_eq_false_iff_ne]; exact he
  unfold classifyUpload
  simp only [hne, ho, hn, h1, h2, h3, h4, Bool.false_eq_true, if_false, Bool.not_true,
    Bool.or_self]

/-- C22 (amended). For an official path with non-empty level, lesson and pattern, a pattern
other than `evaluation` and a passage segment `passage{N}`, the handler writes the entry of
passage `N` with the kind given by the first matching row of `suffixTable`: the path goes to
`audioPath`, `subtitlePath`, `scriptPath`, `questionsPath` or `dictationPath`, or into
`imagePaths`, and a file name that no row accepts leaves the entry as it was. -/
theorem suffix_table (filePath : List Char) (n : Nat)
    (ho : isOfficialPath filePath = true)
    (hl : (extractMetaFromOfficialPath filePath).1 ≠ [])
    (hs : (extractMetaFromOfficialPath filePath).2.1 ≠ [])
    (hp : (extractMetaFromOfficialPath filePath).2.2.1 ≠ [])
    (he : (extractMetaFromOfficialPath filePath).2.2.1 ≠ "evaluation".toList)
    (hn : extractPassageNumber filePath = some n) :
    classifyUpload filePath = some ((extractMetaFromOfficialPath filePath).1,
      (extractMetaFromOfficialPath filePath).2.1, (extractMetaFromOfficialPath filePath).2.2.1,
      .passageFile n (firstMatch suffixTable (fileNameOf filePath)) filePath) ∧
    ∀ (db : Store) (docId : List Char), targetDocId filePath = some docId →
      ∃ r p, buildLegacyMaterialsOnOfficialUpload filePath db docId = some r ∧
        p ∈ passagesOf (some r) ∧ p.id = n ∧
        p = writeField (firstMatch suffixTable (fileNameOf filePath)) filePath
          (entryOf n (db docId)) ∧
        (firstMatch suffixTable (fileNameOf filePath) = .audio → p.audioPath = some filePath) ∧
        (firstMatch suffixTable (fileNameOf filePath) = .subtitle →
          p.subtitlePath = some filePath) ∧
        (firstMatch suffixTable (fileNameOf filePath) = .script →
          p.scriptPath = some filePath) ∧
        (firstMatch suffixTable (fileNameOf filePath) = .questions →
          p.questionsPath = some filePath) ∧
        (firstMatch suffixTable (fileNameOf filePath) = .dictation →
          p.dictationPath = some filePath) ∧
        (firstMatch suffixTable (fileNameOf filePath) = .image →
          ∃ l, p.imagePaths = some l ∧ filePath ∈ l ∧ p.imagePath = l.head?) ∧
        (firstMatch suffixTable (fileNameOf filePath) = .other → p = entryOf n (db docId)) := by
  have hc := classifyUpload_passage filePath n ho hl hs hp he hn
  rw [classifyFilename_eq_firstMatch] at hc
  refine ⟨hc, fun db docId hd => ?_⟩
  unfold targetDocId at hd
  rw [hc] at hd
  simp only [Option.map_some', Option.some.injEq] at hd
  generalize firstMatch suffixTable (fileNameOf filePath) = k at hc ⊢
  have hid : (entryOf n (db docId)).id = n := by
    unfold entryOf
    cases hf : (passagesOf (db docId)).find? (fun x => x.id == n) with
    | none => rfl
    | some x =>
      have := List.find?_some hf
      simpa using this
  refine ⟨txBody (extractMetaFromOfficialPath filePath).1
      (extractMetaFromOfficialPath filePath).2.1 (extractMetaFromOfficialPath filePath).2.2.1
      n k filePath (db docId),
    writeField k filePath (entryOf n (db docId)), ?_, ?_, ?_, rfl, ?_, ?_, ?_, ?_, ?_, ?_, ?_⟩
  · unfold buildLegacyMaterialsOnOfficialUpload
    rw [hc]
    simp only [hd, if_true, applyEvent]
  · rw [passagesOf_txBody]
    exact (mem_upsertPassage n (writeField k filePath) (passagesOf (db docId))).1
  · exact ((writeField_agree k filePath (entryOf n (db docId))).1).symm.trans hid
  · intro hk; subst hk; rfl
  · intro hk; subst hk; rfl
  · intro hk; subst hk; rfl
  · intro hk; subst hk; rfl
  · intro hk; subst hk; rfl
  · intro hk; subst hk
    exact ⟨_, rfl, (mem_upsert _ _ _).2 (Or.inr rfl), rfl⟩
  · intro hk; subst hk; rfl

/-- Witness of `suffix_table`: an audio file of passage 1. -/
theorem suffix_table_witness :
    classifyUpload "official/Level3/Lesson2/B/passage1/listening.mp3".toList =
      some ((extractMetaFromOfficialPath
          "official/Level3/Lesson2/B/passage1/listening.mp3".toList).1,
        (extractMetaFromOfficialPath
          "official/Level3/Lesson2/B/passage1/listening.mp3".toList).2.1,
        (extractMetaFromOfficialPath
          "official/Level3/Lesson2/B/passage1/listening.mp3".toList).2.2.1,
        .passageFile 1 (firstMatch suffixTable
          (fileNameOf "official/Level3/Lesson2/B/passage1/listening.mp3".toList))
          "official/Level3/Lesson2/B/passage1/listening.mp3".toList) :=
  (suffix_table "official/Level3/Lesson2/B/passage1/listening.mp3".toList 1 (by decide)
    (by decide) (by decide) (by decide) (by decide) (by decide)).1

/-- C22 (counterexample). Two file names on which the `if` chain and the table of the
specification part: `listening_part1.mp3` matches no row of the table, and the handler writes
`audioPath`; `subtitles_dictation.json` matches the row `*dictation.json` first, and the
handler writes `subtitlePath`. -/
theorem suffix_table_differs :
    firstMatch specSuffixTable "listening_part1.mp3".toList = .other ∧
    classifyFilename "listening_part1.mp3".toList = .audio ∧
    (buildLegacyMaterialsOnOfficialUpload
        "official/Level3/Lesson2/B/passage1/listening_part1.mp3".toList emptyStore
        "Level_3_Lesson2_B".toList).map (fun r => r.passages) =
      some (some [{ newPassage 1 with audioPath := some "official/Level3/Lesson2/B/passage1/listening_part1.mp3".toList }]) ∧
    firstMatch specSuffixTable "subtitles_dictation.json".toList = .dictation ∧
    classifyFilename "subtitles_dictation.json".toList = .subtitle ∧
    (buildLegacyMaterialsOnOfficialUpload
        "official/Level3/Lesson2/B/passage1/subtitles_dictation.json".toList emptyStore
        "Level_3_Lesson2_B".toList).map (fun r => r.passages) =
      some (some [{ newPassage 1 with subtitlePath := some "official/Level3/Lesson2/B/passage1/subtitles_dictation.json".toList }]) := by
  exact ⟨by decide, by decide, by decide, by decide, by decide, by decide⟩

end Materials

namespace Dictation

open Materials

/-! ## The shape of a normalised text -/

theorem weakSpaced_collapse (l : List Char) : ∀ b : Bool,
    WeakSpaced (collapseSpaces b l) ∧
      (b = true → ∀ d, (collapseSpaces b l).head? = some d → isSpace d = false) := by
  induction l with
  | nil => intro b; simp [collapseSpaces, WeakSpaced]
  | cons c cs ih =>
    intro b
    by_cases hc : isSpace c = true
    · cases b
      · have e : collapseSpaces false (c :: cs) = ' ' :: collapseSpaces true cs := by
          simp only [collapseSpaces, hc, if_true, Bool.false_eq_true, if_false]
        rw [e, WeakSpaced]
        exact ⟨⟨fun _ => ⟨rfl, (ih true).2 rfl⟩, (ih true).1⟩, fun h => by cases h⟩
      · have e : collapseSpaces true (c :: cs) = collapseSpaces true cs := by
          simp only [collapseSpaces, hc, if_true]
        rw [e]
        exact ih true
    · have e : collapseSpaces b (c :: cs) = c :: collapseSpaces false cs := by
        simp only [collapseSpaces, hc, Bool.false_eq_true, if_false]
      rw [e, WeakSpaced]
      refine ⟨⟨fun h => absurd h hc, (ih false).1⟩, fun _ d hd => ?_⟩
      simp only [List.head?_cons, Option.some.injEq] at hd
      subst hd
      simpa using hc

theorem weakSpaced_prefix (x y : List Char) (h : WeakSpaced (x ++ y)) : WeakSpaced x := by
  induction x with
  | nil => trivial
  | cons c cs ih =>
    simp only [List.cons_append, WeakSpaced] at h ⊢
    refine ⟨fun hc => ⟨(h.1 hc).1, fun d hd => (h.1 hc).2 d ?_⟩, ih h.2⟩
    cases cs with
    | nil => simp at hd
    | cons e es => simpa using hd

theorem singleSpaced_of_weak (x : List Char) (h : WeakSpaced x)
    (hlast : ∀ c, x.getLast? = some c → isSpace c = false) : SingleSpaced x := by
  induction x with
  | nil => trivial
  | cons c cs ih =>
    simp only [WeakSpaced] at h
    simp only [SingleSpaced]
    cases cs with
    | nil =>
      refine ⟨fun hc => ?_, trivial⟩
      have := hlast c (by simp)
      rw [hc] at this; cases this
    | cons e es =>
      refine ⟨fun hc => ⟨(h.1 hc).1, e, rfl, (h.1 hc).2 e rfl⟩, ih h.2 (fun d hd => ?_)⟩
      apply hlast d
      rw [List.getLast?_cons_cons]
      exact hd

theorem normalizeSpaces_eq_rdropWhile (s : List Char) :
    normalizeSpaces s = List.rdropWhile isSpace (collapseSpaces true s) := by
  rw [normalizeSpaces, trim_eq, dropWhile_collapseSpaces]

theorem collapseSpaces_normalizeSpaces (s : List Char) :
    collapseSpaces false (normalizeSpaces s) = normalizeSpaces s := by
  rw [normalizeSpaces_eq_rdropWhile]
  obtain ⟨z, hz⟩ := List.rdropWhile_prefix isSpace (collapseSpaces true s)
  apply collapseSpaces_fixed_prefix _ z
  rw [hz]
  exact collapseSpaces_collapse s true false (by simp)

theorem normalizeSpaces_getLast (s : List Char) (c : Char)
    (h : (normalizeSpaces s).getLast? = some c) : isSpace c = false := by
  rw [normalizeSpaces_eq_rdropWhile] at h
  have hd := List.rdropWhile_idempotent isSpace (collapseSpaces true s)
  generalize List.rdropWhile isSpace (collapseSpaces true s) = y at h hd
  rw [List.rdropWhile_eq_self_iff] at hd
  by_cases hy : y = []
  · subst hy; simp at h
  · have h2 := hd hy
    rw [List.getLast?_eq_getLast _ hy] at h
    simp only [Option.some.injEq] at h
    rw [← h]
    simpa using h2

theorem normalizeSpaces_head (s : List Char) (c : Char)
    (h : (normalizeSpaces s).head? = some c) : isSpace c = false := by
  rw [normalizeSpaces_eq_rdropWhile] at h
  obtain ⟨z, hz⟩ := List.rdropWhile_prefix isSpace (collapseSpaces true s)
  apply (weakSpaced_collapse s true).2 rfl c
  rw [← hz]
  cases hy : List.rdropWhile isSpace (collapseSpaces true s) with
  | nil => rw [hy] at h; simp at h
  | cons e es => rw [hy] at h; simpa using h

theorem normalizeSpaces_singleSpaced (s : List Char) : SingleSpaced (normalizeSpaces s) := by
  apply singleSpaced_of_weak _ _ (normalizeSpaces_getLast s)
  rw [normalizeSpaces_eq_rdropWhile]
  obtain ⟨z, hz⟩ := List.rdropWhile_prefix isSpace (collapseSpaces true s)
  apply weakSpaced_prefix _ z
  rw [hz]
  exact (weakSpaced_collapse s true).1

/-- A text that starts and ends with a character that is not white space is left as it is by
`trim`. -/
theorem trim_eq_self (p : List Char) (hh : ∀ c, p.head? = some c → isSpace c = false)
    (hl : ∀ c, p.getLast? = some c → isSpace c = false) : trim p = p := by
  rw [trim_eq]
  have h1 : p.dropWhile isSpace = p := by
    cases p with
    | nil => rfl
    | cons c cs => simp [List.dropWhile_cons, hh c rfl]
  rw [h1, List.rdropWhile_eq_self_iff]
  intro hne
  have := hl (p.getLast hne) (List.getLast?_eq_getLast _ hne)
  simpa using this

/-- A prefix of a normalised text that ends with a character that is not white space is
normalised. -/
theorem normalizeSpaces_prefix (s x y : List Char) (h : normalizeSpaces s = x ++ y)
    (hl : ∀ c, x.getLast? = some c → isSpace c = false) : normalizeSpaces x = x := by
  have hc : collapseSpaces false x = x := by
    apply collapseSpaces_fixed_prefix x y
    rw [← h]
    exact collapseSpaces_normalizeSpaces s
  rw [normalizeSpaces, hc]
  apply trim_eq_self _ _ hl
  intro c hx
  apply normalizeSpaces_head s c
  rw [h]
  cases x with
  | nil => simp at hx
  | cons e es => simpa using hx

/-! ## Sentences -/

theorem splitSentencesAux_ne_nil (l : List Char) : ∀ (cur : List Char) (a b : Bool),
    splitSentencesAux cur a b l ≠ [] := by
  induction l with
  | nil => intro cur a b; simp [splitSentencesAux]
  | cons c cs ih =>
    intro cur a b
    simp only [splitSentencesAux]
    split
    · split
      · exact ih _ _ _
      · simp
    · exact ih _ _ _

theorem splitSentencesAux_cons_of_not_space (d : Char) (ds cur : List Char) (a b : Bool)
    (hd : isSpace d = false) :
    splitSentencesAux cur a b (d :: ds) = splitSentencesAux (d :: cur) (isSentenceEnd d) false ds := by
  simp only [splitSentencesAux, hd, Bool.false_and, Bool.false_eq_true, if_false]

theorem intercalate_cons_of_ne_nil (sep x : List Char) (P : List (List Char)) (hP : P ≠ []) :
    List.intercalate sep (x :: P) = x ++ sep ++ List.intercalate sep P := by
  cases P with
  | nil => exact absurd rfl hP
  | cons y ys => simp [List.intercalate, List.intersperse]

theorem intercalate_singleton (sep x : List Char) : List.intercalate sep [x] = x := by
  simp [List.intercalate]

theorem isSpace_of_sentenceEnd (c : Char) (h : isSentenceEnd c = true) : isSpace c = false := by
  simp only [isSentenceEnd, Bool.or_eq_true, beq_iff_eq] at h
  rcases h with (h | h) | h <;> subst h <;> decide

/-- The pieces cut from a single-spaced text: joined by blanks they give the text back, every
piece but the last ends with one of `.!?`, every piece but the first starts with a character
that is not white space, and no piece holds a split point. -/
theorem splitSentencesAux_spec (rest : List Char) : ∀ cur : List Char, SingleSpaced rest →
    cur.reverse.Chain' NoBreak →
    List.intercalate [' '] (splitSentencesAux cur (endsSentence cur) false rest) =
        cur.reverse ++ rest ∧
    (∀ p ∈ (splitSentencesAux cur (endsSentence cur) false rest).dropLast,
        ∃ c, p.getLast? = some c ∧ isSentenceEnd c = true) ∧
    (∀ p ∈ (splitSentencesAux cur (endsSentence cur) false rest).tail,
        ∃ d, p.head? = some d ∧ isSpace d = false) ∧
    (∀ p ∈ splitSentencesAux cur (endsSentence cur) false rest, p.Chain' NoBreak) := by
  induction rest with
  | nil =>
    intro cur _ hch
    simp only [splitSentencesAux, intercalate_singleton, List.append_nil, List.dropLast_single,
      List.not_mem_nil, false_implies, implies_true, List.tail_cons, List.mem_singleton,
      true_and]
    intro p hp
    subst hp
    exact hch
  | cons c cs ih =>
    intro cur hss hch
    simp only [SingleSpaced] at hss
    obtain ⟨hc, hcs⟩ := hss
    by_cases hsplit : (isSpace c && (false || endsSentence cur)) = true
    · simp only [Bool.false_or, Bool.and_eq_true] at hsplit
      obtain ⟨hsp, hend⟩ := hsplit
      obtain ⟨hcb, d, hd, hdn⟩ := hc hsp
      obtain ⟨ds, hds⟩ : ∃ ds, cs = d :: ds := by
        cases cs with
        | nil => simp at hd
        | cons e es => simp only [List.head?_cons, Option.some.injEq] at hd; exact ⟨es, by rw [hd]⟩
      have hP : splitSentencesAux cur (endsSentence cur) false (c :: cs) =
          cur.reverse :: splitSentencesAux [] (endsSentence []) false cs := by
        simp only [splitSentencesAux, hsp, hend, Bool.false_or, Bool.and_self, if_true,
          Bool.false_eq_true, if_false]
        rw [hds, splitSentencesAux_cons_of_not_space d ds [] false true hdn,
          splitSentencesAux_cons_of_not_space d ds [] (endsSentence []) false hdn]
      obtain ⟨j, e, hh, n⟩ := ih [] hcs (by simp)
      simp only [List.reverse_nil, List.nil_append] at j
      have hne := splitSentencesAux_ne_nil cs [] (endsSentence []) false
      rw [hP]
      generalize splitSentencesAux [] (endsSentence []) false cs = P at j e hh n hne
      refine ⟨?_, ?_, ?_, ?_⟩
      · rw [intercalate_cons_of_ne_nil _ _ _ hne, j, hcb]
        simp
      · intro p hp
        rw [List.dropLast_cons_of_ne_nil hne] at hp
        rcases List.mem_cons.1 hp with hp | hp
        · subst hp
          cases cur with
          | nil => simp [endsSentence] at hend
          | cons x xs =>
            refine ⟨x, by simp, ?_⟩
            simpa [endsSentence] using hend
        · exact e p hp
      · intro p hp
        simp only [List.tail_cons] at hp
        cases P with
        | nil => exact absurd rfl hne
        | cons p0 P1 =>
          rcases List.mem_cons.1 hp with hp | hp
          · subst hp
            refine ⟨d, ?_, hdn⟩
            cases p with
            | nil =>
              exfalso
              cases P1 with
              | nil => simp [intercalate_singleton, hds] at j
              | cons q qs =>
                rw [intercalate_cons_of_ne_nil _ _ _ (by simp), hds] at j
                simp only [List.nil_append, List.singleton_append, List.cons.injEq] at j
                rw [← j.1] at hdn
                exact absurd hdn (by decide)
            | cons y ys =>
              cases P1 with
              | nil =>
                simp only [intercalate_singleton, hds, List.cons.injEq] at j
                simp [j.1]
              | cons q qs =>
                rw [intercalate_cons_of_ne_nil _ _ _ (by simp), hds] at j
                simp only [List.cons_append, List.cons.injEq] at j
                simp [j.1]
          · exact hh p (by simpa using hp)
      · intro p hp
        rcases List.mem_cons.1 hp with hp | hp
        · subst hp; exact hch
        · exact n p hp
    · have hP : splitSentencesAux cur (endsSentence cur) false (c :: cs) =
          splitSentencesAux (c :: cur) (endsSentence (c :: cur)) false cs := by
        rw [splitSentencesAux, if_neg hsplit]
        rfl
      have hch2 : (c :: cur).reverse.Chain' NoBreak := by
        rw [List.reverse_cons, List.chain'_append]
        refine ⟨hch, List.chain'_singleton _, ?_⟩
        intro x hx y hy
        simp only [List.head?_cons, Option.mem_def, Option.some.injEq] at hy
        subst hy
        intro ⟨hx1, hx2⟩
        apply hsplit
        rw [List.getLast?_reverse] at hx
        cases cur with
        | nil => simp at hx
        | cons z zs =>
          simp only [List.head?_cons, Option.mem_def, Option.some.injEq] at hx
          subst hx
          subst hx2
          simp [endsSentence, hx1, isSpace_blank]
      obtain ⟨j, e, hh, n⟩ := ih (c :: cur) hcs hch2
      rw [hP]
      refine ⟨?_, e, hh, n⟩
      rw [j]
      simp

theorem getLast?_intercalate (sep : List Char) (P : List (List Char)) (hP : P ≠ [])
    (hne : ∀ p ∈ P, p ≠ []) :
    (List.intercalate sep P).getLast? = (P.getLast hP).getLast? := by
  induction P with
  | nil => exact absurd rfl hP
  | cons x xs ih =>
    cases xs with
    | nil => simp [intercalate_singleton]
    | cons y ys =>
      rw [intercalate_cons_of_ne_nil _ _ _ (by simp), List.getLast_cons (by simp)]
      have h1 := ih (by simp) (fun p hp => hne p (List.mem_cons_of_mem _ hp))
      have h2 : List.intercalate sep (y :: ys) ≠ [] := by
        intro h0
        have hy := hne y (by simp)
        cases ys with
        | nil => rw [intercalate_singleton] at h0; exact hy h0
        | cons z zs =>
          rw [intercalate_cons_of_ne_nil _ _ _ (by simp)] at h0
          simp only [List.append_eq_nil] at h0
          exact hy h0.1.1
      rw [List.getLast?_append_of_ne_nil _ h2]
      exact h1

/-- The function `splitSentences` returns the pieces cut by `splitSentencesAux`: `trim` and
the filter change nothing on a normalised text. -/
theorem splitSentences_eq (text : List Char) (ht : normalizeSpaces text ≠ []) :
    splitSentences text = splitSentencesAux [] false false (normalizeSpaces text) ∧
    ∀ p ∈ splitSentences text, p ≠ [] ∧ (∀ c, p.head? = some c → isSpace c = false) ∧
      (∀ c, p.getLast? = some c → isSpace c = false) := by
  obtain ⟨j, e, hh, _⟩ := splitSentencesAux_spec (normalizeSpaces text) []
    (normalizeSpaces_singleSpaced text) (by simp)
  simp only [endsSentence, List.reverse_nil, List.nil_append] at j e hh
  have hne := splitSentencesAux_ne_nil (normalizeSpaces text) [] false false
  have key : ∀ p ∈ splitSentencesAux [] false false (normalizeSpaces text),
      p ≠ [] ∧ (∀ c, p.head? = some c → isSpace c = false) ∧
      (∀ c, p.getLast? = some c → isSpace c = false) := by
    generalize splitSentencesAux [] false false (normalizeSpaces text) = P at j e hh hne
    have hhead : ∀ p ∈ P, ∃ d, p.head? = some d ∧ isSpace d = false := by
      intro p hp
      cases P with
      | nil => exact absurd rfl hne
      | cons p0 P1 =>
        rcases List.mem_cons.1 hp with hp | hp
        · subst hp
          cases hn : normalizeSpaces text with
          | nil => exact absurd hn ht
          | cons d ds =>
            have hd := normalizeSpaces_head text d (by rw [hn]; rfl)
            refine ⟨d, ?_, hd⟩
            rw [hn] at j
            cases p with
            | nil =>
              exfalso
              cases P1 with
              | nil => simp [intercalate_singleton] at j
              | cons q qs =>
                rw [intercalate_cons_of_ne_nil _ _ _ (by simp)] at j
                simp only [List.nil_append, List.singleton_append, List.cons.injEq] at j
                rw [← j.1] at hd
                exact absurd hd (by decide)
            | cons y ys =>
              cases P1 with
              | nil =>
                simp only [intercalate_singleton, List.cons.injEq] at j
                simp [j.1]
              | cons q qs =>
                rw [intercalate_cons_of_ne_nil _ _ _ (by simp)] at j
                simp only [List.cons_append, List.cons.injEq] at j
                simp [j.1]
        · exact hh p (by simpa using hp)
    have hnonempty : ∀ p ∈ P, p ≠ [] := by
      intro p hp h0
      obtain ⟨d, hd, _⟩ := hhead p hp
      rw [h0] at hd
      simp at hd
    intro p hp
    refine ⟨hnonempty p hp, fun c hc => ?_, fun c hc => ?_⟩
    · obtain ⟨d, hd, hdn⟩ := hhead p hp
      rw [hd] at hc
      cases hc
      exact hdn
    · by_cases hl : p ∈ P.dropLast
      · obtain ⟨c1, hc1, he1⟩ := e p hl
        rw [hc1] at hc
        cases hc
        exact isSpace_of_sentenceEnd _ he1
      · have hpl : p = P.getLast hne := by
          have hmem : p ∈ P.dropLast ++ [P.getLast hne] := by
            rw [List.dropLast_append_getLast hne]; exact hp
          rcases List.mem_append.1 hmem with h | h
          · exact absurd h hl
          · simpa using h
        apply normalizeSpaces_getLast text c
        rw [← j, getLast?_intercalate _ _ hne hnonempty, ← hpl]
        exact hc
  have hmap : (splitSentencesAux [] false false (normalizeSpaces text)).map trim =
      splitSentencesAux [] false false (normalizeSpaces text) := by
    conv_rhs => rw [← List.map_id (splitSentencesAux [] false false (normalizeSpaces text))]
    apply List.map_congr_left
    intro p hp
    exact trim_eq_self p (key p hp).2.1 (key p hp).2.2
  have hsplit : splitSentences text = splitSentencesAux [] false false (normalizeSpaces text) := by
    unfold splitSentences
    have hte : (normalizeSpaces text).isEmpty = false := by
      rw [Bool.eq_false_iff, ne_eq, List.isEmpty_iff]; exact ht
    simp only [hte, Bool.false_eq_true, if_false, hmap]
    rw [List.filter_eq_self]
    intro p hp
    have := (key p hp).1
    simpa using this
  rw [hsplit]
  exact ⟨rfl, key⟩

theorem splitSentences_of_empty (text : List Char) (ht : normalizeSpaces text = []) :
    splitSentences text = [] := by
  unfold splitSentences
  simp [ht]

/-- C23. The pieces returned by `splitSentences` are not empty; joined by single blanks they
give the white-space-normalised text back; every piece except possibly the last ends with one
of `.!?`; and no piece holds a blank that follows one of `.!?`, so the text is cut at each
white space preceded by one of `.!?` and only there. -/
theorem splitSentences_spec (text : List Char) :
    (∀ p ∈ splitSentences text, p ≠ []) ∧
    List.intercalate " ".toList (splitSentences text) = normalizeSpaces text ∧
    (∀ p ∈ (splitSentences text).dropLast, ∃ c, p.getLast? = some c ∧ isSentenceEnd c = true) ∧
    (∀ p ∈ splitSentences text, p.Chain' NoBreak) := by
  by_cases ht : normalizeSpaces text = []
  · rw [splitSentences_of_empty text ht, ht]
    simp [List.intercalate]
  · obtain ⟨h1, h2⟩ := splitSentences_eq text ht
    obtain ⟨j, e, _, n⟩ := splitSentencesAux_spec (normalizeSpaces text) []
      (normalizeSpaces_singleSpaced text) (by simp)
    simp only [endsSentence, List.reverse_nil, List.nil_append] at j e n
    rw [← h1] at j e n
    exact ⟨fun p hp => (h2 p hp).1, j, e, n⟩

end Dictation

namespace Dictation

open Materials Subtitles

/-! ## Candidates -/

theorem splitSentences_piece (text p : List Char) (hp : p ∈ splitSentences text) :
    p ≠ [] ∧ (∀ c, p.head? = some c → isSpace c = false) ∧
      (∀ c, p.getLast? = some c → isSpace c = false) := by
  by_cases ht : normalizeSpaces text = []
  · rw [splitSentences_of_empty text ht] at hp
    cases hp
  · exact (splitSentences_eq text ht).2 p hp

theorem splitSentences_trim (text p : List Char) (hp : p ∈ splitSentences text) : trim p = p :=
  trim_eq_self p (splitSentences_piece text p hp).2.1 (splitSentences_piece text p hp).2.2

/-- The first two sentences joined by a blank are a normalised text. -/
theorem two_sentences_normal (text s0 s1 : List Char) (rest : List (List Char))
    (hs : splitSentences text = s0 :: s1 :: rest) :
    trim (s0 ++ " ".toList ++ s1) = s0 ++ ' ' :: s1 ∧
    normalizeSpaces (s0 ++ ' ' :: s1) = s0 ++ ' ' :: s1 ∧ s1 ≠ [] ∧ trim s0 = s0 := by
  have h0 := splitSentences_piece text s0 (by rw [hs]; simp)
  have h1 := splitSentences_piece text s1 (by rw [hs]; simp)
  have hlast : ∀ c, (s0 ++ ' ' :: s1).getLast? = some c → isSpace c = false := by
    intro c hc
    apply h1.2.2 c
    rw [← hc]
    have e : s0 ++ ' ' :: s1 = (s0 ++ [' ']) ++ s1 := by simp
    rw [e, List.getLast?_append_of_ne_nil _ h1.1]
  have hhead : ∀ c, (s0 ++ ' ' :: s1).head? = some c → isSpace c = false := by
    intro c hc
    apply h0.2.1 c
    cases s0 with
    | nil => exact absurd rfl h0.1
    | cons d ds => simpa using hc
  have e2 : s0 ++ " ".toList ++ s1 = s0 ++ ' ' :: s1 := by simp
  refine ⟨by rw [e2]; exact trim_eq_self _ hhead hlast, ?_, h1.1,
    trim_eq_self _ h0.2.1 h0.2.2⟩
  have j := (splitSentences_spec text).2.1
  rw [hs] at j
  have hj : " ".toList = [' '] := rfl
  rw [hj, intercalate_cons_of_ne_nil _ _ _ (by simp)] at j
  cases rest with
  | nil =>
    rw [intercalate_singleton] at j
    apply normalizeSpaces_prefix text _ [] _ hlast
    rw [← j]; simp
  | cons r rs =>
    rw [intercalate_cons_of_ne_nil _ _ _ (by simp)] at j
    apply normalizeSpaces_prefix text _ ([' '] ++ List.intercalate [' '] (r :: rs)) _ hlast
    rw [← j]; simp

/-- C24 (amended). For every merged text of the list that has at least two sentences, the
first two sentences joined by one blank are a candidate when they have at least 40 characters
together. -/
theorem first_two_sentences_candidate (mergedList : List MergedText) (m : MergedText)
    (s0 s1 : List Char) (rest : List (List Char)) (hm : m ∈ mergedList)
    (hs : splitSentences m.merged = s0 :: s1 :: rest)
    (hlen : 40 ≤ (s0 ++ ' ' :: s1).length) :
    s0 ++ ' ' :: s1 ∈ buildCandidates mergedList := by
  obtain ⟨ht, hn, h1, _⟩ := two_sentences_normal m.merged s0 s1 rest hs
  unfold buildCandidates
  rw [List.mem_filter]
  refine ⟨?_, by cases s0 <;> simp⟩
  rw [List.mem_map]
  refine ⟨s0 ++ ' ' :: s1, ?_, hn⟩
  rw [List.mem_flatMap]
  refine ⟨m, hm, ?_⟩
  unfold candidatesOfMerged
  simp only [hs, ht]
  rw [List.mem_append]
  right
  rw [if_pos hlen]
  simp

/-- The text of the counterexamples of three sentences. -/
theorem splitSentences_three :
    splitSentences ("Tom went to the market early. He bought apples and pears. " ++
      "Then he walked back home.").toList =
      ["Tom went to the market early.".toList, "He bought apples and pears.".toList,
        "Then he walked back home.".toList] := by
  decide

/-- Witness of `first_two_sentences_candidate`: a text of three sentences. -/
theorem first_two_sentences_candidate_witness :
    "Tom went to the market early. He bought apples and pears.".toList ∈
      buildCandidates [{ passage := 1, merged := ("Tom went to the market early. " ++
        "He bought apples and pears. Then he walked back home.").toList }] :=
  first_two_sentences_candidate _ { passage := 1, merged := ("Tom went to the market early. " ++
      "He bought apples and pears. Then he walked back home.").toList }
    "Tom went to the market early.".toList "He bought apples and pears.".toList
    ["Then he walked back home.".toList] (by simp) splitSentences_three (by decide)

/-- C24 (counterexample). In a text of three sentences the second and the third sentence
joined by a blank have 53 characters, and the handler does not push them: the candidates are
the three sentences and the first two sentences joined. -/
theorem second_pair_not_candidate :
    mergedListOfUpload "official/Level3/Lesson2/B/passage1/listening_subtitles.json".toList
        [("official/Level3/Lesson2/B/passage1/listening_subtitles.json".toList,
          ("Tom went to the market early. He bought apples and pears. " ++
            "Then he walked back home.").toList)] =
      some [{ passage := 1, merged := ("Tom went to the market early. " ++
        "He bought apples and pears. Then he walked back home.").toList }] ∧
    40 ≤ ("He bought apples and pears.".toList ++
      ' ' :: "Then he walked back home.".toList).length ∧
    buildCandidates [{ passage := 1, merged := ("Tom went to the market early. " ++
        "He bought apples and pears. Then he walked back home.").toList }] =
      ["Tom went to the market early.".toList, "He bought apples and pears.".toList,
        "Then he walked back home.".toList,
        "Tom went to the market early. He bought apples and pears.".toList] ∧
    "He bought apples and pears. Then he walked back home.".toList ∉
      buildCandidates [{ passage := 1, merged := ("Tom went to the market early. " ++
        "He bought apples and pears. Then he walked back home.").toList }] := by
  have h : buildCandidates [{ passage := 1, merged := ("Tom went to the market early. " ++
        "He bought apples and pears. Then he walked back home.").toList }] =
      ["Tom went to the market early.".toList, "He bought apples and pears.".toList,
        "Then he walked back home.".toList,
        "Tom went to the market early. He bought apples and pears.".toList] := by
    decide
  refine ⟨by decide, by decide, h, ?_⟩
  rw [h]
  decide

/-! ## The order of the passages -/

instance : IsTotal PassageTexts passageLe := ⟨fun _ _ => Nat.le_total _ _⟩

instance : IsTrans PassageTexts passageLe := ⟨fun _ _ _ h1 h2 => Nat.le_trans h1 h2⟩

/-- When no entry has the passage number 0, `stableSortPassageMap` returns the entries in
ascending order of the passage number. -/
theorem stableSortPassageMap_sorted (entries : List PassageTexts)
    (h : ∀ e ∈ entries, e.passage ≠ 0) :
    (stableSortPassageMap entries).Perm entries ∧
    (stableSortPassageMap entries).Pairwise (fun a b => a.passage ≤ b.passage) := by
  have hp : (stableSortPassageMap entries).Perm entries := List.perm_insertionSort passageLe _
  refine ⟨hp, ?_⟩
  have hs : (stableSortPassageMap entries).Pairwise passageLe :=
    List.sorted_insertionSort passageLe _
  refine hs.imp_of_mem ?_
  intro a b ha hb hab
  have ha0 := h a (hp.mem_iff.1 ha)
  have hb0 := h b (hp.mem_iff.1 hb)
  simpa [passageLe, passageSortKey, ha0, hb0] using hab

/-- C25 (failing input). The entry of passage 0 is sorted as if its number were 999: it comes
after the entry of passage 1, and so does its merged text. -/
theorem stableSort_passage_zero_last :
    stableSortPassageMap [{ passage := 0, texts := ["zero".toList] },
        { passage := 1, texts := ["one".toList] }] =
      [{ passage := 1, texts := ["one".toList] }, { passage := 0, texts := ["zero".toList] }] ∧
    (mergedListOfUpload "official/Level3/Lesson2/B/passage0/listening_subtitles.json".toList
        [("official/Level3/Lesson2/B/passage0/listening_subtitles.json".toList,
          "This is the text of passage zero.".toList),
         ("official/Level3/Lesson2/B/passage1/listening_subtitles.json".toList,
          "This is the text of passage one.".toList)]).map
        (fun l => l.map (fun x => x.passage)) = some [1, 0] := by
  exact ⟨by decide, by decide⟩

/-! ## The snippet of group C -/

theorem longestMerged_spec (l : List MergedText) (hl : l ≠ []) :
    ∃ l1 m l2, l = l1 ++ m :: l2 ∧ longestMerged l = some m ∧
      (∀ x ∈ l1, x.merged.length < m.merged.length) ∧
      (∀ x ∈ l2, x.merged.length ≤ m.merged.length) := by
  induction l with
  | nil => exact absurd rfl hl
  | cons a t ih =>
    cases t with
    | nil => exact ⟨[], a, [], rfl, rfl, by simp, by simp⟩
    | cons b t1 =>
      obtain ⟨l1, m, l2, h1, h2, h3, h4⟩ := ih (by simp)
      unfold longestMerged at h2
      cases hsort : List.insertionSort longerFirst (b :: t1) with
      | nil => rw [hsort] at h2; simp at h2
      | cons m1 t2 =>
        rw [hsort] at h2
        simp only [List.head?_cons, Option.some.injEq] at h2
        subst h2
        have hins : longestMerged (a :: b :: t1) =
            (List.orderedInsert longerFirst a (m1 :: t2)).head? := by
          rw [← hsort]; rfl
        rw [hins]
        by_cases hr : longerFirst a m1
        · refine ⟨[], a, b :: t1, rfl, ?_, by simp, ?_⟩
          · simp only [List.orderedInsert, hr, if_true, List.head?_cons]
          · intro x hx
            rw [h1] at hx
            unfold longerFirst at hr
            rcases List.mem_append.1 hx with hx | hx
            · exact le_trans (le_of_lt (h3 x hx)) hr
            · rcases List.mem_cons.1 hx with hx | hx
              · subst hx; exact hr
              · exact le_trans (h4 x hx) hr
        · refine ⟨a :: l1, m1, l2, by rw [h1]; rfl, ?_, ?_, h4⟩
          · simp only [List.orderedInsert, hr, if_false, List.head?_cons]
          · intro x hx
            unfold longerFirst at hr
            rcases List.mem_cons.1 hx with hx | hx
            · subst hx; omega
            · exact h3 x hx

theorem pickSnippet_two (text : List Char) :
    (splitSentences text = [] → pickSnippetNSentences text 2 = []) ∧
    (∀ s0, splitSentences text = [s0] → pickSnippetNSentences text 2 = s0) ∧
    (∀ s0 s1 rest, splitSentences text = s0 :: s1 :: rest →
      pickSnippetNSentences text 2 =
        if (s0 ++ ' ' :: s1).length ≤ 260 then s0 ++ ' ' :: s1 else s0) := by
  refine ⟨fun h => ?_, fun s0 h => ?_, fun s0 s1 rest h => ?_⟩
  · simp [pickSnippetNSentences, h]
  · have ht := splitSentences_trim text s0 (by rw [h]; simp)
    simp [pickSnippetNSentences, h, ht]
  · obtain ⟨ht, _, h1, h0⟩ := two_sentences_normal text s0 s1 rest h
    have hpos : 0 < s1.length := List.length_pos.2 h1
    simp only [pickSnippetNSentences, h, List.headD_cons, ht, h0, hpos, decide_True,
      Bool.and_true, decide_eq_true_eq]
    simp

/-- C26 (amended). When the selector returns a third snippet of at least 80 characters, it is
the snippet of group C.  Otherwise (no third snippet, or one of fewer than 80 characters) the
snippet of group C is taken from the longest merged text, the first one among those of the
greatest length: its first two sentences joined by one blank when it has at least two
sentences and the joined text has at most 260 characters, and its first sentence alone when
the joined text is longer or when the merged text has a single sentence. -/
theorem groupC_snippet (mergedList : List MergedText) (hne : mergedList ≠ []) :
    (∀ s, (pickDistinctSnippets (buildCandidates mergedList) 3 defaultMaxSim)[2]? = some s →
      80 ≤ s.length → (chooseSnippets mergedList).2.2 = s) ∧
    (((pickDistinctSnippets (buildCandidates mergedList) 3 defaultMaxSim)[2]? = none ∨
        ∃ s, (pickDistinctSnippets (buildCandidates mergedList) 3 defaultMaxSim)[2]? = some s ∧
          s.length < 80) →
      ∃ l1 m l2, mergedList = l1 ++ m :: l2 ∧
        (∀ x ∈ l1, x.merged.length < m.merged.length) ∧
        (∀ x ∈ l2, x.merged.length ≤ m.merged.length) ∧
        (∀ s0 s1 rest, splitSentences m.merged = s0 :: s1 :: rest →
          (s0 ++ ' ' :: s1).length ≤ 260 → (chooseSnippets mergedList).2.2 = s0 ++ ' ' :: s1) ∧
        (∀ s0 s1 rest, splitSentences m.merged = s0 :: s1 :: rest →
          260 < (s0 ++ ' ' :: s1).length → (chooseSnippets mergedList).2.2 = s0) ∧
        (∀ s0, splitSentences m.merged = [s0] → (chooseSnippets mergedList).2.2 = s0)) := by
  constructor
  · intro s hs hlen
    have h1 : ¬ s.length < 80 := by omega
    have h2 : s.isEmpty = false := by
      cases s with
      | nil => simp at hlen
      | cons c cs => rfl
    simp only [chooseSnippets, hs, h1, h2, Bool.false_or, decide_False, Bool.false_eq_true,
      if_false]
  · intro h
    have hsub : (chooseSnippets mergedList).2.2 = substituteC mergedList := by
      rcases h with h | ⟨s, hs, hlen⟩
      · simp only [chooseSnippets, h]
      · simp only [chooseSnippets, hs, hlen, decide_True, Bool.or_true, if_true]
    obtain ⟨l1, m, l2, e, hm, h3, h4⟩ := longestMerged_spec mergedList hne
    refine ⟨l1, m, l2, e, h3, h4, ?_, ?_, ?_⟩
    · intro s0 s1 rest hs hlen
      rw [hsub, substituteC, hm]
      simp only
      rw [(pickSnippet_two m.merged).2.2 s0 s1 rest hs, if_pos hlen]
    · intro s0 s1 rest hs hlen
      rw [hsub, substituteC, hm]
      simp only
      rw [(pickSnippet_two m.merged).2.2 s0 s1 rest hs, if_neg (by omega)]
    · intro s0 hs
      rw [hsub, substituteC, hm]
      simp only
      rw [(pickSnippet_two m.merged).2.1 s0 hs]

theorem fox_candidates :
    buildCandidates [{ passage := 1, merged := "The quick brown fox jumps over the lazy dog.".toList }] =
      ["The quick brown fox jumps over the lazy dog.".toList] := by
  decide

theorem fox_picked :
    pickDistinctSnippets ["The quick brown fox jumps over the lazy dog.".toList] 3
      defaultMaxSim = ["The quick brown fox jumps over the lazy dog.".toList] := by
  decide

theorem fox_third_absent :
    (pickDistinctSnippets (buildCandidates [{ passage := 1, merged := "The quick brown fox jumps over the lazy dog.".toList }]) 3 defaultMaxSim)[2]? =
      none := by
  rw [fox_candidates, fox_picked]
  rfl

/-- C26 (counterexample). The only merged text is one sentence of 44 characters: the selector
returns no third snippet, and the snippet of group C is that single sentence, not two
sentences joined by a blank. -/
theorem groupC_single_sentence :
    splitSentences "The quick brown fox jumps over the lazy dog.".toList =
      ["The quick brown fox jumps over the lazy dog.".toList] ∧
    (pickDistinctSnippets (buildCandidates [{ passage := 1, merged := "The quick brown fox jumps over the lazy dog.".toList }]) 3 defaultMaxSim)[2]? =
        none ∧
    chooseSnippets [{ passage := 1, merged := "The quick brown fox jumps over the lazy dog.".toList }] =
      (some "The quick brown fox jumps over the lazy dog.".toList, none,
        "The quick brown fox jumps over the lazy dog.".toList) := by
  have hs : substituteC [{ passage := 1, merged := "The quick brown fox jumps over the lazy dog.".toList }] =
      "The quick brown fox jumps over the lazy dog.".toList := by decide
  refine ⟨by decide, fox_third_absent, ?_⟩
  unfold chooseSnippets
  rw [fox_candidates, fox_picked, hs]
  rfl

/-- Witness of `groupC_snippet`: the merged text of one sentence. -/
theorem groupC_snippet_witness :
    ∃ l1 m l2, [({ passage := 1, merged := "The quick brown fox jumps over the lazy dog.".toList } : MergedText)] =
        l1 ++ m :: l2 ∧
      ∀ s0, splitSentences m.merged = [s0] →
        (chooseSnippets [{ passage := 1, merged := "The quick brown fox jumps over the lazy dog.".toList }]).2.2 = s0 := by
  obtain ⟨l1, m, l2, h1, _, _, _, _, h6⟩ :=
    (groupC_snippet [{ passage := 1, merged := "The quick brown fox jumps over the lazy dog.".toList }] (by simp)).2
      (Or.inl fox_third_absent)
  exact ⟨l1, m, l2, h1, h6⟩

/-! ## The number of blanks of each group -/

theorem clozeLoop_length_le (pool : List (List Char)) : ∀ (fuel : Nat) (picked : List (List Char))
    (working : List Char), (clozeLoop pool fuel picked working).1.length ≤ picked.length + fuel := by
  intro fuel
  induction fuel with
  | zero => intro picked working; simp [clozeLoop]
  | succ k ih =>
    intro picked working
    cases hb : findBest pool picked working with
    | none => simp only [clozeLoop, hb]; omega
    | some b =>
      simp only [clozeLoop, hb]
      have := ih (picked ++ [b.1]) (replaceOnceWholeWord working b.1 blankMarker)
      simp only [List.length_append, List.length_singleton] at this
      omega

/-- The answers of a cloze item are at most `blankCount`. -/
theorem buildCloze_answers_le (snippet : List Char) (blankCount : Nat) :
    (buildClozeFromSnippet snippet blankCount).answers.length ≤ blankCount := by
  unfold buildClozeFromSnippet
  by_cases he : (normalizeSpaces snippet).isEmpty = true
  · simp [he]
  · simp only [he, Bool.false_eq_true, if_false]
    have h1 := clozeLoop_length_le (eligibleWords (normalizeSpaces snippet)) blankCount []
      (normalizeSpaces snippet)
    simp only [List.length_nil, Nat.zero_add] at h1
    rw [List.length_take]
    omega

/-- C27. In the document written by the handler, the question of group A is built from the
snippet `sA` with 2 blanks, that of group B from `sB` with 3 blanks, and that of group C from
`sC` with 4 blanks when `sC` has at least 120 characters and with 3 blanks otherwise; so A has
at most 2 answers, B at most 3 and C at most 4, and C has 4 answers only when `sC` has at least
120 characters. -/
theorem blank_budget (filePath : List Char) (listing : List (List Char × List Char))
    (doc : DictationDoc) (h : generateDictationForLessonPattern filePath listing = some doc) :
    ∃ mergedList, mergedListOfUpload filePath listing = some mergedList ∧
      doc.partA = [toQuestion "A1".toList
        (buildClozeFromSnippet ((chooseSnippets mergedList).1.getD []) 2)] ∧
      doc.partB = [toQuestion "B1".toList
        (buildClozeFromSnippet ((chooseSnippets mergedList).2.1.getD []) 3)] ∧
      doc.partC = [toQuestion "C1".toList
        (buildClozeFromSnippet (chooseSnippets mergedList).2.2
          (if 120 ≤ (chooseSnippets mergedList).2.2.length then 4 else 3))] ∧
      (∀ q ∈ doc.partA, q.answers.length ≤ 2) ∧
      (∀ q ∈ doc.partB, q.answers.length ≤ 3) ∧
      (∀ q ∈ doc.partC, q.answers.length ≤ 4 ∧
        (q.answers.length = 4 → 120 ≤ (chooseSnippets mergedList).2.2.length)) := by
  unfold generateDictationForLessonPattern at h
  cases hm : mergedListOfUpload filePath listing with
  | none => rw [hm] at h; cases h
  | some mergedList =>
    rw [hm] at h
    simp only [Option.some.injEq] at h
    subst h
    refine ⟨mergedList, rfl, rfl, rfl, rfl, ?_, ?_, ?_⟩
    · intro q hq
      simp only [assemble, List.mem_singleton] at hq
      subst hq
      exact buildCloze_answers_le _ 2
    · intro q hq
      simp only [assemble, List.mem_singleton] at hq
      subst hq
      exact buildCloze_answers_le _ 3
    · intro q hq
      simp only [assemble, List.mem_singleton] at hq
      subst hq
      have hle := buildCloze_answers_le (chooseSnippets mergedList).2.2
        (wantC (chooseSnippets mergedList).2.2)
      simp only [toQuestion]
      unfold wantC at hle ⊢
      by_cases h120 : 120 ≤ (chooseSnippets mergedList).2.2.length
      · rw [if_pos h120] at hle ⊢
        exact ⟨hle, fun _ => h120⟩
      · rw [if_neg h120] at hle ⊢
        exact ⟨by omega, fun h4 => by omega⟩

/-- Witness of `blank_budget`: the handler run for the subtitle file of the one-sentence
text. -/
theorem blank_budget_witness :
    ∃ doc, generateDictationForLessonPattern
        "official/Level3/Lesson2/B/passage1/listening_subtitles.json".toList
        [("official/Level3/Lesson2/B/passage1/listening_subtitles.json".toList,
          "The quick brown fox jumps over the lazy dog.".toList)] = some doc ∧
      ∀ q ∈ doc.partA, q.answers.length ≤ 2 := by
  have hs : (generateDictationForLessonPattern
      "official/Level3/Lesson2/B/passage1/listening_subtitles.json".toList
      [("official/Level3/Lesson2/B/passage1/listening_subtitles.json".toList,
        "The quick brown fox jumps over the lazy dog.".toList)]).isSome = true := by
    decide
  obtain ⟨doc, hd⟩ := Option.isSome_iff_exists.1 hs
  obtain ⟨_, _, _, _, _, hA, _, _⟩ := blank_budget _ _ doc hd
  exact ⟨doc, hd, hA⟩

end Dictation

/-! # The number of answers of `buildClozeFromSnippet` -/

namespace Dictation

/-! ## Ties in the search for the leftmost word -/

theorem bestStep_first (picked : List (List Char)) (working : List Char) (seen : List (List Char))
    (best : Option (List Char × Nat)) (w : List Char) (hok : BestOk picked working seen best)
    (h : BestFirst picked working seen best) :
    BestFirst picked working (seen ++ [w]) (bestStep picked working best w) := by
  have keep : ∀ b, best = some b → BestFirst picked working (seen ++ [w]) (some b) := by
    intro b hb
    subst hb
    obtain ⟨l1, l2, e, hl⟩ := h
    exact ⟨l1, l2 ++ [w], by rw [e]; simp, hl⟩
  unfold bestStep
  by_cases hw : w ∈ picked
  · simp only [hw, if_true]
    cases best with
    | none => trivial
    | some b => exact keep b rfl
  · simp only [hw, if_false]
    cases hf : firstIndexOfWholeWord working w with
    | none =>
      cases best with
      | none => trivial
      | some b => exact keep b rfl
    | some idx =>
      cases best with
      | none =>
        refine ⟨seen, [], rfl, fun u hu hup i hi => ?_⟩
        rw [hok u hu hup] at hi
        cases hi
      | some b =>
        by_cases hlt : idx < b.2
        · simp only [hlt, if_true]
          refine ⟨seen, [], rfl, fun u hu hup i hi => ?_⟩
          have := hok.2.2.2 u hu hup i hi
          show idx < i
          omega
        · simp only [hlt, if_false]
          exact keep b rfl

theorem foldl_bestStep_first (picked : List (List Char)) (working : List Char)
    (l : List (List Char)) : ∀ (seen : List (List Char)) (best : Option (List Char × Nat)),
    BestOk picked working seen best → BestFirst picked working seen best →
    BestFirst picked working (seen ++ l) (l.foldl (bestStep picked working) best) := by
  induction l with
  | nil => intro seen best _ h; simpa using h
  | cons w ws ih =>
    intro seen best hok h
    have := ih (seen ++ [w]) _ (bestStep_ok picked working seen best w hok)
      (bestStep_first picked working seen best w hok h)
    simpa using this

/-- Among the unpicked pool words whose first whole-word occurrence is leftmost, the inner
`for` loop keeps the first one of the pool. -/
theorem findBest_first (pool picked : List (List Char)) (working : List Char) :
    BestFirst picked working pool (findBest pool picked working) := by
  have := foldl_bestStep_first picked working pool [] none (by intro w hw; simp at hw) trivial
  simpa using this

/-! ## The text right of the last marker -/

theorem getElem?_of_drop_eq (s t : List Char) (L M : Nat) (h : s.drop L = t.drop M) (k : Nat) :
    s[L + k]? = t[M + k]? := by
  have := congrArg (fun l => l[k]?) h
  simpa [List.getElem?_drop] using this

theorem wordAt_of_drop_eq (s t : List Char) (L M : Nat) (h : s.drop L = t.drop M) (k : Nat) :
    wordAt s (L + k) = wordAt t (M + k) := by
  simp only [wordAt, getElem?_of_drop_eq s t L M h k]

theorem isBoundary_of_drop_eq (s t : List Char) (L M : Nat) (h : s.drop L = t.drop M)
    (hedge : (M = 0 ∧ L = 0) ∨ (0 < M ∧ 0 < L ∧ wordAt s (L - 1) = true ∧ wordAt t (M - 1) = true))
    (k : Nat) : isBoundary s (L + k) = isBoundary t (M + k) := by
  unfold isBoundary
  rw [wordAt_of_drop_eq s t L M h k]
  cases k with
  | zero =>
    rcases hedge with ⟨hM, hL⟩ | ⟨hM, hL, h1, h2⟩
    · subst hM hL; rfl
    · have e1 : (L + 0 != 0) = true := by rw [bne_iff_ne]; omega
      have e2 : (M + 0 != 0) = true := by rw [bne_iff_ne]; omega
      simp only [Nat.add_zero] at e1 e2 ⊢
      rw [e1, e2, h1, h2]
  | succ j =>
    have e1 : (L + (j + 1) != 0) = true := by rw [bne_iff_ne]; omega
    have e2 : (M + (j + 1) != 0) = true := by rw [bne_iff_ne]; omega
    have e3 : L + (j + 1) - 1 = L + j := by omega
    have e4 : M + (j + 1) - 1 = M + j := by omega
    rw [e1, e2, e3, e4, wordAt_of_drop_eq s t L M h j]

theorem ciMatchAt_of_drop_eq (s t w : List Char) (L M : Nat) (h : s.drop L = t.drop M)
    (k : Nat) : ciMatchAt s w (L + k) = ciMatchAt t w (M + k) := by
  unfold ciMatchAt
  have e : s.drop (L + k) = t.drop (M + k) := by
    rw [← List.drop_drop, ← List.drop_drop, h]
  rw [e]

/-- A whole-word occurrence right of `L` in the working text is one right of `M` in the
text. -/
theorem wholeWordAt_of_drop_eq (s t w : List Char) (L M : Nat) (h : s.drop L = t.drop M)
    (hedge : (M = 0 ∧ L = 0) ∨ (0 < M ∧ 0 < L ∧ wordAt s (L - 1) = true ∧ wordAt t (M - 1) = true))
    (k : Nat) : wholeWordAt s w (L + k) = wholeWordAt t w (M + k) := by
  unfold wholeWordAt
  rw [isBoundary_of_drop_eq s t L M h hedge k, ciMatchAt_of_drop_eq s t w L M h k]
  have e1 : L + k + w.length = L + (k + w.length) := by omega
  have e2 : M + k + w.length = M + (k + w.length) := by omega
  rw [e1, e2, isBoundary_of_drop_eq s t L M h hedge (k + w.length)]

theorem wholeWordAt_last (t w : List Char) (i : Nat) (hw : PlainWord w)
    (h : wholeWordAt t w i = true) : wordAt t (i + w.length - 1) = true := by
  have hpos := hw.length_pos
  simp only [wholeWordAt, Bool.and_eq_true] at h
  obtain ⟨c1, hc1, hl1⟩ := ciMatchAt_getElem t w i h.1.2 (w.length - 1) (by omega)
  have hlast : isWordChar c1 = true := by
    rw [← isWordChar_toLower, hl1, isWordChar_toLower]
    apply hw.2.2.2
    rw [List.getLast?_eq_getElem?, List.getElem?_eq_getElem (by omega)]
  have e : i + w.length - 1 = i + (w.length - 1) := by omega
  simp only [wordAt, e, hc1, hlast]

theorem isSpace_toLower (c : Char) : isSpace c.toLower = isSpace c := by
  refine toLower_rel (fun a b => isSpace b = isSpace a) (fun _ => rfl) ?_ c
  intro n h1 h2
  interval_cases n <;> decide

theorem drop_add_eq (l : List Char) (a b : Nat) : l.drop (a + b) = (l.drop a).drop b := by
  rw [List.drop_drop]

/-- A whole-word occurrence of a pool word that covers the token occurrence of another word
starts at that token occurrence. -/
theorem overlap_at_anchor (out v w : List Char) (i q : Nat) (hv : PlainWord v)
    (hvs : ∀ c ∈ v, isSpace c = false) (hm : wholeWordAt out v i = true)
    (ha : AnchorOk out w q) (h1 : i ≤ q) (h2 : q < i + v.length) : i = q := by
  obtain ⟨_, s, _, hs0, hjunk⟩ := ha
  by_contra hne
  have hlt : i < q := by omega
  obtain ⟨_, hwi, _, _⟩ := wholeWordAt_plain out v i hv hm
  by_cases hsi : s ≤ i
  · rw [hjunk i hsi hlt] at hwi
    cases hwi
  · rcases hs0 with hs0 | ⟨c, hc, hsp⟩
    · omega
    · simp only [wholeWordAt, Bool.and_eq_true] at hm
      obtain ⟨c1, hc1, hl1⟩ := ciMatchAt_getElem out v i hm.1.2 (s - 1 - i) (by omega)
      have e : i + (s - 1 - i) = s - 1 := by omega
      rw [e, hc] at hc1
      simp only [Option.some.injEq] at hc1
      subst hc1
      have hk : s - 1 - i < v.length := by omega
      have := hvs (v[s - 1 - i]) (List.getElem_mem hk)
      rw [← isSpace_toLower, ← hl1, isSpace_toLower, hsp] at this
      cases this

theorem fillInv_init (out : List Char) (pos : List Char → Nat) (pool : List (List Char))
    (h : '_' ∉ out) : FillInv out pos pool [] out 0 0 where
  free := fun _ _ hk => h (mem_of_getElem?_eq hk)
  left := fun _ _ _ _ _ => Nat.zero_le _
  same := rfl
  edge := Or.inl ⟨rfl, rfl⟩
  anchor := fun _ _ _ => Nat.zero_le _

theorem fillInv_step (out : List Char) (pos : List Char → Nat) (pool : List (List Char))
    (hplain : ∀ w ∈ pool, PlainWord w) (hnosp : ∀ w ∈ pool, ∀ c ∈ w, isSpace c = false)
    (hanch : ∀ w ∈ pool, AnchorOk out w (pos w))
    (hord : pool.Pairwise (fun v w => pos v < pos w))
    (picked : List (List Char)) (working : List Char) (L M : Nat) (b : List Char × Nat)
    (h : FillInv out pos pool picked working L M) (hb : findBest pool picked working = some b) :
    FillInv out pos pool (picked ++ [b.1]) (replaceOnceWholeWord working b.1 blankMarker)
      (b.2 + 8) (M + (b.2 - L) + b.1.length) := by
  have hok := findBest_ok pool picked working
  have hfirst := findBest_first pool picked working
  rw [hb] at hok hfirst
  obtain ⟨hb1, hb2, hb3, hb4⟩ := hok
  obtain ⟨l1, l2, hpool, hl1⟩ := hfirst
  obtain ⟨v, i⟩ := b
  simp only at hb1 hb2 hb3 hb4 hpool hl1 ⊢
  obtain ⟨_, _, hmatch, hmin⟩ := findFrom_some _ _ _ _ hb3
  have hv := hplain v hb1
  have hvpos := hv.length_pos
  obtain ⟨hlen, hwi, _, hprev⟩ := wholeWordAt_plain working v i hv hmatch
  have hLi : L ≤ i := h.left v hb1 hb2 i hmatch
  obtain ⟨k, hk⟩ : ∃ k, i = L + k := ⟨i - L, by omega⟩
  subst hk
  have etr : ∀ (u : List Char) (j : Nat), wholeWordAt working u (L + j) = wholeWordAt out u (M + j) :=
    fun u j => wholeWordAt_of_drop_eq working out u L M h.same h.edge j
  have hmo : wholeWordAt out v (M + k) = true := by rw [← etr]; exact hmatch
  have hrep : replaceOnceWholeWord working v blankMarker =
      working.take (L + k) ++ (blankMarker ++ working.drop (L + k + v.length)) := by
    simp only [replaceOnceWholeWord, hb3, List.append_assoc]
  have hXlen : (working.take (L + k)).length = L + k := by
    rw [List.length_take]; omega
  have hpre : ∀ n, n < L + k →
      (working.take (L + k) ++ (blankMarker ++ working.drop (L + k + v.length)))[n]? =
        working[n]? := by
    intro n hn
    rw [List.getElem?_append_left (by omega), List.getElem?_take_of_lt hn]
  have hmid : ∀ n, L + k ≤ n → n < L + k + 8 →
      (working.take (L + k) ++ (blankMarker ++ working.drop (L + k + v.length)))[n]? =
        some '_' := by
    intro n hn1 hn2
    rw [List.getElem?_append_right (by omega), hXlen,
      List.getElem?_append_left (by simp [blankMarker]; omega)]
    exact blankMarker_getElem? _ (by omega)
  have hfree : ∀ n, L ≤ n → ∀ c ∈ working.drop n, c ≠ '_' := by
    intro n hn c hc hcu
    obtain ⟨x, hx⟩ := List.mem_iff_getElem?.1 hc
    rw [List.getElem?_drop, hcu] at hx
    exact h.free (n + x) (by omega) hx
  have e : M + (L + k - L) + v.length = M + k + v.length := by omega
  rw [hrep, e]
  refine ⟨?_, ?_, ?_, ?_, ?_⟩
  · intro n hn hget
    rw [List.getElem?_append_right (by omega), hXlen,
      List.getElem?_append_right (by simp [blankMarker]; omega)] at hget
    exact hfree (L + k + v.length) (by omega) _ (mem_of_getElem?_eq hget) rfl
  · intro u hu hup p hp
    have hup1 : u ∉ picked := fun hin => hup (List.mem_append_left _ hin)
    have hu' : PlainWord u := hplain u hu
    by_contra hcon
    by_cases hle : p + u.length ≤ L + k
    · have hwm : wordAt (working.take (L + k) ++
          (blankMarker ++ working.drop (L + k + v.length))) (L + k) = wordAt working (L + k) := by
        rw [hwi]
        simp only [wordAt, hmid (L + k) (le_refl _) (by omega)]
        decide
      rw [wholeWordAt_congr _ working u (L + k) p hpre hwm hle] at hp
      obtain ⟨i0, hi0, hi0p⟩ := firstIndex_le_of_match working u p (by omega) hp
      have := hb4 u hu hup1 i0 hi0
      have := hu'.length_pos
      omega
    · exact wholeWordAt_no_underscore _ u p hu' hp (max p (L + k)) (le_max_left _ _)
        (by rw [max_lt_iff]; have := hu'.length_pos; omega)
        (hmid _ (le_max_right _ _) (by rw [max_lt_iff]; omega))
  · have e1 : (working.take (L + k) ++ (blankMarker ++ working.drop (L + k + v.length))).drop
        (L + k + 8) = working.drop (L + k + v.length) := by
      have hl : (working.take (L + k) ++ blankMarker).length = L + k + 8 := by
        simp [blankMarker, hXlen]
      rw [← List.append_assoc, ← hl, List.drop_left]
    have e2 : L + k + v.length = L + (k + v.length) := by omega
    have e3 : M + k + v.length = M + (k + v.length) := by omega
    rw [e1, e2, e3, drop_add_eq working L, drop_add_eq out M, h.same]
  · right
    refine ⟨by omega, by omega, ?_, ?_⟩
    · have e4 : L + k + 8 - 1 = L + k + 7 := by omega
      simp only [wordAt, e4, hmid (L + k + 7) (by omega) (by omega)]
      decide
    · have := wholeWordAt_last out v (M + k) hv hmo
      exact this
  · intro u hu hup
    have hup1 : u ∉ picked := fun hin => hup (List.mem_append_left _ hin)
    have huv : u ≠ v := fun heq => hup (List.mem_append_right _ (by simp [heq]))
    have hu' : PlainWord u := hplain u hu
    have hMu := h.anchor u hu hup1
    obtain ⟨j, hj⟩ : ∃ j, pos u = M + j := ⟨pos u - M, by omega⟩
    have hau := hanch u hu
    have hwu : wholeWordAt working u (L + j) = true := by
      rw [etr, ← hj]; exact hau.1
    obtain ⟨hlenu, _, _, _⟩ := wholeWordAt_plain working u (L + j) hu' hwu
    obtain ⟨i0, hi0, hi0p⟩ := firstIndex_le_of_match working u (L + j) (by omega) hwu
    have hki := hb4 u hu hup1 i0 hi0
    by_contra hcon
    have hov : M + k = pos u :=
      overlap_at_anchor out v u (M + k) (pos u) hv (hnosp v hb1) hmo hau (by omega) (by omega)
    have hjk : j = k := by omega
    subst hjk
    have hi0e : i0 = L + j := by omega
    subst hi0e
    have hmem : u ∈ l1 ++ v :: l2 := hpool ▸ hu
    rcases List.mem_append.1 hmem with hin | hin
    · have := hl1 u hin hup1 (L + j) hi0
      omega
    · rcases List.mem_cons.1 hin with hin | hin
      · exact huv hin
      · rw [hpool, List.pairwise_append] at hord
        have hpv : pos v < pos u := (List.pairwise_cons.1 hord.2.1).1 u hin
        have hMv := h.anchor v hb1 hb2
        obtain ⟨jv, hjv⟩ : ∃ jv, pos v = M + jv := ⟨pos v - M, by omega⟩
        have hwv : wholeWordAt working v (L + jv) = true := by
          rw [etr, ← hjv]; exact (hanch v hb1).1
        have hge : ¬ L + jv < L + j := by
          intro hlt
          have := hmin (L + jv) (Nat.zero_le _) hlt
          rw [hwv] at this
          cases this
        omega

/-- When the inner `for` loop finds no word, every pool word is picked. -/
theorem fillInv_exhausted (out : List Char) (pos : List Char → Nat) (pool : List (List Char))
    (hplain : ∀ w ∈ pool, PlainWord w) (hanch : ∀ w ∈ pool, AnchorOk out w (pos w))
    (picked : List (List Char)) (working : List Char) (L M : Nat)
    (h : FillInv out pos pool picked working L M) (hb : findBest pool picked working = none) :
    ∀ w ∈ pool, w ∈ picked := by
  intro w hw
  by_contra hwp
  have hok := findBest_ok pool picked working
  rw [hb] at hok
  have hnone := hok w hw hwp
  have hMw := h.anchor w hw hwp
  obtain ⟨j, hj⟩ : ∃ j, pos w = M + j := ⟨pos w - M, by omega⟩
  have hww : wholeWordAt working w (L + j) = true := by
    rw [wholeWordAt_of_drop_eq working out w L M h.same h.edge j, ← hj]
    exact (hanch w hw).1
  obtain ⟨hlen, _, _, _⟩ := wholeWordAt_plain working w (L + j) (hplain w hw) hww
  obtain ⟨i0, hi0, _⟩ := firstIndex_le_of_match working w (L + j) (by omega) hww
  rw [hnone] at hi0
  cases hi0

theorem clozeLoop_exit (pool : List (List Char)) : ∀ (fuel : Nat) (picked : List (List Char))
    (working : List Char),
    (clozeLoop pool fuel picked working).1.length = picked.length + fuel ∨
    findBest pool (clozeLoop pool fuel picked working).1 (clozeLoop pool fuel picked working).2 =
      none := by
  intro fuel
  induction fuel with
  | zero => intro picked working; left; simp [clozeLoop]
  | succ n ih =>
    intro picked working
    cases hb : findBest pool picked working with
    | none =>
      right
      simp only [clozeLoop, hb]
    | some b =>
      simp only [clozeLoop, hb]
      rcases ih (picked ++ [b.1]) (replaceOnceWholeWord working b.1 blankMarker) with h | h
      · left
        rw [h]
        simp only [List.length_append, List.length_singleton]
        omega
      · right
        exact h

/-- The number of words picked by the `while` loop, for a pool of plain words each of which
has a token occurrence in the text, the occurrences being in the order of the pool. -/
theorem clozeLoop_count (out : List Char) (pos : List Char → Nat) (pool : List (List Char))
    (hnd : pool.Nodup)
    (hplain : ∀ w ∈ pool, PlainWord w) (hnosp : ∀ w ∈ pool, ∀ c ∈ w, isSpace c = false)
    (hanch : ∀ w ∈ pool, AnchorOk out w (pos w))
    (hord : pool.Pairwise (fun v w => pos v < pos w)) (hu : '_' ∉ out) (fuel : Nat) :
    (clozeLoop pool fuel [] out).1.length = min fuel pool.length := by
  have hinv : ∃ L M, FillInv out pos pool (clozeLoop pool fuel [] out).1
      (clozeLoop pool fuel [] out).2 L M := by
    refine clozeLoop_induct pool (fun picked working => ∃ L M, FillInv out pos pool picked working L M)
      ?_ fuel [] out ⟨0, 0, fillInv_init out pos pool hu⟩
    intro picked working b ⟨L, M, hi⟩ hb
    exact ⟨_, _, fillInv_step out pos pool hplain hnosp hanch hord picked working L M b hi hb⟩
  obtain ⟨L, M, hfill⟩ := hinv
  obtain ⟨hsub, hpnd⟩ := clozeLoop_picked pool fuel out
  have hle := clozeLoop_length_le pool fuel [] out
  simp only [List.length_nil, Nat.zero_add] at hle
  have hle2 : (clozeLoop pool fuel [] out).1.length ≤ pool.length :=
    (List.subperm_of_subset hpnd hsub).length_le
  rcases clozeLoop_exit pool fuel [] out with h | h
  · simp only [List.length_nil, Nat.zero_add] at h
    omega
  · have hall := fillInv_exhausted out pos pool hplain hanch _ _ L M hfill h
    have hge : pool.length ≤ (clozeLoop pool fuel [] out).1.length :=
      (List.subperm_of_subset hnd hall).length_le
    omega

/-! ## The pieces of a text and their positions -/

theorem piecesAt_snd (l : List Char) : ∀ (cur : List Char) (st : Nat) (b : Bool) (i : Nat),
    (piecesAt cur st b i l).map Prod.snd = splitSpacesAux cur b l := by
  induction l with
  | nil => intro cur st b i; rfl
  | cons c cs ih =>
    intro cur st b i
    by_cases hc : isSpace c = true
    · cases b
      · simp only [piecesAt, splitSpacesAux, hc, if_true, Bool.false_eq_true, if_false,
          List.map_cons, ih]
      · simp only [piecesAt, splitSpacesAux, hc, if_true, ih]
    · simp only [piecesAt, splitSpacesAux, hc, Bool.false_eq_true, if_false, ih]

theorem piecesAt_spec (l : List Char) : ∀ (a cur : List Char) (b : Bool),
    (b = true → cur = []) → (∀ c ∈ cur, isSpace c = false) → EndsWithSpace a →
    (∀ x ∈ piecesAt cur a.length b (a.length + cur.length) l,
      PieceAt (a ++ cur.reverse ++ l) x.1 x.2 ∧ a.length ≤ x.1) ∧
    (piecesAt cur a.length b (a.length + cur.length) l).Pairwise
      (fun x y => x.1 + x.2.length < y.1) := by
  induction l with
  | nil =>
    intro a cur b _ hcur ha
    simp only [piecesAt, List.mem_singleton, List.pairwise_singleton, and_true]
    intro x hx
    subst hx
    refine ⟨⟨a, [], rfl, rfl, ha, by simp, ?_⟩, le_refl _⟩
    intro c hc
    exact hcur c (List.mem_reverse.1 hc)
  | cons c cs ih =>
    intro a cur b hb hcur ha
    by_cases hc : isSpace c = true
    · have hnew : EndsWithSpace (a ++ cur.reverse ++ [c]) := Or.inr ⟨c, by simp, hc⟩
      have hlen : (a ++ cur.reverse ++ [c]).length = a.length + cur.length + 1 := by
        simp only [List.length_append, List.length_reverse, List.length_singleton]
      have hih := ih (a ++ cur.reverse ++ [c]) [] true (fun _ => rfl) (by simp) hnew
      simp only [List.reverse_nil, List.append_nil, List.length_nil, Nat.add_zero, hlen] at hih
      have hfull : a ++ cur.reverse ++ [c] ++ cs = a ++ cur.reverse ++ c :: cs := by simp
      rw [hfull] at hih
      obtain ⟨h1, h2⟩ := hih
      cases b
      · have e : piecesAt cur a.length false (a.length + cur.length) (c :: cs) =
            (a.length, cur.reverse) :: piecesAt [] (a.length + cur.length + 1) true
              (a.length + cur.length + 1) cs := by
          simp only [piecesAt, hc, if_true, Bool.false_eq_true, if_false]
        rw [e]
        refine ⟨?_, ?_⟩
        · intro x hx
          rcases List.mem_cons.1 hx with hx | hx
          · subst hx
            refine ⟨⟨a, c :: cs, by simp, rfl, ha, ?_, ?_⟩, le_refl _⟩
            · intro d hd
              simp only [List.head?_cons, Option.some.injEq] at hd
              subst hd; exact hc
            · intro d hd
              exact hcur d (List.mem_reverse.1 hd)
          · exact ⟨(h1 x hx).1, by have := (h1 x hx).2; omega⟩
        · rw [List.pairwise_cons]
          refine ⟨?_, h2⟩
          intro y hy
          have := (h1 y hy).2
          simp only [List.length_reverse]
          omega
      · have hcur0 : cur = [] := hb rfl
        subst hcur0
        have e : piecesAt [] a.length true (a.length + ([] : List Char).length) (c :: cs) =
            piecesAt [] (a.length + 0 + 1) true (a.length + 0 + 1) cs := by
          simp only [piecesAt, hc, if_true, List.length_nil, Nat.add_zero]
        rw [e]
        simp only [List.length_nil] at h1 h2
        exact ⟨fun x hx => ⟨(h1 x hx).1, by have := (h1 x hx).2; omega⟩, h2⟩
    · have hcf : isSpace c = false := by simpa using hc
      have hih := ih a (c :: cur) false (fun h => by cases h) (by
        intro d hd
        rcases List.mem_cons.1 hd with hd | hd
        · subst hd; exact hcf
        · exact hcur d hd) ha
      have hfull : a ++ (c :: cur).reverse ++ cs = a ++ cur.reverse ++ c :: cs := by simp
      have hl : a.length + (c :: cur).length = a.length + cur.length + 1 := by simp; omega
      rw [hfull, hl] at hih
      have e : piecesAt cur a.length b (a.length + cur.length) (c :: cs) =
          piecesAt (c :: cur) a.length false (a.length + cur.length + 1) cs := by
        simp only [piecesAt, hc, Bool.false_eq_true, if_false]
      rw [e]
      exact hih

theorem pieces_of_text (out : List Char) :
    (∀ x ∈ piecesAt [] 0 false 0 out, PieceAt out x.1 x.2) ∧
    (piecesAt [] 0 false 0 out).Pairwise (fun x y => x.1 + x.2.length < y.1) ∧
    (piecesAt [] 0 false 0 out).map Prod.snd = splitSpaces out := by
  have h := piecesAt_spec out [] [] false (fun h => by cases h) (by simp) (Or.inl rfl)
  simp only [List.length_nil, Nat.add_zero, List.reverse_nil, List.append_nil,
    List.nil_append] at h
  exact ⟨fun x hx => (h.1 x hx).1, h.2, piecesAt_snd out [] 0 false 0⟩

/-! ## Token occurrences are whole-word occurrences -/

theorem isWordChar_of_isSpace (c : Char) (h : isSpace c = true) : isWordChar c = false := by
  have hc : c = Char.ofNat c.toNat := (Char.ofNat_toNat c).symm
  simp only [isSpace, Bool.or_eq_true, beq_iff_eq, Bool.and_eq_true, decide_eq_true_eq] at h
  generalize c.toNat = n at h hc
  subst hc
  rcases h with
    ((((((((((((((h | h) | h) | h) | h) | h) | h) | h) | h) | h) | h) | h) | h) | h) | h)
  all_goals first
    | (subst h; decide)
    | (obtain ⟨h1, h2⟩ := h; interval_cases n <;> decide)

theorem wordAt_append_length (x rest : List Char) :
    wordAt (x ++ rest) x.length = match rest.head? with
      | some c => isWordChar c
      | none => false := by
  cases rest with
  | nil => simp [wordAt]
  | cons c cs =>
    have h : (x ++ c :: cs)[x.length]? = some c := by
      rw [List.getElem?_append_right (le_refl _)]
      simp
    simp only [wordAt, h, List.head?_cons]

theorem wordAt_append_last (x rest : List Char) (c : Char) (h : x.getLast? = some c) :
    wordAt (x ++ rest) (x.length - 1) = isWordChar c := by
  have hne : x ≠ [] := by
    intro e; subst e; simp at h
  have hlt : x.length - 1 < x.length := by
    have := List.length_pos.2 hne
    omega
  rw [List.getLast?_eq_getElem?] at h
  simp only [wordAt, List.getElem?_append_left hlt, h]

theorem wholeWordAt_of_decomp (x core y w : List Char) (hne : core ≠ [])
    (hw : w = core.map Char.toLower)
    (hh : ∀ c, core.head? = some c → isWordChar c = true)
    (hl : ∀ c, core.getLast? = some c → isWordChar c = true)
    (hx : ∀ c, x.getLast? = some c → isWordChar c = false)
    (hy : ∀ c, y.head? = some c → isWordChar c = false) :
    wholeWordAt (x ++ core ++ y) w x.length = true := by
  have hlen : w.length = core.length := by rw [hw, List.length_map]
  have hpos : 0 < core.length := List.length_pos.2 hne
  have hb1 : isBoundary (x ++ core ++ y) x.length = true := by
    have h1 : wordAt (x ++ core ++ y) x.length = true := by
      rw [List.append_assoc, wordAt_append_length]
      cases core with
      | nil => exact absurd rfl hne
      | cons c cs => exact hh c rfl
    have h0 : (x.length != 0 && wordAt (x ++ core ++ y) (x.length - 1)) = false := by
      cases hxl : x.getLast? with
      | none =>
        have : x = [] := by simpa using hxl
        subst this
        rfl
      | some c =>
        rw [List.append_assoc, wordAt_append_last x _ c hxl, hx c hxl, Bool.and_false]
    rw [isBoundary, h0, h1]
    rfl
  have hci : ciMatchAt (x ++ core ++ y) w x.length = true := by
    have hd : ((x ++ core ++ y).drop x.length).take w.length = core := by
      rw [List.append_assoc, List.drop_left, hlen, List.take_left]
    rw [ciMatchAt, hd, hw, List.map_map]
    simp only [beq_iff_eq]
    apply List.map_congr_left
    intro c _
    exact (toLower_toLower c).symm
  have hb2 : isBoundary (x ++ core ++ y) (x.length + w.length) = true := by
    have e : x.length + w.length = (x ++ core).length := by
      rw [List.length_append, hlen]
    have h1 : wordAt (x ++ core ++ y) (x.length + w.length) = false := by
      rw [e, wordAt_append_length]
      cases y with
      | nil => rfl
      | cons c cs => exact hy c rfl
    have h0 : wordAt (x ++ core ++ y) (x.length + w.length - 1) = true := by
      obtain ⟨c, hc⟩ : ∃ c, (x ++ core).getLast? = some c := by
        rw [List.getLast?_append_of_ne_nil _ hne]
        exact ⟨core.getLast hne, List.getLast?_eq_getLast _ hne⟩
      rw [e, wordAt_append_last (x ++ core) y c hc]
      rw [List.getLast?_append_of_ne_nil _ hne] at hc
      exact hl c hc
    have hnz : (x.length + w.length != 0) = true := by
      simp only [bne_iff_ne, ne_eq]
      omega
    rw [isBoundary, hnz, h0, h1]
    rfl
  rw [wholeWordAt, hb1, hci, hb2]
  rfl

theorem isWordChar_of_isEdgeJunk (c : Char) (h : isEdgeJunk c = true) : isWordChar c = false := by
  simp only [isEdgeJunk, Bool.not_eq_true', Bool.or_eq_false_iff] at h
  exact h.1

theorem rdropWhile_append_rest (f : Char → Bool) (l : List Char) :
    ∃ rest, l = List.rdropWhile f l ++ rest ∧ ∀ c ∈ rest, f c = true := by
  refine ⟨(l.reverse.takeWhile f).reverse, ?_, ?_⟩
  · rw [List.rdropWhile, ← List.reverse_append, List.takeWhile_append_dropWhile,
      List.reverse_reverse]
  · intro c hc
    exact List.mem_takeWhile_imp (List.mem_reverse.1 hc)

/-- A piece of the text splits into leading junk, the token and trailing junk. -/
theorem piece_decomp (p : List Char) (hns : ∀ c ∈ p, isSpace c = false) :
    ∃ j1 core j2, p = j1 ++ core ++ j2 ∧ j1.length = leadJunk p ∧
      normalizeWord p = core.map Char.toLower ∧
      (∀ c ∈ j1, isEdgeJunk c = true) ∧ (∀ c ∈ j2, isEdgeJunk c = true) ∧
      ∀ c ∈ core, isSpace c = false := by
  have ht : trim p = p :=
    trim_eq_self p (fun c hc => hns c (List.mem_of_mem_head? hc))
      (fun c hc => hns c (List.mem_of_mem_getLast? hc))
  obtain ⟨j2, hj2, hjunk2⟩ := rdropWhile_append_rest isEdgeJunk (p.dropWhile isEdgeJunk)
  refine ⟨p.takeWhile isEdgeJunk, List.rdropWhile isEdgeJunk (p.dropWhile isEdgeJunk), j2,
    ?_, rfl, ?_, ?_, hjunk2, ?_⟩
  · rw [List.append_assoc, ← hj2, List.takeWhile_append_dropWhile]
  · rw [normalizeWord, ht]
    rfl
  · intro c hc
    exact List.mem_takeWhile_imp hc
  · intro c hc
    have h1 := (List.rdropWhile_prefix isEdgeJunk (p.dropWhile isEdgeJunk)).subset hc
    exact hns c ((List.dropWhile_sublist isEdgeJunk).subset h1)

/-- The token of a piece of the text occurs as a whole word at its anchor. -/
theorem anchorOk_of_piece (out p : List Char) (q : Nat) (hp : PieceAt out q p)
    (hw : PlainWord (normalizeWord p)) :
    AnchorOk out (normalizeWord p) (q + leadJunk p) ∧
      ∀ c ∈ normalizeWord p, isSpace c = false := by
  obtain ⟨a, b, hfull, hlen, ha, hb, hns⟩ := hp
  obtain ⟨j1, core, j2, hpd, hj1, hnw, hjunk1, hjunk2, hcore⟩ := piece_decomp p hns
  obtain ⟨hne, _, hhead, hlast⟩ := hw
  rw [hnw] at hne hhead hlast ⊢
  rw [← hj1]
  have hcne : core ≠ [] := by
    intro e; subst e; exact hne rfl
  have hout : out = (a ++ j1) ++ core ++ (j2 ++ b) := by
    rw [hfull, hpd]
    simp only [List.append_assoc]
  have hxlen : (a ++ j1).length = q + j1.length := by rw [List.length_append, hlen]
  refine ⟨⟨?_, a.length, by omega, ?_, ?_⟩, ?_⟩
  · rw [← hxlen, hout]
    apply wholeWordAt_of_decomp _ _ _ _ hcne rfl
    · intro c hc
      cases core with
      | nil => exact absurd rfl hcne
      | cons d ds =>
        simp only [List.head?_cons, Option.some.injEq] at hc
        subst hc
        rw [← isWordChar_toLower]
        exact hhead _ rfl
    · intro c hc
      rw [← isWordChar_toLower]
      apply hlast
      rw [List.getLast?_map, hc]
      rfl
    · intro c hc
      by_cases hj : j1 = []
      · subst hj
        rw [List.append_nil] at hc
        rcases ha with ha | ⟨d, hd, hsp⟩
        · subst ha; simp at hc
        · rw [hd] at hc
          simp only [Option.some.injEq] at hc
          subst hc
          exact isWordChar_of_isSpace d hsp
      · rw [List.getLast?_append_of_ne_nil _ hj] at hc
        exact isWordChar_of_isEdgeJunk c (hjunk1 c (List.mem_of_mem_getLast? hc))
    · intro c hc
      cases j2 with
      | nil =>
        rw [List.nil_append] at hc
        exact isWordChar_of_isSpace c (hb c hc)
      | cons d ds =>
        simp only [List.cons_append, List.head?_cons, Option.some.injEq] at hc
        subst hc
        exact isWordChar_of_isEdgeJunk d (hjunk2 d (List.mem_cons_self _ _))
  · rcases ha with ha | ⟨d, hd, hsp⟩
    · left; subst ha; rfl
    · right
      refine ⟨d, ?_, hsp⟩
      have hane : a ≠ [] := by
        intro e; subst e; simp at hd
      have hlt : a.length - 1 < a.length := by
        have := List.length_pos.2 hane
        omega
      rw [hfull, List.append_assoc, List.getElem?_append_left hlt, ← List.getLast?_eq_getElem?]
      exact hd
  · intro k hk1 hk2
    have hk : k - a.length < j1.length := by omega
    have hget : out[k]? = some (j1[k - a.length]) := by
      rw [hfull, hpd]
      simp only [List.append_assoc]
      rw [List.getElem?_append_right hk1, List.getElem?_append_left hk,
        List.getElem?_eq_getElem hk]
    simp only [wordAt, hget]
    exact isWordChar_of_isEdgeJunk _ (hjunk1 _ (List.getElem_mem hk))
  · intro c hc
    obtain ⟨d, hd, rfl⟩ := List.mem_map.1 hc
    rw [isSpace_toLower]
    exact hcore d hd

/-! ## The anchors of the pool words -/

theorem tokenAnchors_fst (text : List Char) :
    (tokenAnchors text).map Prod.fst = tokenize text := by
  have h3 := (pieces_of_text (normalizeSpaces text)).2.2
  simp only [tokenAnchors, tokenize, ← h3, List.map_map]
  generalize piecesAt [] 0 false 0 (normalizeSpaces text) = l
  induction l with
  | nil => rfl
  | cons x xs ih =>
    simp only [List.map_cons, List.filter_cons, Function.comp_apply]
    by_cases hx : (normalizeWord x.2).isEmpty = true
    · simp only [hx, Bool.not_true, Bool.false_eq_true, if_false, ih]
    · simp only [Bool.not_eq_true] at hx
      simp only [hx, Bool.not_false, if_true, List.map_cons, ih]

theorem leadJunk_le (p : List Char) : leadJunk p ≤ p.length :=
  (List.takeWhile_sublist isEdgeJunk).length_le

theorem tokenAnchors_pairwise (text : List Char) :
    (tokenAnchors text).Pairwise (fun x y => x.2 < y.2) := by
  have h2 := (pieces_of_text (normalizeSpaces text)).2.1
  refine List.Pairwise.sublist (List.filter_sublist _) ?_
  rw [List.pairwise_map]
  refine h2.imp ?_
  intro x y hxy
  have := leadJunk_le x.2
  show x.1 + leadJunk x.2 < y.1 + leadJunk y.2
  omega

theorem mem_tokenAnchors (text : List Char) (y : List Char × Nat) (hy : y ∈ tokenAnchors text) :
    ∃ p q, PieceAt (normalizeSpaces text) q p ∧ y = (normalizeWord p, q + leadJunk p) := by
  have h1 := (pieces_of_text (normalizeSpaces text)).1
  simp only [tokenAnchors, List.mem_filter, List.mem_map] at hy
  obtain ⟨⟨x, hx, rfl⟩, _⟩ := hy
  exact ⟨x.2, x.1, h1 x hx, rfl⟩

theorem anchorIn_cons_ne (x : List Char × Nat) (tp : List (List Char × Nat)) (w : List Char)
    (h : x.1 ≠ w) : anchorIn (x :: tp) w = anchorIn tp w := by
  have : (x.1 == w) = false := by simpa using h
  simp only [anchorIn, List.find?_cons, this]

theorem anchorIn_cons_self (x : List Char × Nat) (tp : List (List Char × Nat)) :
    anchorIn (x :: tp) x.1 = x.2 := by
  simp only [anchorIn, List.find?_cons, beq_self_eq_true]

theorem anchorIn_mem (tp : List (List Char × Nat)) (w : List Char)
    (h : w ∈ tp.map Prod.fst) : (w, anchorIn tp w) ∈ tp := by
  induction tp with
  | nil => simp at h
  | cons x xs ih =>
    by_cases hx : x.1 = w
    · subst hx
      rw [anchorIn_cons_self]
      exact List.mem_cons_self _ _
    · rw [anchorIn_cons_ne x xs w hx]
      simp only [List.map_cons, List.mem_cons] at h
      rcases h with h | h
      · exact absurd h.symm hx
      · exact List.mem_cons_of_mem _ (ih h)

/-- The first occurrences of the distinct words of a list of positioned words are in the order
in which the words are first met. -/
theorem anchorIn_sorted (tp : List (List Char × Nat)) (h : tp.Pairwise (fun x y => x.2 < y.2)) :
    ∀ seen : List (List Char),
      (uniqueAux seen (tp.map Prod.fst)).Pairwise (fun v w => anchorIn tp v < anchorIn tp w) := by
  induction tp with
  | nil => intro seen; simp [uniqueAux]
  | cons x xs ih =>
    intro seen
    rw [List.pairwise_cons] at h
    have hrest : ∀ seen2 : List (List Char), (x.1 ∈ seen2) →
        (uniqueAux seen2 (xs.map Prod.fst)).Pairwise
          (fun v w => anchorIn (x :: xs) v < anchorIn (x :: xs) w) := by
      intro seen2 hx
      refine (ih h.2 seen2).imp_of_mem ?_
      intro v w hv hw hvw
      have hv2 : x.1 ≠ v := by
        intro e
        exact ((mem_uniqueAux _ _ _).1 hv).2 (e ▸ hx)
      have hw2 : x.1 ≠ w := by
        intro e
        exact ((mem_uniqueAux _ _ _).1 hw).2 (e ▸ hx)
      rw [anchorIn_cons_ne x xs v hv2, anchorIn_cons_ne x xs w hw2]
      exact hvw
    by_cases hx : x.1 ∈ seen
    · simp only [List.map_cons, uniqueAux, hx, if_true]
      exact hrest seen hx
    · simp only [List.map_cons, uniqueAux, hx, if_false]
      rw [List.pairwise_cons]
      refine ⟨?_, hrest (x.1 :: seen) (List.mem_cons_self _ _)⟩
      intro w hw
      obtain ⟨hw1, hw2⟩ := (mem_uniqueAux _ _ _).1 hw
      have hne : x.1 ≠ w := by
        intro e
        exact hw2 (e ▸ List.mem_cons_self _ _)
      rw [anchorIn_cons_self, anchorIn_cons_ne x xs w hne]
      exact h.1 _ (anchorIn_mem xs w hw1)

/-- The pool words of a normalised text stand at their anchors, and the anchors are in the order
of the pool. -/
theorem pool_anchors (s : List Char) (hu : '_' ∉ s) (hq : '\'' ∉ s) :
    (∀ w ∈ eligibleWords (normalizeSpaces s),
      AnchorOk (normalizeSpaces s) w (anchorOf (normalizeSpaces s) w) ∧
        ∀ c ∈ w, isSpace c = false) ∧
    (eligibleWords (normalizeSpaces s)).Pairwise
      (fun v w => anchorOf (normalizeSpaces s) v < anchorOf (normalizeSpaces s) w) := by
  constructor
  · intro w hw
    have hpl := plainWord_of_eligible s w hu hq hw
    have ht : w ∈ tokenize (normalizeSpaces s) := ((mem_eligibleWords _ _).1 hw).1
    rw [← tokenAnchors_fst] at ht
    obtain ⟨p, q, hp, he⟩ := mem_tokenAnchors _ _ (anchorIn_mem _ w ht)
    rw [normalizeSpaces_idem] at hp
    simp only [Prod.mk.injEq] at he
    obtain ⟨e1, e2⟩ := he
    subst e1
    have := anchorOk_of_piece (normalizeSpaces s) p q hp hpl
    rw [anchorOf, e2]
    exact this
  · unfold eligibleWords uniqueWordsInText
    refine List.Pairwise.sublist ((List.filter_sublist _).trans ((List.filter_sublist _).trans
      (List.filter_sublist _))) ?_
    have := anchorIn_sorted (tokenAnchors (normalizeSpaces s))
      (tokenAnchors_pairwise (normalizeSpaces s)) []
    rw [tokenAnchors_fst] at this
    exact this

theorem eligibleWords_normalizeSpaces (s : List Char) :
    eligibleWords (normalizeSpaces s) = eligibleWords s := by
  simp only [eligibleWords, uniqueWordsInText, tokenize_normalizeSpaces]

/-- The number of answers for a snippet without underscores and apostrophes. -/
theorem buildCloze_count_of_plain (snippet : List Char) (blankCount : Nat)
    (hu : '_' ∉ snippet) (hq : '\'' ∉ snippet) :
    (buildClozeFromSnippet snippet blankCount).answers.length =
      min blankCount (eligibleWords snippet).length := by
  rw [← eligibleWords_normalizeSpaces]
  unfold buildClozeFromSnippet
  by_cases he : (normalizeSpaces snippet).isEmpty = true
  · have h0 : normalizeSpaces snippet = [] := by simpa using he
    have h1 : eligibleWords ([] : List Char) = [] := by decide
    rw [h0, h1]
    simp only [List.isEmpty_nil, if_true, List.length_nil, Nat.min_zero]
  · simp only [he, Bool.false_eq_true, if_false]
    have hinv := clozeLoop_inv (eligibleWords (normalizeSpaces snippet))
      (fun w hw => plainWord_of_eligible snippet w hu hq hw) blankCount (normalizeSpaces snippet)
      (normalizeSpaces_no_underscore snippet hu)
    obtain ⟨ha, hord⟩ := pool_anchors snippet hu hq
    rw [hinv.count, List.take_length]
    exact clozeLoop_count (normalizeSpaces snippet) (anchorOf (normalizeSpaces snippet))
      (eligibleWords (normalizeSpaces snippet)) (nodup_eligibleWords _)
      (fun w hw => plainWord_of_eligible snippet w hu hq hw) (fun w hw => (ha w hw).2)
      (fun w hw => (ha w hw).1) hord (normalizeSpaces_no_underscore snippet hu) blankCount

/-- C29. For a snippet made only of ASCII letters, digits, white space and the punctuation
`. , ! ?` (so without apostrophes, hyphens and underscores) and every `blankCount`,
`buildClozeFromSnippet`, whose selection loop runs at most `blankCount` rounds, returns exactly
`min blankCount n` answers, where `n` is the number of eligible pool words of the snippet:
every eligible pool word can be placed, and the loop stops early only when the pool is
exhausted. -/
theorem buildCloze_answer_count (snippet : List Char) (blankCount : Nat)
    (h : ∀ c ∈ snippet, c.isAlphanum = true ∨ isSpace c = true ∨ c = '.' ∨ c = ',' ∨ c = '!' ∨
      c = '?') :
    (buildClozeFromSnippet snippet blankCount).answers.length =
      min blankCount (eligibleWords snippet).length := by
  have hu : '_' ∉ snippet := by
    intro hin
    rcases h _ hin with h | h | h | h | h | h <;> exact absurd h (by decide)
  have hq : '\'' ∉ snippet := by
    intro hin
    rcases h _ hin with h | h | h | h | h | h <;> exact absurd h (by decide)
  exact buildCloze_count_of_plain snippet blankCount hu hq

/-- Witness of `buildCloze_answer_count`: a snippet with five eligible pool words (`seven`,
`birds`, `sang`, `flew`, `away`), two of them repeated, and three blanks. -/
theorem buildCloze_answer_count_witness :
    (∀ c ∈ "Seven birds sang, and seven birds flew away!".toList,
      c.isAlphanum = true ∨ isSpace c = true ∨ c = '.' ∨ c = ',' ∨ c = '!' ∨ c = '?') ∧
    (buildClozeFromSnippet "Seven birds sang, and seven birds flew away!".toList 3).answers.length =
      min 3 (eligibleWords "Seven birds sang, and seven birds flew away!".toList).length :=
  ⟨by decide,
    buildCloze_answer_count "Seven birds sang, and seven birds flew away!".toList 3 (by decide)⟩

end Dictation

/-! # The modes written by a passage event, and the order of arrival -/

namespace Materials

open Dictation

theorem dictationModeInv_applyEvents (level lesson pattern : List Char) (es : List Event) :
    ∀ r : Option LessonRecord, DictationModeInv r →
      DictationModeInv (applyEvents level lesson pattern es r) := by
  induction es with
  | nil => intro r h; exact h
  | cons e es ih =>
    intro r h
    exact ih _ (dictationModeInv_reachable.1 level lesson pattern e r h)

theorem modeRecomputed_of_inv (level lesson pattern : List Char) (n : Nat) (kind : FileKind)
    (filePath : List Char) (snap : Option LessonRecord) (hinv : DictationModeInv snap) :
    ModeRecomputed snap (txBody level lesson pattern n kind filePath snap) := by
  obtain ⟨l2, h1, _, h3⟩ := txBody_mode level lesson pattern n kind filePath snap
  refine ⟨l2, h1, ?_, h3 hinv⟩
  have h2 : (txBody level lesson pattern n kind filePath snap).mode =
      some (modeAfter (snap.getD emptyRecord).mode (truthy (touchedPassage n
        (writeField kind filePath) ((snap.getD emptyRecord).passages.getD [])).dictationPath)) :=
    rfl
  rw [h2] at h1
  simp only [Option.some.injEq] at h1
  rw [← h1]
  exact modeAfter_nodup _ _

/-- C18. After any passage event is applied to any record of the collection, the stored modes
are the modes the event starts from (the `mode` array of the record, or `listening` and
`overlapping` when the record has none) together with `dictation` exactly when a non-empty
dictation path is present on some passage of the resulting record; the modes have no
repetition.  The records of the collection are those built from the absent record by a
sequence of classified events, and the documents built by the handler from the empty
collection. -/
theorem mode_recomputed :
    (∀ (level lesson pattern : List Char) (es : List Event) (n : Nat) (kind : FileKind)
        (filePath : List Char),
      ModeRecomputed (applyEvents level lesson pattern es none)
        (txBody level lesson pattern n kind filePath
          (applyEvents level lesson pattern es none))) ∧
    (∀ (filePaths : List (List Char)) (docId level lesson pattern : List Char) (n : Nat)
        (kind : FileKind) (filePath : List Char),
      ModeRecomputed (handleUploads filePaths emptyStore docId)
        (txBody level lesson pattern n kind filePath
          (handleUploads filePaths emptyStore docId))) := by
  constructor
  · intro level lesson pattern es n kind filePath
    apply modeRecomputed_of_inv
    exact dictationModeInv_applyEvents level lesson pattern es none
      (fun q hq => by simp [passagesOf, emptyRecord] at hq)
  · intro filePaths docId level lesson pattern n kind filePath
    apply modeRecomputed_of_inv
    exact dictationModeInv_reachable.2 filePaths docId

/-! ## Order of arrival, with the lesson-level dictation file -/

theorem passagePart_append_passage (pre : List Event) (n : Nat) (k : FileKind) (p : List Char) :
    passagePart (pre ++ [.passageFile n k p]) = passagePart pre ++ [⟨n, k, p⟩] := by
  simp [passagePart, List.filterMap_append]

theorem passagePart_append_lesson (pre : List Event) (p : List Char) :
    passagePart (pre ++ [.lessonDictation p]) = passagePart pre := by
  simp [passagePart, List.filterMap_append]

theorem lessonPaths_append_passage (pre : List Event) (n : Nat) (k : FileKind) (p : List Char) :
    lessonPaths (pre ++ [.passageFile n k p]) = lessonPaths pre := by
  simp [lessonPaths, List.filterMap_append]

theorem lessonPaths_append_lesson (pre : List Event) (p : List Char) :
    lessonPaths (pre ++ [.lessonDictation p]) = lessonPaths pre ++ [p] := by
  simp [lessonPaths, List.filterMap_append]

theorem lessonFirst_append (pre : List Event) (e : Event) (h : pre ≠ []) :
    lessonFirst (pre ++ [e]) = lessonFirst pre := by
  cases pre with
  | nil => exact absurd rfl h
  | cons x xs => cases x <;> rfl

theorem modeAfter_dictation_only (b : Bool) :
    modeAfter (some [dictationMode]) b = [dictationMode] := by
  cases b <;> decide

theorem modeAfter_full (b : Bool) :
    modeAfter (some (defaultModes ++ [dictationMode])) b = defaultModes ++ [dictationMode] := by
  cases b <;> decide

/-- The document written by a passage event on a record whose passages are those described by
`ps` and whose top-level fields are unset or hold the values of the key. -/
theorem txBody_of_fields (level lesson pattern : List Char) (ps : List PassageEvent)
    (e : PassageEvent) (hc : Compatible (ps ++ [e])) (D : Option LessonRecord)
    (hpass : (D.getD emptyRecord).passages.getD [] = (passageIds ps).map (expectedPassage ps))
    (ht1 : (D.getD emptyRecord).title.getD lesson = lesson)
    (ht2 : (D.getD emptyRecord).level.getD level = level)
    (ht3 : (D.getD emptyRecord).pattern.getD pattern = pattern)
    (ht4 : (D.getD emptyRecord).id.getD (legacyId level lesson pattern) =
      legacyId level lesson pattern)
    (hlesson : ∀ k, (D.getD emptyRecord).lesson = some k → lessonToNumber lesson = some k) :
    txBody level lesson pattern e.passage e.kind e.filePath D =
      { title := some lesson, level := some level, lesson := lessonToNumber lesson,
        pattern := some pattern, id := some (legacyId level lesson pattern),
        mode := some (modeAfter (D.getD emptyRecord).mode
          (truthy (pathOf (ps ++ [e]) e.passage .dictation))),
        passages := some ((passageIds (ps ++ [e])).map (expectedPassage (ps ++ [e]))),
        dictationPath := (D.getD emptyRecord).dictationPath } := by
  have hdict : (expectedPassage (ps ++ [e]) e.passage).dictationPath =
      pathOf (ps ++ [e]) e.passage .dictation := rfl
  unfold txBody
  simp only [hpass, ht1, ht2, ht3, ht4, upsertPassage_expected ps e hc,
    touchedPassage_expected ps e hc, hdict]
  cases hl : (D.getD emptyRecord).lesson with
  | none => rfl
  | some k => rw [hlesson k hl]

theorem describedRecord_mode (level lesson pattern : List Char) (pre : List Event)
    (h : pre ≠ []) :
    ((describedRecord level lesson pattern pre).getD emptyRecord).mode =
      some (describedMode pre) := by
  unfold describedRecord
  by_cases hp : passagePart pre = []
  · simp only [h, hp, if_false, if_true, Option.getD_some]
  · simp only [h, hp, if_false, Option.getD_some]

theorem describedRecord_dictationPath (level lesson pattern : List Char) (pre : List Event) :
    ((describedRecord level lesson pattern pre).getD emptyRecord).dictationPath =
      (lessonPaths pre).getLast? := by
  unfold describedRecord
  by_cases h : pre = []
  · subst h; rfl
  · by_cases hp : passagePart pre = []
    · simp only [h, hp, if_false, if_true, Option.getD_some]
    · simp only [h, hp, if_false, Option.getD_some]

theorem describedRecord_passages (level lesson pattern : List Char) (pre : List Event) :
    ((describedRecord level lesson pattern pre).getD emptyRecord).passages.getD [] =
      (passageIds (passagePart pre)).map (expectedPassage (passagePart pre)) := by
  unfold describedRecord
  by_cases h : pre = []
  · subst h; rfl
  · by_cases hp : passagePart pre = []
    · simp only [h, hp, if_false, if_true, Option.getD_some]
      rfl
    · simp only [h, hp, if_false, Option.getD_some]

theorem describedRecord_top (level lesson pattern : List Char) (pre : List Event) :
    ((describedRecord level lesson pattern pre).getD emptyRecord).title.getD lesson = lesson ∧
    ((describedRecord level lesson pattern pre).getD emptyRecord).level.getD level = level ∧
    ((describedRecord level lesson pattern pre).getD emptyRecord).pattern.getD pattern
      = pattern ∧
    ((describedRecord level lesson pattern pre).getD emptyRecord).id.getD
      (legacyId level lesson pattern) = legacyId level lesson pattern ∧
    ∀ k, ((describedRecord level lesson pattern pre).getD emptyRecord).lesson = some k →
      lessonToNumber lesson = some k := by
  by_cases h : pre = []
  · subst h
    exact ⟨rfl, rfl, rfl, rfl, fun k hk => by cases hk⟩
  · by_cases hp : passagePart pre = []
    · have e : describedRecord level lesson pattern pre = some { emptyRecord with mode := some (describedMode pre), dictationPath := (lessonPaths pre).getLast? } := by
        simp only [describedRecord, h, hp, if_false, if_true]
      rw [e]
      exact ⟨rfl, rfl, rfl, rfl, fun k hk => by cases hk⟩
    · have e : describedRecord level lesson pattern pre = some
          { title := some lesson, level := some level, lesson := lessonToNumber lesson,
            pattern := some pattern, id := some (legacyId level lesson pattern),
            mode := some (describedMode pre),
            passages := some ((passageIds (passagePart pre)).map
              (expectedPassage (passagePart pre))),
            dictationPath := (lessonPaths pre).getLast? } := by
        simp only [describedRecord, h, hp, if_false]
      rw [e]
      exact ⟨rfl, rfl, rfl, rfl, fun k hk => hk⟩

theorem arrayUnion_described (pre : List Event) (p : List Char) (h : pre ≠ []) :
    arrayUnion (some (describedMode pre)) dictationMode =
      describedMode (pre ++ [.lessonDictation p]) := by
  unfold describedMode
  rw [lessonFirst_append _ _ h, passagePart_append_lesson, lessonPaths_append_lesson]
  have he : (!(lessonPaths pre ++ [p]).isEmpty) = true := by
    cases lessonPaths pre <;> rfl
  rw [he, Bool.or_true]
  cases lessonFirst pre
  · cases (hasDictation (passagePart pre) || !(lessonPaths pre).isEmpty) <;> decide
  · simp only [if_true]
    decide

theorem modeAfter_described (level lesson pattern : List Char) (pre : List Event) (n : Nat)
    (k : FileKind) (p : List Char)
    (hc : Compatible (passagePart pre ++ [(⟨n, k, p⟩ : PassageEvent)])) :
    modeAfter ((describedRecord level lesson pattern pre).getD emptyRecord).mode
        (truthy (pathOf (passagePart pre ++ [(⟨n, k, p⟩ : PassageEvent)]) n .dictation)) =
      describedMode (pre ++ [.passageFile n k p]) := by
  by_cases h : pre = []
  · subst h
    refine (modeAfter_expected [] ⟨n, k, p⟩ hc none rfl).trans ?_
    have e1 : passagePart ([] ++ [Event.passageFile n k p]) = [⟨n, k, p⟩] := rfl
    have e2 : lessonPaths ([] ++ [Event.passageFile n k p]) = [] := rfl
    have e3 : lessonFirst ([] ++ [Event.passageFile n k p]) = false := rfl
    unfold describedMode expectedMode
    rw [e1, e2, e3]
    simp only [Bool.false_eq_true, if_false, List.isEmpty_nil, Bool.not_true, Bool.or_false,
      List.nil_append]
  · rw [describedRecord_mode level lesson pattern pre h]
    unfold describedMode
    rw [lessonFirst_append _ _ h, passagePart_append_passage, lessonPaths_append_passage]
    cases lessonFirst pre with
    | true => exact modeAfter_dictation_only _
    | false =>
      simp only [Bool.false_eq_true, if_false]
      cases hF : (hasDictation (passagePart pre) || !(lessonPaths pre).isEmpty) with
      | true =>
        have hF2 : (hasDictation (passagePart pre ++ [(⟨n, k, p⟩ : PassageEvent)]) ||
            !(lessonPaths pre).isEmpty) = true := by
          rw [hasDictation_append]
          simp only [Bool.or_eq_true] at hF ⊢
          rcases hF with hF | hF
          · exact Or.inl (Or.inl hF)
          · exact Or.inr hF
        rw [hF2]
        exact modeAfter_full _
      | false =>
        simp only [Bool.or_eq_false_iff] at hF
        obtain ⟨hF1, hF2⟩ := hF
        have hm : (some (defaultModes ++ (if false = true then [dictationMode] else []))).getD
            defaultModes = expectedMode (passagePart pre) := by
          simp [expectedMode, hF1]
        have := modeAfter_expected (passagePart pre) ⟨n, k, p⟩ hc _ hm
        rw [hF2, Bool.or_false]
        exact this

/-- One event on the record described by `pre` gives the record described by `pre ++ [e]`. -/
theorem applyEvent_described (level lesson pattern : List Char) (pre : List Event) (e : Event)
    (hc : Compatible (passagePart (pre ++ [e]))) :
    applyEvent level lesson pattern e (describedRecord level lesson pattern pre) =
      describedRecord level lesson pattern (pre ++ [e]) := by
  have hne : pre ++ [e] ≠ [] := by simp
  cases e with
  | lessonDictation p =>
    have hlast : (lessonPaths (pre ++ [.lessonDictation p])).getLast? = some p := by
      rw [lessonPaths_append_lesson]; simp
    by_cases h : pre = []
    · subst h
      rfl
    · have hm := arrayUnion_described pre p h
      have hmode := describedRecord_mode level lesson pattern pre h
      simp only [applyEvent, setLessonDictation, hmode, hm]
      unfold describedRecord
      rw [hlast, passagePart_append_lesson]
      by_cases hp : passagePart pre = []
      · simp only [h, hne, hp, if_false, if_true, Option.getD_some]
      · simp only [h, hne, hp, if_false, Option.getD_some]
  | passageFile n k p =>
    rw [passagePart_append_passage] at hc
    obtain ⟨t1, t2, t3, t4, t5⟩ := describedRecord_top level lesson pattern pre
    have hx := txBody_of_fields level lesson pattern (passagePart pre) ⟨n, k, p⟩ hc
      (describedRecord level lesson pattern pre)
      (describedRecord_passages level lesson pattern pre) t1 t2 t3 t4 t5
    simp only at hx
    rw [modeAfter_described level lesson pattern pre n k p hc,
      describedRecord_dictationPath] at hx
    simp only [applyEvent, hx]
    have hpp : passagePart (pre ++ [.passageFile n k p]) ≠ [] := by
      rw [passagePart_append_passage]; simp
    conv_rhs => unfold describedRecord
    simp only [hne, hpp, if_false]
    rw [passagePart_append_passage, lessonPaths_append_passage]

/-- From the absent record, classified events whose passage-file events are compatible build
the record that `describedRecord` describes. -/
theorem applyEvents_eq_described (level lesson pattern : List Char) (es : List Event)
    (hc : Compatible (passagePart es)) :
    applyEvents level lesson pattern es none = describedRecord level lesson pattern es := by
  induction es using List.reverseRecOn with
  | nil => rfl
  | append_singleton pre e ih =>
    have hpre : Compatible (passagePart pre) := by
      cases e with
      | lessonDictation p => rwa [passagePart_append_lesson] at hc
      | passageFile n k p =>
        rw [passagePart_append_passage] at hc
        exact hc.of_append_left
    rw [applyEvents_append, ih hpre]
    simp only [applyEvents, List.foldl_cons, List.foldl_nil]
    exact applyEvent_described level lesson pattern pre e hc

theorem getLast?_eq_of_perm (l1 l2 : List (List Char)) (hp : l1.Perm l2)
    (h : ∀ p ∈ l1, ∀ q ∈ l1, p = q) : l1.getLast? = l2.getLast? := by
  cases h1 : l1.getLast? with
  | none =>
    have : l1 = [] := by simpa using h1
    subst this
    have : l2 = [] := List.Perm.eq_nil hp.symm
    subst this
    rfl
  | some a =>
    cases h2 : l2.getLast? with
    | none =>
      have : l2 = [] := by simpa using h2
      subst this
      have : l1 = [] := List.Perm.eq_nil hp
      subst this
      simp at h1
    | some b =>
      have ha := List.mem_of_mem_getLast? h1
      have hb := hp.mem_iff.2 (List.mem_of_mem_getLast? h2)
      rw [h a ha b hb]

theorem passagePart_perm (es es2 : List Event) (hp : es.Perm es2) :
    (passagePart es).Perm (passagePart es2) := hp.filterMap _

theorem lessonPaths_perm (es es2 : List Event) (hp : es.Perm es2) :
    (lessonPaths es).Perm (lessonPaths es2) := hp.filterMap _

theorem describedMode_perm (es es2 : List Event) (hp : es.Perm es2) :
    describedMode es = describedMode es2 ↔ lessonFirst es = lessonFirst es2 := by
  have h1 : hasDictation (passagePart es) = hasDictation (passagePart es2) :=
    hasDictation_perm _ _ (passagePart_perm es es2 hp)
  have h2 : (lessonPaths es).isEmpty = (lessonPaths es2).isEmpty := by
    have := (lessonPaths_perm es es2 hp).length_eq
    cases ha : lessonPaths es <;> cases hb : lessonPaths es2 <;> simp [ha, hb] at this ⊢
  unfold describedMode
  rw [h1, h2]
  cases lessonFirst es <;> cases lessonFirst es2 <;>
    cases (hasDictation (passagePart es2) || !(lessonPaths es2).isEmpty) <;> decide

theorem modeOf_described (level lesson pattern : List Char) (es : List Event) :
    modeOf (describedRecord level lesson pattern es) =
      if es = [] then none else some (describedMode es) := by
  unfold describedRecord modeOf
  by_cases h : es = []
  · simp only [h, if_true]
    rfl
  · by_cases hp : passagePart es = []
    · simp only [h, hp, if_false, if_true]
      rfl
    · simp only [h, hp, if_false]
      rfl

theorem passageIdsOf_described (level lesson pattern : List Char) (es : List Event) :
    passageIdsOf (describedRecord level lesson pattern es) = passageIds (passagePart es) := by
  unfold passageIdsOf passagesOf
  rw [describedRecord_passages, List.map_map]
  have : ((fun x : Passage => x.id) ∘ expectedPassage (passagePart es)) = id :=
    funext (fun m => expectedPassage_id (passagePart es) m)
  rw [this, List.map_id]

theorem describedRecord_perm (level lesson pattern : List Char) (es es2 : List Event)
    (hp : es.Perm es2) (hc : CompatibleEvents es) :
    SameOutsideMode (describedRecord level lesson pattern es)
      (describedRecord level lesson pattern es2) := by
  have hlast : (lessonPaths es).getLast? = (lessonPaths es2).getLast? :=
    getLast?_eq_of_perm _ _ (lessonPaths_perm es es2 hp) hc.2
  have hpp := passagePart_perm es es2 hp
  unfold describedRecord
  by_cases he : es = []
  · subst he
    have : es2 = [] := List.Perm.eq_nil hp.symm
    subst this
    simp only [if_true, SameOutsideMode]
  · have he2 : es2 ≠ [] := fun h => he (List.Perm.eq_nil (h ▸ hp))
    by_cases hps : passagePart es = []
    · have hps2 : passagePart es2 = [] := List.Perm.eq_nil (hps ▸ hpp.symm)
      simp only [he, he2, hps, hps2, if_false, if_true, SameOutsideMode, hlast, true_and]
      exact Or.inl ⟨rfl, rfl⟩
    · have hps2 : passagePart es2 ≠ [] := fun h => hps (List.Perm.eq_nil (h ▸ hpp))
      simp only [he, he2, hps, hps2, if_false, SameOutsideMode, hlast, true_and]
      refine Or.inr ⟨_, _, rfl, rfl, ?_⟩
      have hfun : expectedPassage (passagePart es) = expectedPassage (passagePart es2) :=
        funext (expectedPassage_perm _ _ hpp hc.1)
      rw [hfun]
      exact (passageIds_perm _ _ hpp).map _

/-- C1 (amended). For classified events of one key, passage files of any kind and the
lesson-level `dictation.json`, that do not write different values to the same place, any two
orders of arrival, handled from the absent record, leave records with the same `title`,
`level`, `lesson`, `pattern`, `id` and `dictationPath` and the same passage entries, in any
order; the passages are listed in the order in which they first arrived; and the two `mode`
arrays are equal exactly when both orders start with the lesson-level file or both start with
a passage file. -/
theorem applyEvents_converge (level lesson pattern : List Char) (es es2 : List Event)
    (hp : es.Perm es2) (hc : CompatibleEvents es) :
    SameOutsideMode (applyEvents level lesson pattern es none)
      (applyEvents level lesson pattern es2 none) ∧
    (modeOf (applyEvents level lesson pattern es none) =
        modeOf (applyEvents level lesson pattern es2 none) ↔
      lessonFirst es = lessonFirst es2) ∧
    passageIdsOf (applyEvents level lesson pattern es none) = passageIds (passagePart es) := by
  have hc2 : Compatible (passagePart es2) := hc.1.perm (passagePart_perm es es2 hp)
  rw [applyEvents_eq_described level lesson pattern es hc.1,
    applyEvents_eq_described level lesson pattern es2 hc2]
  refine ⟨describedRecord_perm level lesson pattern es es2 hp hc, ?_,
    passageIdsOf_described level lesson pattern es⟩
  rw [modeOf_described, modeOf_described]
  by_cases he : es = []
  · subst he
    have : es2 = [] := List.Perm.eq_nil hp.symm
    subst this
    simp
  · have he2 : es2 ≠ [] := fun h => he (List.Perm.eq_nil (h ▸ hp))
    simp only [he, he2, if_false, Option.some.injEq]
    exact describedMode_perm es es2 hp

/-- Witness of `applyEvents_converge`: the lesson-level `dictation.json` and three passage
files of `Level3/Lesson2/B` in two orders, one starting with the lesson-level file. -/
theorem applyEvents_converge_witness :
    List.Perm arrivalLessonFirst arrivalPassageFirst ∧
    CompatibleEvents arrivalLessonFirst ∧
    SameOutsideMode
      (applyEvents "Level3".toList "Lesson2".toList "B".toList arrivalLessonFirst none)
      (applyEvents "Level3".toList "Lesson2".toList "B".toList arrivalPassageFirst none) ∧
    (modeOf (applyEvents "Level3".toList "Lesson2".toList "B".toList arrivalLessonFirst none) =
        modeOf (applyEvents "Level3".toList "Lesson2".toList "B".toList arrivalPassageFirst
          none) ↔
      lessonFirst arrivalLessonFirst = lessonFirst arrivalPassageFirst) ∧
    passageIdsOf (applyEvents "Level3".toList "Lesson2".toList "B".toList arrivalLessonFirst
      none) = passageIds (passagePart arrivalLessonFirst) :=
  ⟨by decide, by decide,
    applyEvents_converge "Level3".toList "Lesson2".toList "B".toList arrivalLessonFirst
      arrivalPassageFirst (by decide) (by decide)⟩

end Materials

/-! # The answers and the text replaced by the blank markers -/

namespace Dictation

/-! ## The text replaced by each blank marker -/

theorem markedText_append_singleton (segs : List (List Char × List Char))
    (x : List Char × List Char) :
    markedText (segs ++ [x]) = markedText segs ++ (x.1 ++ blankMarker) := by
  simp [markedText]

theorem plainText_append_singleton (segs : List (List Char × List Char))
    (x : List Char × List Char) :
    plainText (segs ++ [x]) = plainText segs ++ (x.1 ++ x.2) := by
  simp [plainText]

theorem markedText_split (pre post : List (List Char × List Char)) (x : List Char × List Char) :
    markedText (pre ++ x :: post) = (markedText pre ++ x.1) ++ (blankMarker ++ markedText post) := by
  simp [markedText]

theorem blankMarker_length : blankMarker.length = 8 := rfl

theorem blanked_init (pool : List (List Char)) (out : List Char) (h : '_' ∉ out) :
    Blanked out pool [] out [] out where
  sub := by simp
  text := rfl
  marked := rfl
  words := rfl
  clean := ⟨by simp, h⟩
  left := fun _ _ _ _ _ => Nat.zero_le _
  hidden := by
    intro pre x post hs
    cases pre <;> cases hs

theorem blanked_step (out : List Char) (pool : List (List Char))
    (hpool : ∀ w ∈ pool, PlainWord w) (hlow : ∀ w ∈ pool, w.map Char.toLower = w)
    (picked : List (List Char)) (working : List Char) (b : List Char × Nat)
    (h : ∃ segs tail, Blanked out pool picked working segs tail)
    (hb : findBest pool picked working = some b) :
    ∃ segs tail, Blanked out pool (picked ++ [b.1])
      (replaceOnceWholeWord working b.1 blankMarker) segs tail := by
  obtain ⟨segs, tail, h⟩ := h
  have hok := findBest_ok pool picked working
  rw [hb] at hok
  obtain ⟨hb1, hb2, hb3, hb4⟩ := hok
  obtain ⟨w, i⟩ := b
  simp only at hb1 hb2 hb3 hb4 ⊢
  obtain ⟨_, _, hmatch, hmin⟩ := findFrom_some _ _ _ _ hb3
  have hw := hpool w hb1
  obtain ⟨hlen, hwi, _, hprev⟩ := wholeWordAt_plain working w i hw hmatch
  have hLi : (markedText segs).length ≤ i := h.left w hb1 hb2 i hmatch
  obtain ⟨k, hk⟩ : ∃ k, i = (markedText segs).length + k := ⟨i - (markedText segs).length, by omega⟩
  have hW : working = markedText segs ++ tail := h.marked
  have hrep : replaceOnceWholeWord working w blankMarker =
      working.take i ++ (blankMarker ++ working.drop (i + w.length)) := by
    simp only [replaceOnceWholeWord, hb3, List.append_assoc]
  have htake : working.take i = markedText segs ++ tail.take k := by
    rw [hW, hk, List.take_append]
  have hdrop : ∀ m, working.drop ((markedText segs).length + m) = tail.drop m := by
    intro m
    rw [hW, List.drop_append]
  have hdropi : working.drop i = tail.drop k := by rw [hk, hdrop]
  have hdropw : working.drop (i + w.length) = tail.drop (k + w.length) := by
    rw [hk, Nat.add_assoc, hdrop]
  have htail : tail = tail.take k ++ ((tail.drop k).take w.length ++ tail.drop (k + w.length)) := by
    rw [drop_add_eq tail k w.length, List.take_append_drop, List.take_append_drop]
  have hocc : ((tail.drop k).take w.length).map Char.toLower = w := by
    have hm : ciMatchAt working w i = true := by
      simp only [wholeWordAt, Bool.and_eq_true] at hmatch
      exact hmatch.1.2
    simp only [ciMatchAt, beq_iff_eq, hdropi] at hm
    rw [hm, hlow w hb1]
  have hXlen : (working.take i).length = i := by
    rw [List.length_take]; omega
  have hWsplit : working = working.take i ++ working.drop i :=
    (List.take_append_drop i working).symm
  have hpre : ∀ n, n < i →
      (working.take i ++ (blankMarker ++ working.drop (i + w.length)))[n]? = working[n]? := by
    intro n hn
    rw [List.getElem?_append_left (by omega), List.getElem?_take_of_lt hn]
  have hmid : ∀ n, i ≤ n → n < i + 8 →
      (working.take i ++ (blankMarker ++ working.drop (i + w.length)))[n]? = some '_' := by
    intro n hn1 hn2
    rw [List.getElem?_append_right (by omega), hXlen,
      List.getElem?_append_left (by rw [blankMarker_length]; omega)]
    exact blankMarker_getElem? _ (by omega)
  have hnew : working.take i ++ (blankMarker ++ working.drop (i + w.length)) =
      markedText (segs ++ [(tail.take k, (tail.drop k).take w.length)]) ++
        tail.drop (k + w.length) := by
    rw [markedText_append_singleton, htake, hdropw]
    simp only [List.append_assoc]
  have hnewlen : (markedText (segs ++ [(tail.take k, (tail.drop k).take w.length)])).length =
      i + 8 := by
    have h1 := congrArg List.length htake
    rw [hXlen, List.length_append] at h1
    rw [markedText_append_singleton]
    simp only [List.length_append, blankMarker_length]
    omega
  rw [hrep]
  refine ⟨segs ++ [(tail.take k, (tail.drop k).take w.length)], tail.drop (k + w.length),
    ?_, ?_, hnew, ?_, ?_, ?_, ?_⟩
  · intro a ha
    rcases List.mem_append.1 ha with ha | ha
    · exact h.sub a ha
    · simp only [List.mem_singleton] at ha; subst ha; exact hb1
  · rw [plainText_append_singleton, List.append_assoc, List.append_assoc, ← htail]
    exact h.text
  · rw [List.map_append, ← h.words, List.map_singleton, hocc]
  · refine ⟨?_, fun hin => h.clean.2 ((List.drop_sublist _ _).subset hin)⟩
    intro x hx
    rcases List.mem_append.1 hx with hx | hx
    · exact h.clean.1 x hx
    · simp only [List.mem_singleton] at hx
      subst hx
      exact fun hin => h.clean.2 ((List.take_sublist _ _).subset hin)
  · intro v hv hvp p hp
    rw [hnewlen]
    have hvp1 : v ∉ picked := fun hin => hvp (List.mem_append_left _ hin)
    have hvw : PlainWord v := hpool v hv
    by_contra hcon
    by_cases hle : p + v.length ≤ i
    · have hwm : wordAt (working.take i ++ (blankMarker ++ working.drop (i + w.length))) i =
          wordAt working i := by
        rw [hwi]
        simp only [wordAt, hmid i (le_refl _) (by omega)]
        decide
      rw [wholeWordAt_congr _ working v i p hpre hwm hle] at hp
      obtain ⟨i0, hi0, hi0p⟩ := firstIndex_le_of_match working v p (by omega) hp
      have := hb4 v hv hvp1 i0 hi0
      have := hvw.length_pos
      omega
    · exact wholeWordAt_no_underscore _ v p hvw hp (max p i) (le_max_left _ _)
        (by rw [max_lt_iff]; have := hvw.length_pos; omega)
        (hmid _ (le_max_right _ _) (by rw [max_lt_iff]; omega))
  · intro pre x post hs i0 hi0
    rcases List.eq_nil_or_concat post with hpost | ⟨post0, y, hpost⟩
    · subst hpost
      obtain ⟨e1, e2⟩ := List.append_inj' hs rfl
      simp only [List.cons.injEq, and_true] at e2
      subst e1
      subst e2
      simp only at hi0 ⊢
      rw [hocc]
      have hi1 : i0 < (working.take i).length := by rw [htake]; exact hi0
      have e1 : working.take i ++ (blankMarker ++ working.drop (i + w.length)) =
          working.take i ++ '_' :: (List.replicate 7 '_' ++ working.drop (i + w.length)) := by
        rw [blankMarker_eq]; simp only [List.cons_append]
      rw [e1]
      refine noMatch_left_transfer (working.take i) (working.drop i) _ w hw ?_ ?_ i0 hi1
      · rw [← hWsplit, hXlen]; exact hwi
      · rw [← hWsplit, hXlen]; exact fun n hn => hmin n (Nat.zero_le _) hn
    · subst hpost
      have hs2 : segs ++ [(tail.take k, (tail.drop k).take w.length)] =
          (pre ++ x :: post0) ++ [y] := by
        rw [hs]; simp only [List.concat_eq_append, List.append_assoc, List.cons_append]
      obtain ⟨e1, _⟩ := List.append_inj' hs2 rfl
      have hold := h.hidden pre x post0 e1
      have ha : PlainWord (x.2.map Char.toLower) := by
        apply hpool
        apply h.sub
        rw [h.words, e1]
        simp
      have e2 : working = (markedText pre ++ x.1) ++ (blankMarker ++ (markedText post0 ++ tail)) := by
        rw [hW, e1, markedText_split]
        simp only [List.append_assoc]
      have e3 : working.take i ++ (blankMarker ++ working.drop (i + w.length)) =
          (markedText pre ++ x.1) ++ '_' :: (List.replicate 7 '_' ++ (markedText post0 ++
            (tail.take k ++ (blankMarker ++ working.drop (i + w.length))))) := by
        rw [htake, e1, markedText_split, blankMarker_eq]
        simp only [List.append_assoc, List.cons_append]
      rw [e3]
      refine noMatch_left_transfer (markedText pre ++ x.1) (blankMarker ++ (markedText post0 ++ tail))
        _ _ ha ?_ ?_ i0 hi0
      · rw [blankMarker_eq]
        simp only [wordAt, List.cons_append, getElem?_append_cons_length]
        decide
      · rw [← e2]; exact hold

theorem clozeLoop_blanked (pool : List (List Char)) (hpool : ∀ w ∈ pool, PlainWord w)
    (hlow : ∀ w ∈ pool, w.map Char.toLower = w) (fuel : Nat) (out : List Char)
    (h : '_' ∉ out) :
    ∃ segs tail, Blanked out pool (clozeLoop pool fuel [] out).1 (clozeLoop pool fuel [] out).2
      segs tail :=
  clozeLoop_induct pool (fun picked working => ∃ segs tail, Blanked out pool picked working segs tail)
    (fun picked working b hi hb => blanked_step out pool hpool hlow picked working b hi hb)
    fuel [] out ⟨[], out, blanked_init pool out h⟩

/-- The pool words of a snippet without underscores are plain, apart from those that start or
end with an apostrophe. -/
theorem plainWord_of_edges (s w : List Char) (hu : '_' ∉ s)
    (hw : w ∈ eligibleWords (normalizeSpaces s))
    (hq : w.head? ≠ some '\'' ∧ w.getLast? ≠ some '\'') : PlainWord w := by
  rw [mem_eligibleWords, tokenize_normalizeSpaces] at hw
  obtain ⟨ht, h4, _, _⟩ := hw
  have hne : w ≠ [] := by
    intro h; subst h; simp at h4
  have hchar : ∀ c ∈ w, c ≠ '_' := by
    intro c hc h
    obtain ⟨d, hd, hcd⟩ := mem_token_char s w ht c hc
    rw [hcd, toLower_eq_underscore] at h
    subst h
    rcases hd with hd | hd
    · exact hu hd
    · exact absurd hd (by decide)
  obtain ⟨_, raw, _, hraw⟩ := mem_tokenize s w ht
  have hword : ∀ c, c ≠ '\'' → isEdgeJunk c = false → isWordChar c = true := by
    intro c hc hj
    simp only [isEdgeJunk, Bool.not_eq_false', Bool.or_eq_true, beq_iff_eq] at hj
    rcases hj with hj | hj
    · exact hj
    · exact absurd hj hc
  refine ⟨hne, fun h => hchar _ h rfl, fun c hc => ?_, fun c hc => ?_⟩
  · exact hword c (fun h => hq.1 (h ▸ hc)) (normalizeWord_head raw c (hraw ▸ hc))
  · exact hword c (fun h => hq.2 (h ▸ hc)) (normalizeWord_getLast raw c (hraw ▸ hc))

theorem eligible_lower (s w : List Char) (hw : w ∈ eligibleWords s) :
    w.map Char.toLower = w := by
  rw [mem_eligibleWords] at hw
  obtain ⟨_, raw, _, hraw⟩ := mem_tokenize s w hw.1
  rw [hraw]
  exact normalizeWord_lower raw

/-- C5 (amended). For a snippet without underscores in which no eligible pool word starts or
ends with an apostrophe, and for every `blankCount`: the sentence returned by
`buildClozeFromSnippet` is the normalised snippet in which, for each answer in the order of
`answers`, one piece of text has been replaced by a blank marker; the answer is that piece of
text in lower case; the text outside the markers is unchanged and holds no underscore; there
are as many runs of underscores as answers; and no answer has a whole-word occurrence anywhere
to the left of the marker it fills. -/
theorem buildCloze_blanks_hold_answers (snippet : List Char) (blankCount : Nat)
    (hu : '_' ∉ snippet)
    (hq : ∀ w ∈ eligibleWords snippet, w.head? ≠ some '\'' ∧ w.getLast? ≠ some '\'') :
    (buildClozeFromSnippet snippet blankCount).answers.length =
        countBlanks (buildClozeFromSnippet snippet blankCount).sentence ∧
    ∃ segs tail,
      normalizeSpaces snippet = plainText segs ++ tail ∧
      (buildClozeFromSnippet snippet blankCount).sentence = markedText segs ++ tail ∧
      (buildClozeFromSnippet snippet blankCount).answers =
        segs.map (fun x => x.2.map Char.toLower) ∧
      (∀ x ∈ segs, '_' ∉ x.1) ∧ '_' ∉ tail ∧
      ∀ pre x post, segs = pre ++ x :: post → ∀ i, i < (markedText pre ++ x.1).length →
        wholeWordAt (buildClozeFromSnippet snippet blankCount).sentence
          (x.2.map Char.toLower) i = false := by
  unfold buildClozeFromSnippet
  by_cases he : (normalizeSpaces snippet).isEmpty = true
  · have h0 : normalizeSpaces snippet = [] := by simpa using he
    simp only [he, if_true]
    refine ⟨rfl, [], [], h0, rfl, rfl, by simp, by simp, ?_⟩
    intro pre x post hs
    cases pre <;> cases hs
  · simp only [he, Bool.false_eq_true, if_false]
    have hplain : ∀ w ∈ eligibleWords (normalizeSpaces snippet), PlainWord w := by
      intro w hw
      apply plainWord_of_edges snippet w hu hw
      rw [eligibleWords_normalizeSpaces] at hw
      exact hq w hw
    have hinv := clozeLoop_inv (eligibleWords (normalizeSpaces snippet)) hplain blankCount
      (normalizeSpaces snippet) (normalizeSpaces_no_underscore snippet hu)
    obtain ⟨segs, tail, hbl⟩ := clozeLoop_blanked (eligibleWords (normalizeSpaces snippet))
      hplain (fun w hw => eligible_lower _ w hw) blankCount (normalizeSpaces snippet)
      (normalizeSpaces_no_underscore snippet hu)
    have htake : (clozeLoop (eligibleWords (normalizeSpaces snippet)) blankCount []
        (normalizeSpaces snippet)).1.take (countBlanks (clozeLoop (eligibleWords
        (normalizeSpaces snippet)) blankCount [] (normalizeSpaces snippet)).2) =
        (clozeLoop (eligibleWords (normalizeSpaces snippet)) blankCount []
          (normalizeSpaces snippet)).1 := by
      rw [hinv.count]; exact List.take_length _
    rw [htake]
    exact ⟨hinv.count.symm, segs, tail, hbl.text, hbl.marked, hbl.words, hbl.clean.1,
      hbl.clean.2, hbl.hidden⟩

/-- Witness of `buildCloze_blanks_hold_answers` on a snippet that repeats a word and holds a
word with an apostrophe inside (`don't` is an eligible pool word). -/
theorem buildCloze_blanks_hold_answers_witness :
    '_' ∉ "Don't cross the river where the river bends.".toList ∧
    (∀ w ∈ eligibleWords "Don't cross the river where the river bends.".toList,
      w.head? ≠ some '\'' ∧ w.getLast? ≠ some '\'') ∧
    (buildClozeFromSnippet "Don't cross the river where the river bends.".toList 3).answers.length =
      countBlanks
        (buildClozeFromSnippet "Don't cross the river where the river bends.".toList 3).sentence ∧
    ∃ segs tail,
      normalizeSpaces "Don't cross the river where the river bends.".toList =
        plainText segs ++ tail ∧
      (buildClozeFromSnippet "Don't cross the river where the river bends.".toList 3).sentence =
        markedText segs ++ tail ∧
      (buildClozeFromSnippet "Don't cross the river where the river bends.".toList 3).answers =
        segs.map (fun x => x.2.map Char.toLower) ∧
      (∀ x ∈ segs, '_' ∉ x.1) ∧ '_' ∉ tail ∧
      ∀ pre x post, segs = pre ++ x :: post → ∀ i, i < (markedText pre ++ x.1).length →
        wholeWordAt
          (buildClozeFromSnippet "Don't cross the river where the river bends.".toList 3).sentence
          (x.2.map Char.toLower) i = false :=
  ⟨by decide, by decide,
    buildCloze_blanks_hold_answers "Don't cross the river where the river bends.".toList 3
      (by decide) (by decide)⟩

/-- A pool word that starts with an apostrophe can be found right after a blank marker, where
the underscore before it makes a word boundary: in "rock'n'roll rock'n'roll 'n'roll rock" with
three blanks the loop picks `rock'n'roll`, `rock` and `'n'roll`, the last two markers form one
run of 16 underscores, two answers are returned for three replaced pieces of text, and
`fillBlanks` does not give the snippet back. -/
theorem buildCloze_edge_apostrophe_merges_markers :
    '_' ∉ "rock'n'roll rock'n'roll 'n'roll rock".toList ∧
    "'n'roll".toList ∈ eligibleWords "rock'n'roll rock'n'roll 'n'roll rock".toList ∧
    (clozeLoop (eligibleWords "rock'n'roll rock'n'roll 'n'roll rock".toList) 3 []
      "rock'n'roll rock'n'roll 'n'roll rock".toList).1 =
      ["rock'n'roll".toList, "rock".toList, "'n'roll".toList] ∧
    (buildClozeFromSnippet "rock'n'roll rock'n'roll 'n'roll rock".toList 3).sentence =
      "________ ________________ 'n'roll rock".toList ∧
    (buildClozeFromSnippet "rock'n'roll rock'n'roll 'n'roll rock".toList 3).answers =
      ["rock'n'roll".toList, "rock".toList] ∧
    fillBlanks "________ ________________ 'n'roll rock".toList
        ["rock'n'roll".toList, "rock".toList] =
      "rock'n'roll rock 'n'roll rock".toList := by
  exact ⟨by decide, by decide, by decide, by decide, by decide, by decide⟩

end Dictation
